import Mathlib

/-!
Verification of the interprocedural flow-construction core of the
`paralegal_MIR_mappings` repository: global location addressing
(`src/ana.rs`), the recursion-breaking memoization cache
(`src/utils.rs`) and the inliner with its graph reductions
(`src/ana/inline.rs`).

Machine integers (`mir::Local`, `hir_id`, block/statement indices,
argument indices, `DefId`) are modelled as `Nat`; none of the code
under scrutiny performs arithmetic that can overflow their 32/64-bit
ranges, so no modular wrap-around is modelled.
-/

namespace Paralegal

/-!
Identifier conventions (plain `Nat` is used for all of them, since the
`omega` and `decide` automation works best on bare `Nat`):
a "local" is a `mir::Local` index (`RETURN_PLACE` is local `0`, the
i-th argument is local `i + 1`, cf. `arg_num_to_local` in `inline.rs`);
a "function" or "body id" is a `BodyId` (identified by its `hir_id`,
which is what `GlobalLocation::partial_cmp` compares); a "def id" is a
`DefId` of a possibly non-local function.
-/

/-- `mir::Location`: a basic-block index plus a statement index.  Its
derived `PartialOrd` is lexicographic. -/
structure MirLoc where
  block : Nat
  statementIndex : Nat
  deriving DecidableEq, Repr

/-- The comparison of `mir::Location` (derived lexicographically from
its two `usize` fields, hence total). -/
def mirLocCmp (a b : MirLoc) : Ordering :=
  (compare a.block b.block).then (compare a.statementIndex b.statementIndex)

/-- `GlobalLocation` (`src/ana.rs`, `GlobalLocationS`): a non-empty
chain `{function, location, next : Option<GlobalLocation>}`, organized
outermost-to-innermost.  The `Option` field of the source struct is
encoded by the two constructors: `base f l` is the struct with
`next = None` and `nest f l g` the one with `next = Some g`. -/
inductive GLoc where
  | base (function : Nat) (location : MirLoc)
  | nest (function : Nat) (location : MirLoc) (next : GLoc)
  deriving DecidableEq, Repr

/-- `IsGlobalLocation::function` (`src/ana.rs`). -/
def GLoc.function : GLoc → Nat
  | .base f _ => f
  | .nest f _ _ => f

/-- `IsGlobalLocation::location` (`src/ana.rs`). -/
def GLoc.location : GLoc → MirLoc
  | .base _ l => l
  | .nest _ l _ => l

/-- `IsGlobalLocation::next` (`src/ana.rs`). -/
def GLoc.next : GLoc → Option GLoc
  | .base _ _ => none
  | .nest _ _ n => some n

/-- `IsGlobalLocation::is_at_root` (`src/ana.rs`): the chain has no
`next` link. -/
def GLoc.isAtRoot : GLoc → Bool
  | .base _ _ => true
  | .nest _ _ _ => false

/-- `IsGlobalLocation::innermost_location_and_body` (`src/ana.rs`):
walk to the end of the chain. -/
def GLoc.innermost : GLoc → MirLoc × Nat
  | .base f l => (l, f)
  | .nest _ _ n => n.innermost

/-- The innermost `BodyId` of the chain (`innermost_function` in the
`ir::global_location` module, a projection of
`innermost_location_and_body`). -/
def GLoc.innermostFunction (g : GLoc) : Nat := g.innermost.2

/-- The innermost `mir::Location` of the chain (`innermost_location`). -/
def GLoc.innermostLocation (g : GLoc) : MirLoc := g.innermost.1

/-- Modelled from the spec: `outermost()` of the `ir::global_location`
module (absent from `src/`); per the spec the chain is "ordered
outermost-to-innermost", so this is the data of the head link. -/
def GLoc.outermost (g : GLoc) : MirLoc × Nat := (g.location, g.function)

/-- The outermost `mir::Location` (`outermost_location` of the missing
`ir::global_location` module). -/
def GLoc.outermostLocation (g : GLoc) : MirLoc := g.location

/-- Modelled from the spec: `parent()` of the `ir::global_location`
module (absent from `src/`; the spec says "second-to-last link (the
enclosing call site), or none if this is already top-level").  Drops
the innermost link of the chain, yielding the global address of the
enclosing call site. -/
def GLoc.parent : GLoc → Option GLoc
  | .base _ _ => none
  | .nest f l n =>
    some (match n.parent with
          | none => .base f l
          | some p => .nest f l p)

/-- `GLI::globalize_location` (`src/ana.rs`): a top-level (non-nested)
global location. -/
def GLoc.globalize (location : MirLoc) (function : Nat) : GLoc :=
  .base function location

/-- `GLI::global_location_from_relative` (`src/ana.rs`): nest
`relative` behind the call at `rootLocation` in `rootFunction`. -/
def GLoc.fromRelative (relative : GLoc) (rootLocation : MirLoc) (rootFunction : Nat) : GLoc :=
  .nest rootFunction rootLocation relative

/-- `GlobalLocation::partial_cmp` (`src/ana.rs` lines 104-122):
compare the `hir_id`s of the functions if they differ; otherwise, if
the local locations agree, recurse into `next` (with `None` less than
`Some`), else compare the local locations. -/
def glPartialCmp : GLoc → GLoc → Option Ordering
  | a, b =>
    if a.function ≠ b.function then
      some (compare a.function b.function)
    else if a.location = b.location then
      match a, b with
      | .nest _ _ x, .nest _ _ y => glPartialCmp x y
      | .base _ _, .base _ _ => some .eq
      | .base _ _, .nest _ _ _ => some .lt
      | .nest _ _ _, .base _ _ => some .gt
    else
      some (mirLocCmp a.location b.location)

/-- The chain of a `GlobalLocation` flattened into the list of its
links' payloads, outermost first.  `glPartialCmp` is shown to be the
lexicographic comparison of these lists. -/
def GLoc.toChain : GLoc → List (Nat × MirLoc)
  | .base f l => [(f, l)]
  | .nest f l n => (f, l) :: n.toChain

/-- Comparison of a single chain link: function (`hir_id`) first, then
the location. -/
def linkCmp (a b : Nat × MirLoc) : Ordering :=
  (compare a.1 b.1).then (mirLocCmp a.2 b.2)

/-- Lexicographic comparison of chains, with a shorter chain that is a
prefix of a longer one ordered first (`None < Some(_)`). -/
def chainCmp : List (Nat × MirLoc) → List (Nat × MirLoc) → Ordering
  | [], [] => .eq
  | [], _ :: _ => .lt
  | _ :: _, [] => .gt
  | x :: xs, y :: ys => (linkCmp x y).then (chainCmp xs ys)

theorem Ordering.then_eq_self_of_ne_eq {o p : Ordering} (h : o ≠ .eq) : o.then p = o := by
  cases o <;> simp_all [Ordering.then]

theorem Ordering.then_eq {p : Ordering} : Ordering.eq.then p = p := rfl

theorem mirLocCmp_lt_iff {a b : MirLoc} :
    mirLocCmp a b = .lt ↔
      a.block < b.block ∨ (a.block = b.block ∧ a.statementIndex < b.statementIndex) := by
  obtain ⟨ab, as⟩ := a
  obtain ⟨bb, bs⟩ := b
  simp only [mirLocCmp]
  rcases hb : compare ab bb with _ | _ | _
  · rw [Nat.compare_eq_lt] at hb
    simp only [Ordering.then]
    simp only [true_iff]
    exact Or.inl hb
  · rw [Nat.compare_eq_eq] at hb
    simp only [Ordering.then, Nat.compare_eq_lt]
    omega
  · rw [Nat.compare_eq_gt] at hb
    simp only [Ordering.then]
    constructor
    · intro h; cases h
    · omega

theorem mirLocCmp_eq_iff {a b : MirLoc} : mirLocCmp a b = .eq ↔ a = b := by
  obtain ⟨ab, as⟩ := a
  obtain ⟨bb, bs⟩ := b
  simp only [mirLocCmp, MirLoc.mk.injEq]
  rcases hb : compare ab bb with _ | _ | _
  · rw [Nat.compare_eq_lt] at hb
    simp only [Ordering.then]
    constructor
    · intro h; cases h
    · omega
  · rw [Nat.compare_eq_eq] at hb
    simp only [Ordering.then, Nat.compare_eq_eq]
    omega
  · rw [Nat.compare_eq_gt] at hb
    simp only [Ordering.then]
    constructor
    · intro h; cases h
    · omega

theorem mirLocCmp_gt_iff {a b : MirLoc} :
    mirLocCmp a b = .gt ↔
      b.block < a.block ∨ (a.block = b.block ∧ b.statementIndex < a.statementIndex) := by
  obtain ⟨ab, as⟩ := a
  obtain ⟨bb, bs⟩ := b
  simp only [mirLocCmp]
  rcases hb : compare ab bb with _ | _ | _
  · rw [Nat.compare_eq_lt] at hb
    simp only [Ordering.then]
    constructor
    · intro h; cases h
    · omega
  · rw [Nat.compare_eq_eq] at hb
    simp only [Ordering.then, Nat.compare_eq_gt]
    omega
  · rw [Nat.compare_eq_gt] at hb
    simp only [Ordering.then]
    simp only [true_iff]
    exact Or.inl hb

theorem linkCmp_lt_iff {a b : Nat × MirLoc} :
    linkCmp a b = .lt ↔
      a.1 < b.1 ∨ (a.1 = b.1 ∧
        (a.2.block < b.2.block ∨
          (a.2.block = b.2.block ∧ a.2.statementIndex < b.2.statementIndex))) := by
  obtain ⟨af, al⟩ := a
  obtain ⟨bf, bl⟩ := b
  simp only [linkCmp]
  rcases hb : compare af bf with _ | _ | _
  · rw [Nat.compare_eq_lt] at hb
    simp only [Ordering.then]
    simp only [true_iff]
    exact Or.inl hb
  · rw [Nat.compare_eq_eq] at hb
    subst hb
    simp only [Ordering.then, mirLocCmp_lt_iff]
    simp
  · rw [Nat.compare_eq_gt] at hb
    simp only [Ordering.then]
    constructor
    · intro h; cases h
    · intro h; exfalso; omega

theorem linkCmp_eq_iff {a b : Nat × MirLoc} : linkCmp a b = .eq ↔ a = b := by
  obtain ⟨af, al⟩ := a
  obtain ⟨bf, bl⟩ := b
  simp only [linkCmp, Prod.mk.injEq]
  rcases hb : compare af bf with _ | _ | _
  · rw [Nat.compare_eq_lt] at hb
    simp only [Ordering.then]
    constructor
    · intro h; cases h
    · rintro ⟨h1, h2⟩; exfalso; omega
  · rw [Nat.compare_eq_eq] at hb
    simp only [Ordering.then, mirLocCmp_eq_iff]
    subst hb
    simp
  · rw [Nat.compare_eq_gt] at hb
    simp only [Ordering.then]
    constructor
    · intro h; cases h
    · rintro ⟨h1, h2⟩; exfalso; omega

theorem linkCmp_gt_iff {a b : Nat × MirLoc} :
    linkCmp a b = .gt ↔
      b.1 < a.1 ∨ (a.1 = b.1 ∧
        (b.2.block < a.2.block ∨
          (a.2.block = b.2.block ∧ b.2.statementIndex < a.2.statementIndex))) := by
  obtain ⟨af, al⟩ := a
  obtain ⟨bf, bl⟩ := b
  simp only [linkCmp]
  rcases hb : compare af bf with _ | _ | _
  · rw [Nat.compare_eq_lt] at hb
    simp only [Ordering.then]
    constructor
    · intro h; cases h
    · intro h; exfalso; omega
  · rw [Nat.compare_eq_eq] at hb
    subst hb
    simp only [Ordering.then, mirLocCmp_gt_iff]
    simp
  · rw [Nat.compare_eq_gt] at hb
    simp only [Ordering.then]
    simp only [true_iff]
    exact Or.inl hb

theorem linkCmp_lt_trans {a b c : Nat × MirLoc}
    (h1 : linkCmp a b = .lt) (h2 : linkCmp b c = .lt) : linkCmp a c = .lt := by
  rw [linkCmp_lt_iff] at h1 h2 ⊢; omega

theorem linkCmp_lt_iff_gt {a b : Nat × MirLoc} : linkCmp a b = .lt ↔ linkCmp b a = .gt := by
  rw [linkCmp_lt_iff, linkCmp_gt_iff]
  omega

theorem linkCmp_trichotomy (a b : Nat × MirLoc) :
    linkCmp a b = .lt ∨ linkCmp a b = .eq ∨ linkCmp a b = .gt := by
  cases h : linkCmp a b <;> simp

theorem chainCmp_eq_iff :
    ∀ {l₁ l₂ : List (Nat × MirLoc)}, chainCmp l₁ l₂ = .eq ↔ l₁ = l₂ := by
  intro l₁
  induction l₁ with
  | nil => intro l₂; cases l₂ <;> simp [chainCmp]
  | cons x xs ih =>
    intro l₂
    cases l₂ with
    | nil => simp [chainCmp]
    | cons y ys =>
      simp only [chainCmp]
      rcases linkCmp_trichotomy x y with h | h | h
      · rw [h]
        simp [Ordering.then]
        intro hxy
        rw [← linkCmp_eq_iff (a := x) (b := y)] at hxy
        simp [h] at hxy
      · rw [h, Ordering.then_eq, ih]
        rw [linkCmp_eq_iff] at h
        simp [h]
      · rw [h]
        simp [Ordering.then]
        intro hxy
        rw [← linkCmp_eq_iff (a := x) (b := y)] at hxy
        simp [h] at hxy

theorem chainCmp_lt_iff_gt :
    ∀ {l₁ l₂ : List (Nat × MirLoc)}, chainCmp l₁ l₂ = .lt ↔ chainCmp l₂ l₁ = .gt := by
  intro l₁
  induction l₁ with
  | nil => intro l₂; cases l₂ <;> simp [chainCmp]
  | cons x xs ih =>
    intro l₂
    cases l₂ with
    | nil => simp [chainCmp]
    | cons y ys =>
      simp only [chainCmp]
      rcases linkCmp_trichotomy x y with h | h | h
      · have h' : linkCmp y x = .gt := linkCmp_lt_iff_gt.mp h
        rw [h, h', Ordering.then_eq_self_of_ne_eq (by simp),
          Ordering.then_eq_self_of_ne_eq (by simp)]
        simp
      · have h' : linkCmp y x = .eq := by
          rw [linkCmp_eq_iff] at h ⊢
          exact h.symm
        rw [h, h', Ordering.then_eq, Ordering.then_eq, ih]
      · have h' : linkCmp y x = .lt := by
          rw [linkCmp_lt_iff_gt]; exact h
        rw [h, h', Ordering.then_eq_self_of_ne_eq (by simp),
          Ordering.then_eq_self_of_ne_eq (by simp)]
        simp

theorem chainCmp_lt_trans :
    ∀ {l₁ l₂ l₃ : List (Nat × MirLoc)},
      chainCmp l₁ l₂ = .lt → chainCmp l₂ l₃ = .lt → chainCmp l₁ l₃ = .lt := by
  intro l₁
  induction l₁ with
  | nil =>
    intro l₂ l₃ h1 h2
    cases l₂ with
    | nil => exact h2
    | cons y ys => cases l₃ with
      | nil => simp [chainCmp] at h2
      | cons z zs => simp [chainCmp]
  | cons x xs ih =>
    intro l₂ l₃ h1 h2
    cases l₂ with
    | nil => simp [chainCmp] at h1
    | cons y ys =>
      cases l₃ with
      | nil => simp [chainCmp] at h2
      | cons z zs =>
        simp only [chainCmp] at h1 h2 ⊢
        rcases linkCmp_trichotomy x y with hxy | hxy | hxy <;>
          rcases linkCmp_trichotomy y z with hyz | hyz | hyz
        · rw [linkCmp_lt_trans hxy hyz]
          rfl
        · obtain rfl := linkCmp_eq_iff.mp hyz
          rw [hxy]
          rfl
        · rw [hyz] at h2
          simp [Ordering.then] at h2
        · obtain rfl := linkCmp_eq_iff.mp hxy
          rw [hyz]
          rfl
        · obtain rfl := linkCmp_eq_iff.mp hxy
          obtain rfl := linkCmp_eq_iff.mp hyz
          rw [hxy, Ordering.then_eq] at h1 ⊢
          rw [hyz, Ordering.then_eq] at h2
          exact ih h1 h2
        · rw [hyz] at h2
          simp [Ordering.then] at h2
        · rw [hxy] at h1
          simp [Ordering.then] at h1
        · rw [hxy] at h1
          simp [Ordering.then] at h1
        · rw [hxy] at h1
          simp [Ordering.then] at h1

theorem GLoc.toChain_ne_nil : ∀ g : GLoc, g.toChain ≠ [] := by
  intro g
  cases g <;> simp [GLoc.toChain]

theorem GLoc.toChain_injective : Function.Injective GLoc.toChain := by
  intro a
  induction a with
  | base f l =>
    intro b hb
    cases b with
    | base f' l' =>
      simp only [GLoc.toChain, List.cons.injEq, Prod.mk.injEq, and_true] at hb
      obtain ⟨rfl, rfl⟩ := hb
      rfl
    | nest f' l' n' =>
      simp only [GLoc.toChain, List.cons.injEq, Prod.mk.injEq] at hb
      exact absurd hb.2.symm (GLoc.toChain_ne_nil n')
  | nest f l n ih =>
    intro b hb
    cases b with
    | base f' l' =>
      simp only [GLoc.toChain, List.cons.injEq, Prod.mk.injEq] at hb
      exact absurd hb.2 (GLoc.toChain_ne_nil n)
    | nest f' l' n' =>
      simp only [GLoc.toChain, List.cons.injEq, Prod.mk.injEq] at hb
      obtain ⟨⟨rfl, rfl⟩, h2⟩ := hb
      rw [ih h2]

theorem linkCmp_same_fn (f : Nat) (l l' : MirLoc) :
    linkCmp (f, l) (f, l') = mirLocCmp l l' := by
  show (compare f f).then (mirLocCmp l l') = mirLocCmp l l'
  rw [Nat.compare_eq_eq.mpr rfl]
  exact Ordering.then_eq

theorem linkCmp_ne_fn {f f' : Nat} (h : f ≠ f') (l l' : MirLoc) :
    linkCmp (f, l) (f', l') = compare f f' := by
  show (compare f f').then (mirLocCmp l l') = compare f f'
  exact Ordering.then_eq_self_of_ne_eq (fun hc => h (Nat.compare_eq_eq.mp hc))

theorem thenEqRight (o : Ordering) : o.then .eq = o := by
  cases o <;> rfl

theorem chainCmp_nil_toChain (g : GLoc) : chainCmp [] g.toChain = .lt := by
  cases g <;> rfl

theorem chainCmp_toChain_nil (g : GLoc) : chainCmp g.toChain [] = .gt := by
  cases g <;> rfl

theorem mirLocCmp_ne_eq {l l' : MirLoc} (hl : l ≠ l') : mirLocCmp l l' ≠ .eq :=
  fun h => hl (mirLocCmp_eq_iff.mp h)

theorem natCmp_ne_eq {f f' : Nat} (hf : f ≠ f') : compare f f' ≠ .eq :=
  fun h => hf (Nat.compare_eq_eq.mp h)

theorem glPartialCmp_eq_chainCmp :
    ∀ a b : GLoc, glPartialCmp a b = some (chainCmp a.toChain b.toChain) := by
  intro a
  induction a with
  | base f l =>
    intro b
    cases b with
    | base f' l' =>
      rw [glPartialCmp]
      simp only [GLoc.toChain, chainCmp, GLoc.function, GLoc.location]
      by_cases hf : f = f'
      · subst hf
        rw [linkCmp_same_fn, thenEqRight]
        by_cases hl : l = l'
        · subst hl
          simp [mirLocCmp_eq_iff.mpr rfl]
        · simp [hl]
      · rw [linkCmp_ne_fn hf, thenEqRight]
        simp [hf]
    | nest f' l' y =>
      rw [glPartialCmp]
      simp only [GLoc.toChain, chainCmp, GLoc.function, GLoc.location]
      by_cases hf : f = f'
      · subst hf
        rw [linkCmp_same_fn]
        by_cases hl : l = l'
        · subst hl
          rw [mirLocCmp_eq_iff.mpr rfl, Ordering.then_eq, chainCmp_nil_toChain]
          simp
        · rw [Ordering.then_eq_self_of_ne_eq (mirLocCmp_ne_eq hl)]
          simp [hl]
      · rw [linkCmp_ne_fn hf, Ordering.then_eq_self_of_ne_eq (natCmp_ne_eq hf)]
        simp [hf]
  | nest f l x ih =>
    intro b
    cases b with
    | base f' l' =>
      rw [glPartialCmp]
      simp only [GLoc.toChain, chainCmp, GLoc.function, GLoc.location]
      by_cases hf : f = f'
      · subst hf
        rw [linkCmp_same_fn]
        by_cases hl : l = l'
        · subst hl
          rw [mirLocCmp_eq_iff.mpr rfl, Ordering.then_eq, chainCmp_toChain_nil]
          simp
        · rw [Ordering.then_eq_self_of_ne_eq (mirLocCmp_ne_eq hl)]
          simp [hl]
      · rw [linkCmp_ne_fn hf, Ordering.then_eq_self_of_ne_eq (natCmp_ne_eq hf)]
        simp [hf]
    | nest f' l' y =>
      rw [glPartialCmp]
      simp only [GLoc.toChain, chainCmp, GLoc.function, GLoc.location]
      by_cases hf : f = f'
      · subst hf
        rw [linkCmp_same_fn]
        by_cases hl : l = l'
        · subst hl
          rw [mirLocCmp_eq_iff.mpr rfl, Ordering.then_eq]
          simp [ih y]
        · rw [Ordering.then_eq_self_of_ne_eq (mirLocCmp_ne_eq hl)]
          simp [hl]
      · rw [linkCmp_ne_fn hf, Ordering.then_eq_self_of_ne_eq (natCmp_ne_eq hf)]
        simp [hf]


/-- C8: The comparison on `GlobalLocation` is a total order: `partial_cmp`
always returns `Some` (so `cmp`'s `unwrap` never panics), two locations
compare `Equal` exactly when they are equal, the strict order is
transitive and antisymmetric (via the `lt`/`gt` swap), comparison is by
procedure identity (`hir_id`) first, chains are compared recursively
through their `next` links, and a chain that ends (`None`) sorts
strictly before one that continues (`Some`). -/
theorem C8_globalLocation_total_order :
    (∀ a b : GLoc, (glPartialCmp a b).isSome)
    ∧ (∀ a b : GLoc, glPartialCmp a b = some .eq ↔ a = b)
    ∧ (∀ a b c : GLoc,
        glPartialCmp a b = some .lt → glPartialCmp b c = some .lt →
          glPartialCmp a c = some .lt)
    ∧ (∀ a b : GLoc, glPartialCmp a b = some .lt ↔ glPartialCmp b a = some .gt)
    ∧ (∀ a b : GLoc, a.function ≠ b.function →
        glPartialCmp a b = some (compare a.function b.function))
    ∧ (∀ (f : Nat) (l : MirLoc) (y : GLoc),
        glPartialCmp (.base f l) (.nest f l y) = some .lt)
    ∧ (∀ (f : Nat) (l : MirLoc) (x y : GLoc),
        glPartialCmp (.nest f l x) (.nest f l y) = glPartialCmp x y) := by
  refine ⟨?_, ?_, ?_, ?_, ?_, ?_, ?_⟩
  · intro a b; rw [glPartialCmp_eq_chainCmp]; rfl
  · intro a b
    rw [glPartialCmp_eq_chainCmp]
    simp only [Option.some.injEq, chainCmp_eq_iff]
    exact ⟨fun h => GLoc.toChain_injective h, fun h => by rw [h]⟩
  · intro a b c h1 h2
    rw [glPartialCmp_eq_chainCmp] at h1 h2 ⊢
    simp only [Option.some.injEq] at h1 h2 ⊢
    exact chainCmp_lt_trans h1 h2
  · intro a b
    rw [glPartialCmp_eq_chainCmp, glPartialCmp_eq_chainCmp]
    simp only [Option.some.injEq]
    exact chainCmp_lt_iff_gt
  · intro a b h
    rw [glPartialCmp.eq_def]
    simp [h]
  · intro f l y
    rw [glPartialCmp]
    simp [GLoc.function, GLoc.location]
  · intro f l x y
    rw [glPartialCmp]
    simp [GLoc.function, GLoc.location]

/-- Witness for C8: the transitivity and antisymmetry components applied
at concrete chains, with every hypothesis discharged by evaluation. -/
theorem C8_globalLocation_total_order_witness :
    glPartialCmp (.base 0 ⟨0, 0⟩) (.nest 0 ⟨0, 0⟩ (.base 1 ⟨0, 0⟩)) = some .lt := by
  have h := C8_globalLocation_total_order.2.2.1
    (GLoc.base 0 ⟨0, 0⟩) (GLoc.nest 0 ⟨0, 0⟩ (GLoc.base 0 ⟨0, 0⟩))
    (GLoc.nest 0 ⟨0, 0⟩ (GLoc.base 1 ⟨0, 0⟩))
    (by decide) (by decide)
  exact h

/-!
The `GlobalLocationInterner` (`src/ana.rs` lines 361-382).  The arena
plus the deduplicating `known_locations` hash map are modelled as a
list of node payloads addressed by index; an interned
`GlobalLocation`'s pointer (its `stable_id`, and what the derived `Eq`
and `Hash` of `rustc`'s `Interned` wrapper compare) corresponds to that
index.  A payload's `next` field holds the index of the already
interned tail of the chain, so in any state reachable by interning
alone every `next` reference points strictly below the node itself and
no two arena entries carry the same payload.
-/

/-- The payload `GlobalLocationS` with the interned `next` reference
replaced by an arena index. -/
structure NodeS where
  function : Nat
  location : MirLoc
  next : Option Nat
  deriving DecidableEq, Repr

/-- `GlobalLocationInterner::intern_location`: look the payload up in
`known_locations` and only allocate a new arena slot when absent. -/
def internLocation (ar : List NodeS) (s : NodeS) : Nat × List NodeS :=
  match ar.findIdx? (fun t => t = s) with
  | some i => (i, ar)
  | none => (ar.length, ar ++ [s])

/-- Invariant of every interner state reachable by `internLocation`
alone: payloads are deduplicated and `next` references point to
earlier (already interned) entries. -/
def arenaWF (ar : List NodeS) : Prop :=
  ar.Nodup ∧ ∀ i (h : i < ar.length) j, ar[i].next = some j → j < i

/-- The structural chain (a `GlobalLocation` value) denoted by an
arena index, computed with explicit fuel; `none` on fuel exhaustion or
a dangling index. -/
def unfoldId (ar : List NodeS) : Nat → Nat → Option GLoc
  | 0, _ => none
  | fuel + 1, i =>
    (ar[i]?).bind (fun s =>
      match s.next with
      | none => some (.base s.function s.location)
      | some j => (unfoldId ar fuel j).map (.nest s.function s.location))

/-- The full structural chain of an interned id (fuel `i + 1` always
suffices in a well-formed arena, where `next` references decrease). -/
def chainOf (ar : List NodeS) (i : Nat) : Option GLoc := unfoldId ar (i + 1) i

theorem unfoldId_succ (ar : List NodeS) (fuel i : Nat) :
    unfoldId ar (fuel + 1) i =
      (ar[i]?).bind (fun s =>
        match s.next with
        | none => some (.base s.function s.location)
        | some j => (unfoldId ar fuel j).map (.nest s.function s.location)) := rfl

theorem unfoldId_fuel_mono (ar : List NodeS) (hwf : arenaWF ar) :
    ∀ fuel i, i < fuel → i < ar.length → unfoldId ar fuel i = chainOf ar i := by
  intro fuel
  induction fuel using Nat.strong_induction_on with
  | _ fuel ihf =>
    intro i hif hilen
    rcases fuel with _ | n
    · omega
    · have hget : ar[i]? = some ar[i] := List.getElem?_eq_getElem hilen
      show unfoldId ar (n + 1) i = unfoldId ar (i + 1) i
      rw [unfoldId_succ, unfoldId_succ, hget]
      simp only [Option.some_bind]
      cases hnext : ar[i].next with
      | none => rfl
      | some j =>
        have hji : j < i := hwf.2 i hilen j hnext
        have hjlen : j < ar.length := lt_trans hji hilen
        have h1 : unfoldId ar n j = chainOf ar j := ihf n (by omega) j (by omega) hjlen
        have h2 : unfoldId ar i j = chainOf ar j := ihf i (by omega) j hji hjlen
        show Option.map (GLoc.nest ar[i].function ar[i].location) (unfoldId ar n j) =
          Option.map (GLoc.nest ar[i].function ar[i].location) (unfoldId ar i j)
        rw [h1, h2]

theorem chainOf_isSome (ar : List NodeS) (hwf : arenaWF ar) :
    ∀ i, i < ar.length → (chainOf ar i).isSome := by
  intro i
  induction i using Nat.strong_induction_on with
  | _ i ih =>
    intro hilen
    rw [chainOf, unfoldId_succ, List.getElem?_eq_getElem hilen]
    simp only [Option.some_bind]
    cases hnext : ar[i].next with
    | none => rfl
    | some j =>
      have hji : j < i := hwf.2 i hilen j hnext
      have hjlen : j < ar.length := lt_trans hji hilen
      have := ih j hji hjlen
      show (Option.map (GLoc.nest ar[i].function ar[i].location) (unfoldId ar i j)).isSome
      rw [unfoldId_fuel_mono ar hwf i j hji hjlen]
      simpa using this

theorem chainOf_unfold (ar : List NodeS) (hwf : arenaWF ar) (i : Nat) (hilen : i < ar.length) :
    chainOf ar i =
      match ar[i].next with
      | none => some (.base ar[i].function ar[i].location)
      | some j => (chainOf ar j).map (.nest ar[i].function ar[i].location) := by
  rw [chainOf, unfoldId_succ, List.getElem?_eq_getElem hilen]
  simp only [Option.some_bind]
  cases hnext : ar[i].next with
  | none => rfl
  | some j =>
    have hji : j < i := hwf.2 i hilen j hnext
    have hjlen : j < ar.length := lt_trans hji hilen
    show Option.map (GLoc.nest ar[i].function ar[i].location) (unfoldId ar i j) =
      (chainOf ar j).map (GLoc.nest ar[i].function ar[i].location)
    rw [unfoldId_fuel_mono ar hwf i j hji hjlen]

theorem chainOf_inj (ar : List NodeS) (hwf : arenaWF ar) :
    ∀ i, i < ar.length → ∀ j, j < ar.length → chainOf ar i = chainOf ar j → i = j := by
  intro i
  induction i using Nat.strong_induction_on with
  | _ i ih =>
    intro hilen j hjlen hchain
    rw [chainOf_unfold ar hwf i hilen, chainOf_unfold ar hwf j hjlen] at hchain
    have hnodes : ar[i] = ar[j] := by
      cases hni : ar[i].next with
      | none =>
        cases hnj : ar[j].next with
        | none =>
          simp only [hni, hnj, Option.some.injEq, GLoc.base.injEq] at hchain
          cases hgi : ar[i]
          cases hgj : ar[j]
          simp only [hgi, hgj] at hni hnj hchain
          simp [hni, hnj, hchain.1, hchain.2]
        | some ej =>
          simp only [hni, hnj] at hchain
          have hejlen : ej < ar.length := lt_trans (hwf.2 j hjlen ej hnj) hjlen
          have := chainOf_isSome ar hwf ej hejlen
          rcases Option.isSome_iff_exists.mp this with ⟨g, hg⟩
          rw [hg] at hchain
          simp at hchain
      | some ei =>
        cases hnj : ar[j].next with
        | none =>
          simp only [hni, hnj] at hchain
          have heilen : ei < ar.length := lt_trans (hwf.2 i hilen ei hni) hilen
          have := chainOf_isSome ar hwf ei heilen
          rcases Option.isSome_iff_exists.mp this with ⟨g, hg⟩
          rw [hg] at hchain
          simp at hchain
        | some ej =>
          simp only [hni, hnj] at hchain
          have heii : ei < i := hwf.2 i hilen ei hni
          have heilen : ei < ar.length := lt_trans heii hilen
          have hejlen : ej < ar.length := lt_trans (hwf.2 j hjlen ej hnj) hjlen
          rcases Option.isSome_iff_exists.mp (chainOf_isSome ar hwf ei heilen) with ⟨gi, hgi⟩
          rcases Option.isSome_iff_exists.mp (chainOf_isSome ar hwf ej hejlen) with ⟨gj, hgj⟩
          rw [hgi, hgj] at hchain
          simp only [Option.map_some', Option.some.injEq, GLoc.nest.injEq] at hchain
          obtain ⟨hfun, hloc, hgij⟩ := hchain
          have : ei = ej := by
            apply ih ei heii heilen ej hejlen
            rw [hgi, hgj, hgij]
          cases hgi2 : ar[i]
          cases hgj2 : ar[j]
          simp only [hgi2, hgj2] at hni hnj hfun hloc
          simp [hni, hnj, hfun, hloc, this]
    exact (List.Nodup.getElem_inj_iff hwf.1).mp hnodes

/-- C9: In one interner state reachable within a single analysis run
(deduplicated arena whose `next` references point at already interned
entries), two interned `GlobalLocation`s have equal pointer identity
(`stable_id`, which is also what the derived `Eq` and `Hash` compare)
if and only if their fully unfolded chains match structurally; in
particular pointer/id equality implies structural equality. -/
theorem C9_interned_equality_iff_structural (ar : List NodeS) (hwf : arenaWF ar)
    (i j : Nat) (hi : i < ar.length) (hj : j < ar.length) :
    chainOf ar i = chainOf ar j ↔ i = j := by
  constructor
  · exact chainOf_inj ar hwf i hi j hj
  · intro h; rw [h]

/-- Witness for C9 on a concrete two-entry interner state: the nested
chain of index `1` differs from the chain of index `0`, and the
equivalence instantiates to it. -/
theorem C9_interned_equality_iff_structural_witness :
    chainOf [⟨0, ⟨0, 0⟩, none⟩, ⟨1, ⟨2, 3⟩, some 0⟩] 1 =
      some (.nest 1 ⟨2, 3⟩ (.base 0 ⟨0, 0⟩)) ∧ (1 : Nat) = 1 := by
  have hwf : arenaWF [⟨0, ⟨0, 0⟩, none⟩, ⟨1, ⟨2, 3⟩, some 0⟩] := by
    refine ⟨by decide, ?_⟩
    intro i h j hnext
    simp only [List.length_cons, List.length_nil] at h
    interval_cases i
    · simp at hnext
    · simp at hnext
      omega
  refine ⟨by decide, ?_⟩
  exact (C9_interned_equality_iff_structural
    [⟨0, ⟨0, 0⟩, none⟩, ⟨1, ⟨2, 3⟩, some 0⟩]
    hwf 1 1 (by decide) (by decide)).mp rfl

/-!
The inlined-graph data model of `src/ana/inline.rs`.
-/

/-- The kind of a single dependency an edge carries (`EdgeType`,
`inline.rs` lines 150-154). -/
inductive EdgeType where
  | Data (i : Nat)
  | Control
  deriving DecidableEq, Repr

/-- An edge weight (`Edge`, `inline.rs` lines 93-97): a bitset of
argument indices plus a control flag.  The bitset is the `TinyBitSet`
exported by `utils.rs` whose definition is absent from `src/`; modelled
from the spec ("bitset-of-argument-indices") as a finite set of
indices. -/
structure Edge where
  data : Finset Nat
  control : Bool
  deriving DecidableEq

/-- `Edge::is_empty`: no data bits and no control flag. -/
def Edge.is_empty (e : Edge) : Bool := !e.control && decide (e.data = ∅)

/-- `Edge::add_type`. -/
def Edge.add_type (e : Edge) (t : EdgeType) : Edge :=
  match t with
  | .Control => { e with control := true }
  | .Data i => { e with data := insert i e.data }

/-- `Edge::empty`. -/
def Edge.empty : Edge := ⟨∅, false⟩

/-- `Edge::merge`: bitwise or of the data bits, or of the control flags. -/
def Edge.merge (e other : Edge) : Edge :=
  ⟨e.data ∪ other.data, e.control || other.control⟩

/-- `TinyBitSet::into_iter_set_in_domain`: the set bits in ascending
domain order (enumerated by filtering the range up to the maximum,
which evaluates by kernel reduction). -/
def bitsAsc (s : Finset Nat) : List Nat :=
  (List.range (s.sup id + 1)).filter (fun i => decide (i ∈ s))

theorem mem_bitsAsc {s : Finset Nat} {i : Nat} : i ∈ bitsAsc s ↔ i ∈ s := by
  rw [bitsAsc]
  simp only [List.mem_filter, List.mem_range, decide_eq_true_eq]
  constructor
  · exact fun h => h.2
  · intro h
    refine ⟨?_, h⟩
    have : (id i : Nat) ≤ s.sup id := Finset.le_sup h
    simpa using Nat.lt_succ_of_le this

/-- `Edge::into_types_iter`: the data bits (in ascending domain order)
followed by the control flag. -/
def Edge.into_types_iter (e : Edge) : List EdgeType :=
  (bitsAsc e.data).map EdgeType.Data ++ (if e.control then [EdgeType.Control] else [])

/-- `regal::SimpleLocation` (the `Node<C>` of `inline.rs`): a return
node, a formal-argument node, or a call-site node. -/
inductive SimpleLocation (C : Type) where
  | Return
  | Argument (a : Nat)
  | Call (c : C)
  deriving DecidableEq, Repr

/-- `Node::map_call` (`inline.rs` lines 83-91). -/
def SimpleLocation.map_call {C C0 : Type} (n : SimpleLocation C) (f : C → C0) : SimpleLocation C0 :=
  match n with
  | .Return => .Return
  | .Argument a => .Argument a
  | .Call c => .Call (f c)

/-- A node of the inlined graph: `Node<(GlobalLocation, DefId)>`. -/
abbrev GNode := SimpleLocation (GLoc × Nat)

/-- `pg::GraphMap<Node, Edge, Directed>`: a directed graph with an
explicit node set and at most one weighted edge per ordered node pair
(adding an edge inserts missing endpoints, as `petgraph`'s `GraphMap`
does).  Modelled as association lists. -/
structure Graph where
  nodes : List GNode
  edges : List (GNode × GNode × Edge)
  deriving DecidableEq

/-- `GraphMap::add_node` (no-op when present). -/
def Graph.add_node (g : Graph) (n : GNode) : Graph :=
  if n ∈ g.nodes then g else { g with nodes := g.nodes ++ [n] }

/-- `GraphMap::edge_weight`. -/
def Graph.edge_weight (g : Graph) (a b : GNode) : Option Edge :=
  (g.edges.find? (fun e => decide (e.1 = a ∧ e.2.1 = b))).map (fun e => e.2.2)

/-- `GraphMap::contains_edge`. -/
def Graph.contains_edge (g : Graph) (a b : GNode) : Bool :=
  (g.edge_weight a b).isSome

/-- `GraphMap::add_edge`: insert missing endpoints; replace the weight
when the edge already exists, append it otherwise. -/
def Graph.add_edge (g : Graph) (a b : GNode) (w : Edge) : Graph :=
  let g := (g.add_node a).add_node b
  if g.contains_edge a b then
    { g with edges := g.edges.map (fun e => if e.1 = a ∧ e.2.1 = b then (a, b, w) else e) }
  else
    { g with edges := g.edges ++ [(a, b, w)] }

/-- In-place mutation of one edge weight (`edge_weight_mut` followed by
an update of the weight). -/
def Graph.update_edge (g : Graph) (a b : GNode) (f : Edge → Edge) : Graph :=
  { g with edges := g.edges.map (fun e => if e.1 = a ∧ e.2.1 = b then (e.1, e.2.1, f e.2.2) else e) }

/-- `GraphMap::remove_edge`. -/
def Graph.remove_edge (g : Graph) (a b : GNode) : Graph :=
  { g with edges := g.edges.filter (fun e => !decide (e.1 = a ∧ e.2.1 = b)) }

/-- `GraphMap::remove_node` (removes the node and its incident edges). -/
def Graph.remove_node (g : Graph) (n : GNode) : Graph :=
  { nodes := g.nodes.erase n,
    edges := g.edges.filter (fun e => !decide (e.1 = n ∨ e.2.1 = n)) }

/-- `edges_directed(n, Incoming)`: the `(source, weight)` pairs of the
edges into `n`. -/
def Graph.edges_in (g : Graph) (n : GNode) : List (GNode × Edge) :=
  g.edges.filterMap (fun e => if e.2.1 = n then some (e.1, e.2.2) else none)

/-- `edges_directed(n, Outgoing)`: the `(target, weight)` pairs of the
edges out of `n`. -/
def Graph.edges_out (g : Graph) (n : GNode) : List (GNode × Edge) :=
  g.edges.filterMap (fun e => if e.1 = n then some (e.2.1, e.2.2) else none)

/-- `neighbors_directed(n, Incoming)` (one entry per incoming edge,
since a `GraphMap` has at most one edge per ordered pair). -/
def Graph.neighbors_in (g : Graph) (n : GNode) : List GNode :=
  (g.edges_in n).map (fun p => p.1)

/-- `add_weighted_edge` (`inline.rs` lines 519-530): merge into an
existing weight or insert the edge. -/
def add_weighted_edge (g : Graph) (source target : GNode) (weight : Edge) : Graph :=
  match g.edge_weight source target with
  | some _ => g.update_edge source target (fun prior => prior.merge weight)
  | none => g.add_edge source target weight

/-- A `GraphMap` never stores two edges with the same ordered endpoint
pair; every graph built by the code keeps this invariant. -/
def Graph.edgesWF (g : Graph) : Prop :=
  (g.edges.map (fun e => (e.1, e.2.1))).Nodup

/-- `GlobalLocal` (`inline.rs` lines 173-193): a `mir::Local` qualified
by the call-chain location it is relative to (`None` = the root
procedure under analysis). -/
structure GlobalLocal where
  «local» : Nat
  location : Option GLoc
  deriving DecidableEq, Repr

/-- `GlobalLocal::at_root`. -/
def GlobalLocal.at_root («local» : Nat) : GlobalLocal := ⟨«local», none⟩

/-- `GlobalLocal::relative`. -/
def GlobalLocal.relative («local» : Nat) (location : GLoc) : GlobalLocal := ⟨«local», some location⟩

/-- Modelled from the spec: a projection of a symbolic term in the
`ana::algebra` module (absent from `src/`); §4.3: "each term = base
location + zero-or-more field/deref projections, possibly with an
unknown/existential wildcard". -/
inductive TermOp where
  | field (f : Nat)
  | deref
  | unknown
  deriving DecidableEq, Repr

/-- Modelled from the spec: `algebra::Term` — a base plus a chain of
projections. -/
structure Term (B : Type) where
  base : B
  ops : List TermOp
  deriving DecidableEq, Repr

/-- `Term::new_base`. -/
def Term.new_base {B : Type} (b : B) : Term B := ⟨b, []⟩

/-- `Term::add_unknown`: extend the projection chain with the
unknown/existential wildcard. -/
def Term.add_unknown {B : Type} (t : Term B) : Term B := ⟨t.base, t.ops ++ [.unknown]⟩

/-- Rewrite the base of a term (used by `map_bases`). -/
def Term.map_base {B C : Type} (t : Term B) (f : B → C) : Term C := ⟨f t.base, t.ops⟩

/-- Modelled from the spec: `algebra::Equality` — an equation between
two symbolic terms (§3 "Equation"). -/
structure Equality (B : Type) where
  lhs : Term B
  rhs : Term B
  deriving DecidableEq, Repr

/-- `Equality::new`. -/
def Equality.new {B : Type} (l r : Term B) : Equality B := ⟨l, r⟩

/-- `Equality::map_bases`: rewrite both bases. -/
def Equality.map_bases {B C : Type} (eq : Equality B) (f : B → C) : Equality C :=
  ⟨eq.lhs.map_base f, eq.rhs.map_base f⟩

/-- Modelled from the spec: a `regal::Target` — a dependency source in
a single-procedure summary, either a call at a local location or a
formal argument. -/
inductive RTarget where
  | Call (l : MirLoc)
  | Argument (a : Nat)
  deriving DecidableEq, Repr

/-- Modelled from the spec: a `regal::Call` as consumed by `inline.rs`:
callee `function`, per-index argument descriptions (`None` for
constants, otherwise the argument's local and its dependency set),
control dependencies and the optional return destination local. -/
structure RCall where
  function : Nat
  arguments : List (Option (Nat × List RTarget))
  ctrl_deps : List RTarget
  return_to : Option Nat
  deriving DecidableEq, Repr

/-- `Call::argument_locals`: the locals of the non-constant arguments. -/
def RCall.argument_locals (c : RCall) : List Nat :=
  c.arguments.filterMap (fun a => a.map (fun p => p.1))

/-- Modelled from the spec: a `regal::Body` — the Procedure Flow
Summary of §3: calls keyed by local location, return dependencies,
per-argument return dependencies, and the local equation set. -/
structure RBody where
  calls : List (MirLoc × RCall)
  return_deps : List RTarget
  return_arg_deps : List (List RTarget)
  equations : List (Equality Nat)
  deriving DecidableEq, Repr

/-- `PruningStrategy` (`args.rs`, used at `inline.rs` lines 1015-1028). -/
inductive PruningStrategy where
  | NotPreviouslyPrunedEdges
  | NewEdgesNotPreviouslyPruned
  | NewEdges
  deriving DecidableEq, Repr

/-- The analysis context: the external oracles of spec §6 (the
single-procedure summary oracle `regal::compute_from_body_id`, the
inlining-policy `Oracle`, and `tcx`/`lang_items` introspection,
including the async-shape detection the spec places out of core), plus
the `AnalysisCtrl`/`DbgArgs` flags — passed explicitly instead of
living in `self`.  `solve_reachable` is the `algebra::solve_with`
reachability query of spec §4.3 (the `algebra` module is absent from
`src/`), abstracted as: given the equation set, a source term and a
target predicate, does the solver find a reaching term? -/
structure Ctx where
  nprocs : Nat
  bodies : Nat → RBody
  should_inline : Nat → Bool
  is_semantically_meaningful : Nat → Bool
  as_local : Nat → Option Nat
  body_of : Nat → Option Nat
  from_generator_fn : Option Nat
  future_poll_fn : Option Nat
  fn_sig_inputs : Nat → List Bool
  async_closure : Nat → MirLoc → Option (Nat × Nat)
  use_recursive_analysis : Bool
  drop_poll : Bool
  remove_inconsequential : Bool
  remove_ctrl_flow_source : Bool
  use_pruning : Bool
  pruning_strategy : PruningStrategy
  solve_reachable : List (Equality GlobalLocal) → GlobalLocal → (GlobalLocal → Bool) → Bool

/-- `Inliner::get_call` (`inline.rs` lines 638-644): look up the call
description at the innermost frame of a global location (`None` models
the panicking map index on a location that is not a call site). -/
def Ctx.get_call (ctx : Ctx) (loc : GLoc) : Option RCall :=
  (ctx.bodies loc.innermostFunction).calls.lookup loc.innermostLocation

/-- `Inliner::node_to_local` (`inline.rs` lines 649-670): the global
local read at input index `idx` of a node (`None` models the `unwrap`
panics on a missing call or constant argument). -/
def Ctx.node_to_local (ctx : Ctx) (node : GNode) (idx : Nat) : Option GlobalLocal :=
  match node with
  | .Return => some (GlobalLocal.at_root 0)
  | .Argument a => some (GlobalLocal.at_root (a + 1))
  | .Call (loc, _) => do
    let call ← ctx.get_call loc
    let arg ← call.arguments.getD idx none
    some (match loc.parent with
          | some parent => GlobalLocal.relative arg.1 parent
          | none => GlobalLocal.at_root arg.1)

/-- The read/write targets collected from the source node of an edge
under pruning (`inline.rs` lines 328-347): for an argument node its
root local; for a call node the argument locals chained with the
return destination, made relative to the call's parent location;
`Return` as a source is `unreachable!()` (modelled as `None`). -/
def prune_targets (ctx : Ctx) (source : GNode) : Option (List GlobalLocal) :=
  match source with
  | .Argument a => some [GlobalLocal.at_root (a + 1)]
  | .Return => none
  | .Call (loc, _) => do
    let call ← ctx.get_call loc
    some ((call.argument_locals ++ call.return_to.toList).map (fun l =>
      match loc.parent with
      | some p => GlobalLocal.relative l p
      | none => GlobalLocal.at_root l))

/-- `edge_has_been_pruned_before` (`inline.rs` lines 250-261; the
match is on `(to, from)`). -/
def edge_has_been_pruned_before (source target : GNode) : Bool :=
  match target, source with
  | .Call c1, .Call c2 => decide (c1.1.outermost = c2.1.outermost)
  | .Call c, _ => c.1.isAtRoot
  | _, .Call c => c.1.isAtRoot
  | _, _ => true

/-- `Inliner::find_prunable_edges` (`inline.rs` lines 263-276). -/
def find_prunable_edges (g : Graph) : List (GNode × GNode) :=
  g.edges.filterMap (fun e =>
    if edge_has_been_pruned_before e.1 e.2.1 then none else some (e.1, e.2.1))

/-- One data bit of the per-edge pruning loop (`inline.rs` lines
328-364): clear the bit when the destination local at this argument
index cannot reach any of the source's targets through the equations.
`None` models the panics of `node_to_local` / the `unreachable!()` for
a `Return` source. -/
def prune_bit_step (ctx : Ctx) (eqs : List (Equality GlobalLocal)) (p : GNode × GNode)
    (g : Graph) (idx : Nat) : Option Graph := do
  let to_target ← ctx.node_to_local p.2 idx
  let targets ← prune_targets ctx p.1
  let is_reachable := ctx.solve_reachable eqs to_target (fun t => targets.contains t)
  if is_reachable then some g
  else some (g.update_edge p.1 p.2 (fun e => { e with data := e.data.erase idx }))

/-- The body of the per-edge loop of `Inliner::prune_impossible_edges`
(`inline.rs` lines 323-386): if the edge is still in the graph, walk
the data bits of its weight (the bit iterator runs over a copy taken
when the loop starts, so clearing does not disturb it), clear every
unreachable bit, and afterwards delete the edge if its weight became
empty. -/
def prune_edge (ctx : Ctx) (eqs : List (Equality GlobalLocal)) (g : Graph)
    (p : GNode × GNode) : Option Graph :=
  match g.edge_weight p.1 p.2 with
  | none => some g
  | some w => do
    let g' ← (bitsAsc w.data).foldlM (prune_bit_step ctx eqs p) g
    match g'.edge_weight p.1 p.2 with
    | some w' => if w'.is_empty then some (g'.remove_edge p.1 p.2) else some g'
    | none => some g'

/-- `Inliner::prune_impossible_edges` over the queued edge set
(iterated in some list order; the per-edge work is order-independent
because distinct queued edges touch distinct graph entries). -/
def prune_impossible_edges (ctx : Ctx) (eqs : List (Equality GlobalLocal)) (g : Graph)
    (edges_to_prune : List (GNode × GNode)) : Option Graph :=
  edges_to_prune.foldlM (prune_edge ctx eqs) g

/-- The value of the reachability query the pruning loop makes for data
bit `idx` of the edge `p`: does the solver find a term reaching from
the destination's global local at `idx` to one of the source's
argument/return locals?  (`false` also when one of the lookups the
code `unwrap`s would panic — a successful pruning run never consults
those.) -/
def prune_keep (ctx : Ctx) (eqs : List (Equality GlobalLocal)) (p : GNode × GNode)
    (idx : Nat) : Bool :=
  match ctx.node_to_local p.2 idx, prune_targets ctx p.1 with
  | some tt, some tg => ctx.solve_reachable eqs tt (fun t => tg.contains t)
  | _, _ => false

theorem edge_weight_update (g : Graph) (a b : GNode) (f : Edge → Edge) (c d : GNode) :
    (g.update_edge a b f).edge_weight c d =
      if c = a ∧ d = b then (g.edge_weight c d).map f else g.edge_weight c d := by
  unfold Graph.update_edge Graph.edge_weight
  simp only
  induction g.edges with
  | nil => split <;> rfl
  | cons x xs ih =>
    rw [List.map_cons]
    by_cases hx : x.1 = c ∧ x.2.1 = d
    · by_cases hu : x.1 = a ∧ x.2.1 = b
      · have hcd : c = a ∧ d = b := ⟨hx.1.symm.trans hu.1, hx.2.symm.trans hu.2⟩
        rw [if_pos hu, if_pos hcd]
        rw [List.find?_cons_of_pos _ (by simpa using hx),
          List.find?_cons_of_pos _ (by simpa using hx)]
        rfl
      · have hne : ¬(c = a ∧ d = b) := fun hcd => hu ⟨hx.1.trans hcd.1, hx.2.trans hcd.2⟩
        rw [if_neg hu, if_neg hne]
        rw [List.find?_cons_of_pos _ (by simpa using hx),
          List.find?_cons_of_pos _ (by simpa using hx)]
    · by_cases hu : x.1 = a ∧ x.2.1 = b
      · rw [if_pos hu]
        rw [List.find?_cons_of_neg _ (by simpa using hx),
          List.find?_cons_of_neg _ (by simpa using hx)]
        exact ih
      · rw [if_neg hu]
        rw [List.find?_cons_of_neg _ (by simpa using hx),
          List.find?_cons_of_neg _ (by simpa using hx)]
        exact ih

theorem edge_weight_remove (g : Graph) (a b c d : GNode) :
    (g.remove_edge a b).edge_weight c d =
      if c = a ∧ d = b then none else g.edge_weight c d := by
  unfold Graph.remove_edge Graph.edge_weight
  simp only
  induction g.edges with
  | nil => split <;> rfl
  | cons x xs ih =>
    rw [List.filter_cons]
    by_cases hx : x.1 = a ∧ x.2.1 = b
    · rw [if_neg (by
        simp only [Bool.not_eq_true', decide_eq_false_iff_not]
        exact fun h => h hx)]
      rw [ih]
      by_cases hcd : c = a ∧ d = b
      · rw [if_pos hcd, if_pos hcd]
      · rw [if_neg hcd, if_neg hcd]
        rw [List.find?_cons_of_neg _ (by
          simp only [decide_eq_true_eq, not_and]
          intro h1 h2
          exact hcd ⟨h1.symm.trans hx.1, h2.symm.trans hx.2⟩)]
    · rw [if_pos (by
        simp only [Bool.not_eq_true', decide_eq_false_iff_not]
        exact hx)]
      by_cases hpx : x.1 = c ∧ x.2.1 = d
      · have hne : ¬(c = a ∧ d = b) := fun hcd =>
          hx ⟨hpx.1.trans hcd.1, hpx.2.trans hcd.2⟩
        rw [if_neg hne]
        rw [List.find?_cons_of_pos _ (by simpa using hpx),
          List.find?_cons_of_pos _ (by simpa using hpx)]
      · rw [List.find?_cons_of_neg _ (by simpa using hpx),
          List.find?_cons_of_neg _ (by simpa using hpx)]
        exact ih

theorem prune_bit_step_eq (ctx : Ctx) (eqs : List (Equality GlobalLocal)) (p : GNode × GNode)
    (g : Graph) (idx : Nat) :
    prune_bit_step ctx eqs p g idx =
      match ctx.node_to_local p.2 idx, prune_targets ctx p.1 with
      | some tt, some tg =>
        if ctx.solve_reachable eqs tt (fun t => tg.contains t) = true then some g
        else some (g.update_edge p.1 p.2 (fun e => { e with data := e.data.erase idx }))
      | _, _ => none := by
  rw [prune_bit_step]
  rcases ctx.node_to_local p.2 idx with _ | tt <;>
    rcases prune_targets ctx p.1 with _ | tg <;> rfl

theorem prune_fold_spec (ctx : Ctx) (eqs : List (Equality GlobalLocal)) (p : GNode × GNode) :
    ∀ (L : List Nat) (g0 g1 : Graph),
      L.foldlM (prune_bit_step ctx eqs p) g0 = some g1 →
      (∀ c d : GNode, ¬(c = p.1 ∧ d = p.2) → g1.edge_weight c d = g0.edge_weight c d) ∧
      (∀ i ∈ L, (ctx.node_to_local p.2 i).isSome ∧ (prune_targets ctx p.1).isSome) ∧
      g1.edge_weight p.1 p.2 =
        (g0.edge_weight p.1 p.2).map (fun e =>
          { e with data :=
              e.data.filter (fun i => i ∉ L ∨ prune_keep ctx eqs p i = true) }) := by
  intro L
  induction L with
  | nil =>
    intro g0 g1 h
    simp only [List.foldlM_nil] at h
    cases h
    refine ⟨fun c d _ => rfl, fun i hi => absurd hi (List.not_mem_nil i), ?_⟩
    cases hw : g0.edge_weight p.1 p.2 with
    | none => rfl
    | some e =>
      simp only [Option.map_some']
      have he : e.data.filter
          (fun i => i ∉ ([] : List Nat) ∨ prune_keep ctx eqs p i = true) = e.data := by
        apply Finset.filter_true_of_mem
        intro i _
        exact Or.inl (List.not_mem_nil i)
      rw [he]
  | cons i L' ih =>
    intro g0 g1 h
    rw [List.foldlM_cons] at h
    cases hstep : prune_bit_step ctx eqs p g0 i with
    | none =>
      rw [hstep] at h
      exact Option.noConfusion h
    | some gs =>
      rw [hstep] at h
      replace h : L'.foldlM (prune_bit_step ctx eqs p) gs = some g1 := h
      obtain ⟨hframe', hsome', hdata'⟩ := ih gs g1 h
      cases h1 : ctx.node_to_local p.2 i with
      | none =>
        rw [prune_bit_step_eq, h1] at hstep
        cases h2 : prune_targets ctx p.1 <;> rw [h2] at hstep <;>
          exact Option.noConfusion hstep
      | some tt =>
        cases h2 : prune_targets ctx p.1 with
        | none =>
          rw [prune_bit_step_eq, h1, h2] at hstep
          exact Option.noConfusion hstep
        | some tg =>
          rw [prune_bit_step_eq, h1, h2] at hstep
          replace hstep : (if ctx.solve_reachable eqs tt (fun t => tg.contains t) = true
              then some g0
              else some (g0.update_edge p.1 p.2
                (fun e => { e with data := e.data.erase i }))) = some gs := hstep
          have hkeep : prune_keep ctx eqs p i =
              ctx.solve_reachable eqs tt (fun t => tg.contains t) := by
            rw [prune_keep, h1, h2]
          by_cases hr : ctx.solve_reachable eqs tt (fun t => tg.contains t) = true
          · rw [if_pos hr] at hstep
            injection hstep with hgs
            subst hgs
            refine ⟨hframe', ?_, ?_⟩
            · intro j hj
              rcases List.mem_cons.mp hj with rfl | hj'
              · exact ⟨by rw [h1]; rfl, rfl⟩
              · exact ⟨(hsome' j hj').1, rfl⟩
            · rw [hdata']
              cases hw : g0.edge_weight p.1 p.2 with
              | none => rfl
              | some e =>
                simp only [Option.map_some', Option.some.injEq]
                have hkt : prune_keep ctx eqs p i = true := by rw [hkeep]; exact hr
                have he : e.data.filter (fun j => j ∉ L' ∨ prune_keep ctx eqs p j = true) =
                    e.data.filter (fun j => j ∉ i :: L' ∨ prune_keep ctx eqs p j = true) := by
                  ext j
                  simp only [Finset.mem_filter, List.mem_cons]
                  by_cases hji : j = i
                  · subst hji
                    simp [hkt]
                  · simp [hji]
                rw [he]
          · rw [if_neg hr] at hstep
            injection hstep with hgs
            subst hgs
            have hkeepf : prune_keep ctx eqs p i = false := by
              rw [hkeep]
              exact Bool.eq_false_iff.mpr hr
            refine ⟨?_, ?_, ?_⟩
            · intro c d hcd
              rw [hframe' c d hcd, edge_weight_update, if_neg hcd]
            · intro j hj
              rcases List.mem_cons.mp hj with rfl | hj'
              · exact ⟨by rw [h1]; rfl, rfl⟩
              · exact ⟨(hsome' j hj').1, rfl⟩
            · rw [hdata', edge_weight_update, if_pos ⟨rfl, rfl⟩]
              cases hw : g0.edge_weight p.1 p.2 with
              | none => rfl
              | some e =>
                simp only [Option.map_some', Option.some.injEq]
                have he : ((e.data.erase i).filter
                      (fun j => j ∉ L' ∨ prune_keep ctx eqs p j = true)) =
                    e.data.filter (fun j => j ∉ i :: L' ∨ prune_keep ctx eqs p j = true) := by
                  ext j
                  simp only [Finset.mem_filter, Finset.mem_erase, List.mem_cons]
                  by_cases hji : j = i
                  · subst hji
                    simp [hkeepf]
                  · simp [hji]
                rw [Edge.mk.injEq]
                exact ⟨he, rfl⟩

theorem prune_edge_spec (ctx : Ctx) (eqs : List (Equality GlobalLocal)) (g : Graph)
    (p : GNode × GNode) (g' : Graph) (h : prune_edge ctx eqs g p = some g') :
    (∀ c d : GNode, ¬(c = p.1 ∧ d = p.2) → g'.edge_weight c d = g.edge_weight c d) ∧
    (∀ w, g.edge_weight p.1 p.2 = some w →
      (∀ i ∈ w.data, (ctx.node_to_local p.2 i).isSome ∧ (prune_targets ctx p.1).isSome) ∧
      g'.edge_weight p.1 p.2 =
        (if w.data.filter (fun i => prune_keep ctx eqs p i = true) = ∅ ∧ w.control = false
         then none
         else some ⟨w.data.filter (fun i => prune_keep ctx eqs p i = true), w.control⟩)) := by
  rw [prune_edge] at h
  cases hw0 : g.edge_weight p.1 p.2 with
  | none =>
    rw [hw0] at h
    replace h : some g = some g' := h
    cases h
    exact ⟨fun c d _ => rfl, fun w2 hw2 => Option.noConfusion hw2⟩
  | some w =>
    rw [hw0] at h
    replace h : ((bitsAsc w.data).foldlM (prune_bit_step ctx eqs p) g >>= fun g1 =>
        match g1.edge_weight p.1 p.2 with
        | some w' => if w'.is_empty = true then some (g1.remove_edge p.1 p.2) else some g1
        | none => some g1) = some g' := h
    cases hfold : (bitsAsc w.data).foldlM (prune_bit_step ctx eqs p) g with
    | none =>
      rw [hfold] at h
      exact Option.noConfusion h
    | some g1 =>
      rw [hfold] at h
      replace h : (match g1.edge_weight p.1 p.2 with
          | some w' => if w'.is_empty = true then some (g1.remove_edge p.1 p.2) else some g1
          | none => some g1) = some g' := h
      obtain ⟨hframe, hsome, hdata⟩ := prune_fold_spec ctx eqs p _ g g1 hfold
      have hmemsort : ∀ i, i ∈ bitsAsc w.data ↔ i ∈ w.data := by
        intro i
        exact mem_bitsAsc
      have hfiltered : g1.edge_weight p.1 p.2 =
          some ⟨w.data.filter (fun i => prune_keep ctx eqs p i = true), w.control⟩ := by
        rw [hdata, hw0]
        simp only [Option.map_some', Option.some.injEq]
        rw [Edge.mk.injEq]
        refine ⟨?_, rfl⟩
        ext j
        simp only [Finset.mem_filter, hmemsort]
        constructor
        · rintro ⟨hj, hor⟩
          rcases hor with hnot | hkeep
          · exact absurd hj hnot
          · exact ⟨hj, hkeep⟩
        · rintro ⟨hj, hkeep⟩
          exact ⟨hj, Or.inr hkeep⟩
      rw [hfiltered] at h
      replace h : (if (Edge.mk (w.data.filter (fun i => prune_keep ctx eqs p i = true))
            w.control).is_empty = true
          then some (g1.remove_edge p.1 p.2) else some g1) = some g' := h
      have hempty_iff :
          (Edge.mk (w.data.filter (fun i => prune_keep ctx eqs p i = true))
            w.control).is_empty = true ↔
          (w.data.filter (fun i => prune_keep ctx eqs p i = true) = ∅ ∧ w.control = false) := by
        rw [Edge.is_empty]
        simp only [Bool.and_eq_true, Bool.not_eq_true', decide_eq_true_eq]
        constructor
        · intro hx; exact ⟨hx.2, hx.1⟩
        · intro hx; exact ⟨hx.2, hx.1⟩
      refine ⟨?_, ?_⟩
      · intro c d hcd
        by_cases hempt : (Edge.mk (w.data.filter (fun i => prune_keep ctx eqs p i = true))
            w.control).is_empty = true
        · rw [if_pos hempt] at h
          cases h
          rw [edge_weight_remove, if_neg hcd]
          exact hframe c d hcd
        · rw [if_neg hempt] at h
          cases h
          exact hframe c d hcd
      · intro w2 hw2
        cases hw2
        refine ⟨fun i hi => hsome i ((hmemsort i).mpr hi), ?_⟩
        by_cases hempt : (Edge.mk (w.data.filter (fun i => prune_keep ctx eqs p i = true))
            w.control).is_empty = true
        · rw [if_pos hempt] at h
          cases h
          rw [edge_weight_remove, if_pos ⟨rfl, rfl⟩]
          rw [if_pos (hempty_iff.mp hempt)]
        · rw [if_neg hempt] at h
          cases h
          rw [hfiltered]
          rw [if_neg (fun hc => hempt (hempty_iff.mpr hc))]

theorem prune_impossible_frame (ctx : Ctx) (eqs : List (Equality GlobalLocal)) :
    ∀ (Q : List (GNode × GNode)) (g g' : Graph),
      prune_impossible_edges ctx eqs g Q = some g' →
      ∀ p : GNode × GNode, p ∉ Q → g'.edge_weight p.1 p.2 = g.edge_weight p.1 p.2 := by
  intro Q
  induction Q with
  | nil =>
    intro g g' h p _
    rw [prune_impossible_edges, List.foldlM_nil] at h
    cases h
    rfl
  | cons q Q' ih =>
    intro g g' h p hp
    rw [prune_impossible_edges, List.foldlM_cons] at h
    cases hstep : prune_edge ctx eqs g q with
    | none =>
      rw [hstep] at h
      exact Option.noConfusion h
    | some gs =>
      rw [hstep] at h
      replace h : Q'.foldlM (prune_edge ctx eqs) gs = some g' := h
      have hpq : p ≠ q := fun hc => hp (hc ▸ List.mem_cons_self q Q')
      have hfr := (prune_edge_spec ctx eqs g q gs hstep).1 p.1 p.2 (by
        intro hc
        exact hpq (Prod.ext hc.1 hc.2))
      rw [ih gs g' h p (fun hc => hp (List.mem_cons_of_mem q hc)), hfr]

theorem prune_impossible_spec (ctx : Ctx) (eqs : List (Equality GlobalLocal))
    (Q : List (GNode × GNode)) (g g' : Graph)
    (h : prune_impossible_edges ctx eqs g Q = some g')
    (hnd : Q.Nodup) (p : GNode × GNode) (hmem : p ∈ Q) (w : Edge)
    (hw : g.edge_weight p.1 p.2 = some w) :
    (∀ i ∈ w.data, (ctx.node_to_local p.2 i).isSome ∧ (prune_targets ctx p.1).isSome) ∧
    g'.edge_weight p.1 p.2 =
      (if w.data.filter (fun i => prune_keep ctx eqs p i = true) = ∅ ∧ w.control = false
       then none
       else some ⟨w.data.filter (fun i => prune_keep ctx eqs p i = true), w.control⟩) := by
  obtain ⟨Q1, Q2, rfl⟩ := List.append_of_mem hmem
  obtain ⟨h1n, h2n, hdisj⟩ := List.nodup_append.mp hnd
  have hnotin1 : p ∉ Q1 := fun hc => hdisj hc (List.mem_cons_self p Q2)
  have hnotin2 : p ∉ Q2 := (List.nodup_cons.mp h2n).1
  rw [prune_impossible_edges, List.foldlM_append] at h
  cases h1 : Q1.foldlM (prune_edge ctx eqs) g with
  | none =>
    rw [h1] at h
    exact Option.noConfusion h
  | some gm =>
    rw [h1] at h
    replace h : (p :: Q2).foldlM (prune_edge ctx eqs) gm = some g' := h
    rw [List.foldlM_cons] at h
    cases h2 : prune_edge ctx eqs gm p with
    | none =>
      rw [h2] at h
      exact Option.noConfusion h
    | some gs =>
      rw [h2] at h
      replace h : Q2.foldlM (prune_edge ctx eqs) gs = some g' := h
      have hgm : gm.edge_weight p.1 p.2 = some w := by
        rw [prune_impossible_frame ctx eqs Q1 g gm h1 p hnotin1, hw]
      obtain ⟨hfr2, hchar⟩ := prune_edge_spec ctx eqs gm p gs h2
      obtain ⟨hsome, hvalue⟩ := hchar w hgm
      refine ⟨hsome, ?_⟩
      rw [prune_impossible_frame ctx eqs Q2 gs g' h p hnotin2, hvalue]

/-- C2: During impossible-edge pruning, for every queued edge and every
argument-index bit set in that edge's data weight, the bit is cleared if
and only if the alias/equation solver (`solve_with`, abstracted as the
`solve_reachable` oracle) finds no term reaching from the global local
of the edge's destination at that argument index (`node_to_local`) to
any of the argument/return global locals of the edge's source
(`prune_targets`); after the per-bit processing, an edge whose weight
has become empty (no data bits and control flag `false`) is deleted from
the graph entirely, and a non-empty weight edge is kept with exactly
the reachable bits. -/
theorem C2_prune_clears_unreachable_bits_deletes_empty (ctx : Ctx)
    (eqs : List (Equality GlobalLocal)) (g g' : Graph)
    (Q : List (GNode × GNode)) (f t : GNode) (w : Edge)
    (h : prune_impossible_edges ctx eqs g Q = some g')
    (hnd : Q.Nodup) (hmem : (f, t) ∈ Q) (hw : g.edge_weight f t = some w) :
    (∀ i ∈ w.data, ∃ tt tg, ctx.node_to_local t i = some tt ∧
        prune_targets ctx f = some tg ∧
        prune_keep ctx eqs (f, t) i = ctx.solve_reachable eqs tt (fun x => tg.contains x)) ∧
    g'.edge_weight f t =
      (if w.data.filter (fun i => prune_keep ctx eqs (f, t) i = true) = ∅ ∧ w.control = false
       then none
       else some ⟨w.data.filter (fun i => prune_keep ctx eqs (f, t) i = true), w.control⟩) := by
  obtain ⟨hsome, hvalue⟩ := prune_impossible_spec ctx eqs Q g g' h hnd (f, t) hmem w hw
  refine ⟨?_, hvalue⟩
  intro i hi
  obtain ⟨hs1, hs2⟩ := hsome i hi
  obtain ⟨tt, htt⟩ := Option.isSome_iff_exists.mp hs1
  obtain ⟨tg, htg⟩ := Option.isSome_iff_exists.mp hs2
  refine ⟨tt, tg, htt, htg, ?_⟩
  rw [prune_keep]
  rw [htt, htg]

/-- A concrete analysis context for evaluating the pruning loop: no
bodies, a solver that never finds a reaching term. -/
def ctxNoReach : Ctx where
  nprocs := 0
  bodies := fun _ => ⟨[], [], [], []⟩
  should_inline := fun _ => false
  is_semantically_meaningful := fun _ => false
  as_local := fun _ => none
  body_of := fun _ => none
  from_generator_fn := none
  future_poll_fn := none
  fn_sig_inputs := fun _ => []
  async_closure := fun _ _ => none
  use_recursive_analysis := true
  drop_poll := false
  remove_inconsequential := false
  remove_ctrl_flow_source := false
  use_pruning := true
  pruning_strategy := .NewEdges
  solve_reachable := fun _ _ _ => false

/-- Witness for C2: pruning a one-edge graph (argument 0 feeding the
return, data bit 0, no control) with a solver that finds nothing
deletes the edge. -/
theorem C2_prune_clears_unreachable_bits_deletes_empty_witness :
    prune_impossible_edges ctxNoReach []
        ⟨[.Argument 0, .Return], [(.Argument 0, .Return, ⟨{0}, false⟩)]⟩
        [(.Argument 0, .Return)] =
      some ⟨[.Argument 0, .Return], []⟩ ∧
    Graph.edge_weight ⟨[.Argument 0, .Return], []⟩ (.Argument 0) .Return = none := by
  have h : prune_impossible_edges ctxNoReach []
      ⟨[.Argument 0, .Return], [(.Argument 0, .Return, ⟨{0}, false⟩)]⟩
      [(.Argument 0, .Return)] = some ⟨[.Argument 0, .Return], []⟩ := by decide
  have hc := C2_prune_clears_unreachable_bits_deletes_empty ctxNoReach []
    ⟨[.Argument 0, .Return], [(.Argument 0, .Return, ⟨{0}, false⟩)]⟩
    ⟨[.Argument 0, .Return], []⟩ [(.Argument 0, .Return)]
    (.Argument 0) .Return ⟨{0}, false⟩ h (by decide) (by decide) (by decide)
  refine ⟨h, ?_⟩
  rw [hc.2]
  decide

/-- C10: Impossible-edge pruning mutates only the data bitset of an
edge's weight and never its control flag: edges outside the queued set
are untouched, a queued edge's surviving weight carries its original
control flag and a subset of its original data bits, and consequently
an edge whose control flag is set survives pruning even when all of
its data bits are cleared as unreachable. -/
theorem C10_prune_never_clears_control (ctx : Ctx)
    (eqs : List (Equality GlobalLocal)) (g g' : Graph)
    (Q : List (GNode × GNode)) (f t : GNode) (w : Edge)
    (h : prune_impossible_edges ctx eqs g Q = some g')
    (hnd : Q.Nodup) (hmem : (f, t) ∈ Q) (hw : g.edge_weight f t = some w) :
    (∀ a b : GNode, (a, b) ∉ Q → g'.edge_weight a b = g.edge_weight a b) ∧
    (∀ w', g'.edge_weight f t = some w' → w'.control = w.control ∧ w'.data ⊆ w.data) ∧
    (w.control = true → ∃ w', g'.edge_weight f t = some w' ∧ w'.control = true) := by
  obtain ⟨_, hvalue⟩ := prune_impossible_spec ctx eqs Q g g' h hnd (f, t) hmem w hw
  refine ⟨?_, ?_, ?_⟩
  · intro a b hab
    exact prune_impossible_frame ctx eqs Q g g' h (a, b) hab
  · intro w' hw'
    rw [hvalue] at hw'
    by_cases hcond : w.data.filter (fun i => prune_keep ctx eqs (f, t) i = true) = ∅ ∧
        w.control = false
    · rw [if_pos hcond] at hw'
      exact Option.noConfusion hw'
    · rw [if_neg hcond] at hw'
      cases hw'
      exact ⟨rfl, Finset.filter_subset _ _⟩
  · intro hctrl
    rw [hvalue]
    have hcond : ¬(w.data.filter (fun i => prune_keep ctx eqs (f, t) i = true) = ∅ ∧
        w.control = false) := by
      intro hc
      rw [hctrl] at hc
      exact Bool.noConfusion hc.2
    rw [if_neg hcond]
    exact ⟨_, rfl, hctrl ▸ rfl⟩

/-- Witness for C10: the same pruning run on an edge that also carries
the control flag keeps the edge, with only its data bit removed. -/
theorem C10_prune_never_clears_control_witness :
    prune_impossible_edges ctxNoReach []
        ⟨[.Argument 0, .Return], [(.Argument 0, .Return, ⟨{0}, true⟩)]⟩
        [(.Argument 0, .Return)] =
      some ⟨[.Argument 0, .Return], [(.Argument 0, .Return, ⟨∅, true⟩)]⟩ ∧
    ∃ w', Graph.edge_weight ⟨[.Argument 0, .Return], [(.Argument 0, .Return, ⟨∅, true⟩)]⟩
        (.Argument 0) .Return = some w' ∧ w'.control = true := by
  have h : prune_impossible_edges ctxNoReach []
      ⟨[.Argument 0, .Return], [(.Argument 0, .Return, ⟨{0}, true⟩)]⟩
      [(.Argument 0, .Return)] =
      some ⟨[.Argument 0, .Return], [(.Argument 0, .Return, ⟨∅, true⟩)]⟩ := by decide
  have hc := C10_prune_never_clears_control ctxNoReach []
    ⟨[.Argument 0, .Return], [(.Argument 0, .Return, ⟨{0}, true⟩)]⟩
    ⟨[.Argument 0, .Return], [(.Argument 0, .Return, ⟨∅, true⟩)]⟩
    [(.Argument 0, .Return)] (.Argument 0) .Return ⟨{0}, true⟩
    h (by decide) (by decide) (by decide)
  exact ⟨h, hc.2.2 rfl⟩

/-!
`Inliner::to_call_only_flow` (`inline.rs` lines 1052-1114).
-/

/-- `CallDeps` (`src/ana.rs` lines 587-594): control dependencies plus
one dependency set per argument position. -/
structure CallDeps where
  ctrl_deps : Finset GLoc
  input_deps : List (Finset GLoc)
  deriving DecidableEq

/-- The `CallOnlyFlow` struct of the `ir::flows` module (absent from
`src/`; its two fields are fixed by the construction in
`to_call_only_flow` and by spec §3 "Call-Only Flow"): dependencies per
call location plus a return-dependency set. -/
structure CallOnlyFlow where
  location_dependencies : List (GLoc × CallDeps)
  return_dependencies : Finset GLoc
  deriving DecidableEq

/-- The source of an incoming edge mapped to a location: a call's
location, an argument via `mk_arg`, and `unreachable!()` (`None`) for
`Return`. -/
def source_loc (mk_arg : Nat → GLoc) : GNode → Option GLoc
  | .Call c => some c.1
  | .Return => none
  | .Argument a => some (mk_arg a)

/-- `input_deps.resize_with(aidx + 1, HashSet::new)` when needed. -/
def ensure_len (l : List (Finset GLoc)) (n : Nat) : List (Finset GLoc) :=
  if n < l.length then l else l ++ List.replicate (n + 1 - l.length) ∅

/-- Insert into the dependency set at argument position `n`, growing
the vector first. -/
def set_at (l : List (Finset GLoc)) (n : Nat) (src : GLoc) : List (Finset GLoc) :=
  (ensure_len l n).set n (insert src ((ensure_len l n).getD n ∅))

/-- One `target.insert(...)` step of `get_dependencies` for one edge
type carried by an incoming edge. -/
def add_dep (mk_arg : Nat → GLoc) (deps : CallDeps) (src : GNode) (t : EdgeType) :
    Option CallDeps := do
  let loc ← source_loc mk_arg src
  match t with
  | .Data a => some { deps with input_deps := set_at deps.input_deps a loc }
  | .Control => some { deps with ctrl_deps := insert loc deps.ctrl_deps }

/-- `get_dependencies` (`inline.rs` lines 1063-1089): walk the incoming
edges of `n` and record each carried edge type's source. -/
def get_deps (g : Graph) (mk_arg : Nat → GLoc) (n : GNode) : Option CallDeps :=
  (g.edges_in n).foldlM
    (fun deps p =>
      (p.2.into_types_iter).foldlM (fun deps t => add_dep mk_arg deps p.1 t) deps)
    ⟨∅, []⟩

/-- One node of the `to_call_only_flow` iteration: `Argument` nodes
yield nothing, `Return` merges the flattened input dependency sets into
the program-wide return-dependency set, each `Call` inserts its entry
keyed by its global location — `None` models the
`assert!(...is_none())` on a duplicate key and the `unreachable!()` on
a `Return`-sourced edge. -/
def tcof_step (g : Graph) (mk_arg : Nat → GLoc) (acc : CallOnlyFlow) (n : GNode) :
    Option CallOnlyFlow :=
  match n with
  | .Argument _ => some acc
  | .Return => do
    let deps ← get_deps g mk_arg .Return
    some { acc with return_dependencies :=
      acc.return_dependencies ∪ deps.input_deps.foldl (· ∪ ·) ∅ }
  | .Call (loc, did) => do
    let deps ← get_deps g mk_arg (.Call (loc, did))
    if (acc.location_dependencies.lookup loc).isSome then none
    else some { acc with location_dependencies :=
      acc.location_dependencies ++ [(loc, deps)] }

/-- `Inliner::to_call_only_flow` (`inline.rs` lines 1055-1113): fold
`tcof_step` over the nodes starting from the empty flow. -/
def to_call_only_flow (g : Graph) (mk_arg : Nat → GLoc) : Option CallOnlyFlow :=
  g.nodes.foldlM (tcof_step g mk_arg) ⟨[], ∅⟩

/-- The local location key a node contributes to the output map: only
`Call` nodes yield one. -/
def callLoc : GNode → Option GLoc
  | .Call c => some c.1
  | _ => none

theorem lookup_isSome_iff_mem (l : List (GLoc × CallDeps)) (a : GLoc) :
    (l.lookup a).isSome ↔ a ∈ l.map (fun p => p.1) := by
  induction l with
  | nil => simp [List.lookup]
  | cons x xs ih =>
    rw [List.lookup]
    by_cases hax : a = x.1
    · simp [hax]
    · have : (a == x.1) = false := by
        simp only [beq_eq_false_iff_ne, ne_eq]
        exact hax
      rw [this]
      simp only [List.map_cons, List.mem_cons]
      rw [ih]
      simp [hax]

theorem lookup_append (l1 l2 : List (GLoc × CallDeps)) (a : GLoc) :
    (l1 ++ l2).lookup a =
      match l1.lookup a with
      | some v => some v
      | none => l2.lookup a := by
  induction l1 with
  | nil => simp [List.lookup]
  | cons x xs ih =>
    rw [List.cons_append, List.lookup, List.lookup]
    by_cases hax : a = x.1
    · have : (a == x.1) = true := by simp [hax]
      rw [this]
    · have : (a == x.1) = false := by
        simp only [beq_eq_false_iff_ne, ne_eq]
        exact hax
      rw [this, ih]

theorem mem_foldl_union (l : List (Finset GLoc)) (init : Finset GLoc) (x : GLoc) :
    x ∈ l.foldl (· ∪ ·) init ↔ x ∈ init ∨ ∃ s ∈ l, x ∈ s := by
  induction l generalizing init with
  | nil => simp
  | cons s ss ih =>
    rw [List.foldl_cons, ih]
    simp only [Finset.mem_union, List.mem_cons]
    constructor
    · rintro ((h | h) | ⟨t, ht, hx⟩)
      · exact Or.inl h
      · exact Or.inr ⟨s, Or.inl rfl, h⟩
      · exact Or.inr ⟨t, Or.inr ht, hx⟩
    · rintro (h | ⟨t, rfl | ht, hx⟩)
      · exact Or.inl (Or.inl h)
      · exact Or.inl (Or.inr hx)
      · exact Or.inr ⟨t, ht, hx⟩

theorem mem_getD_of_mem_list {l : List (Finset GLoc)} {x : GLoc} :
    (∃ s ∈ l, x ∈ s) ↔ ∃ b, x ∈ l.getD b ∅ := by
  constructor
  · rintro ⟨s, hs, hx⟩
    obtain ⟨b, hb, rfl⟩ := List.mem_iff_getElem.mp hs
    refine ⟨b, ?_⟩
    rw [List.getD_eq_getElem?_getD, List.getElem?_eq_getElem hb]
    exact hx
  · rintro ⟨b, hx⟩
    by_cases hb : b < l.length
    · refine ⟨l[b], List.getElem_mem hb, ?_⟩
      rw [List.getD_eq_getElem?_getD, List.getElem?_eq_getElem hb] at hx
      exact hx
    · rw [List.getD_eq_getElem?_getD, List.getElem?_eq_none (by omega)] at hx
      exact absurd hx (Finset.not_mem_empty x)

theorem ensure_len_length (l : List (Finset GLoc)) (n : Nat) :
    (ensure_len l n).length = max l.length (n + 1) := by
  rw [ensure_len]
  split
  · next h => rw [Nat.max_eq_left (by omega)]
  · next h =>
    rw [List.length_append, List.length_replicate]
    omega

theorem ensure_len_getD (l : List (Finset GLoc)) (n b : Nat) :
    (ensure_len l n).getD b ∅ = l.getD b ∅ := by
  rw [ensure_len]
  split
  · rfl
  · next h =>
    rw [List.getD_eq_getElem?_getD, List.getD_eq_getElem?_getD, List.getElem?_append]
    by_cases hb : b < l.length
    · rw [if_pos hb]
    · rw [if_neg hb]
      have hl : l[b]? = none := List.getElem?_eq_none (by omega)
      rw [hl]
      rcases lt_or_ge (b - l.length) (n + 1 - l.length) with hlt | hge
      · rw [List.getElem?_replicate]
        simp [hlt]
      · have hr : (List.replicate (n + 1 - l.length) (∅ : Finset GLoc))[b - l.length]? = none :=
          List.getElem?_eq_none (by simpa using hge)
        rw [hr]

theorem set_at_length (l : List (Finset GLoc)) (n : Nat) (src : GLoc) :
    (set_at l n src).length = max l.length (n + 1) := by
  rw [set_at, List.length_set, ensure_len_length]

theorem set_at_getD (l : List (Finset GLoc)) (n : Nat) (src : GLoc) (b : Nat) :
    (set_at l n src).getD b ∅ =
      if b = n then insert src (l.getD n ∅) else l.getD b ∅ := by
  rw [set_at]
  have hn : n < (ensure_len l n).length := by
    rw [ensure_len_length]
    omega
  by_cases hb : b = n
  · subst hb
    rw [if_pos rfl, List.getD_eq_getElem?_getD, List.getElem?_set_self hn]
    rw [ensure_len_getD]
    rfl
  · rw [if_neg hb, List.getD_eq_getElem?_getD, List.getElem?_set_ne (by omega),
      ← List.getD_eq_getElem?_getD, ensure_len_getD]

theorem mem_edges_in {g : Graph} {n : GNode} {p : GNode × Edge} :
    p ∈ g.edges_in n ↔ (p.1, n, p.2) ∈ g.edges := by
  rw [Graph.edges_in, List.mem_filterMap]
  constructor
  · rintro ⟨e, he, hf⟩
    revert hf
    split
    · next h =>
      intro hf
      obtain ⟨e1, e2, e3⟩ := e
      cases hf
      simp only at h
      rw [← h]
      exact he
    · intro hf
      exact Option.noConfusion hf
  · intro he
    exact ⟨(p.1, n, p.2), he, by simp⟩

theorem control_mem_into_types (e : Edge) :
    EdgeType.Control ∈ e.into_types_iter ↔ e.control = true := by
  cases hc : e.control <;> simp [Edge.into_types_iter, hc]

theorem data_mem_into_types (e : Edge) (i : Nat) :
    EdgeType.Data i ∈ e.into_types_iter ↔ i ∈ e.data := by
  cases hc : e.control <;>
    simp [Edge.into_types_iter, hc, mem_bitsAsc, eq_comm]

theorem add_dep_some (mk_arg : Nat → GLoc) (deps : CallDeps) (src : GNode)
    (t : EdgeType) (loc : GLoc) (hsrc : source_loc mk_arg src = some loc) :
    add_dep mk_arg deps src t = some (match t with
      | .Data a => { deps with input_deps := set_at deps.input_deps a loc }
      | .Control => { deps with ctrl_deps := insert loc deps.ctrl_deps }) := by
  cases t with
  | Data a => simp [add_dep, hsrc]
  | Control => simp [add_dep, hsrc]

/-- The running length of `input_deps` during `get_dependencies`: a
`Data a` edge type resizes the vector to at least `a + 1`. -/
def depStepL (m : Nat) (t : EdgeType) : Nat :=
  match t with
  | .Data a => max m (a + 1)
  | .Control => m

/-- The length `input_deps` reaches from empty after one edge's types. -/
def dataMax (ts : List EdgeType) : Nat :=
  ts.foldl depStepL 0

theorem dataMax_shift (ts : List EdgeType) :
    ∀ m : Nat, ts.foldl depStepL m = max m (dataMax ts) := by
  induction ts with
  | nil =>
    intro m
    simp [dataMax]
  | cons t ts ih =>
    intro m
    rw [dataMax, List.foldl_cons, List.foldl_cons, ih, ih (depStepL 0 t)]
    cases t with
    | Data a =>
      simp only [depStepL]
      omega
    | Control =>
      simp only [depStepL]
      omega

theorem inner_fold_spec (mk_arg : Nat → GLoc) (src : GNode) (loc : GLoc)
    (hsrc : source_loc mk_arg src = some loc) :
    ∀ (ts : List EdgeType) (deps : CallDeps),
    ∃ deps', ts.foldlM (fun d t => add_dep mk_arg d src t) deps = some deps' ∧
      deps'.input_deps.length = ts.foldl depStepL deps.input_deps.length ∧
      (∀ x, x ∈ deps'.ctrl_deps ↔
        x ∈ deps.ctrl_deps ∨ (EdgeType.Control ∈ ts ∧ x = loc)) ∧
      (∀ i x, x ∈ deps'.input_deps.getD i ∅ ↔
        x ∈ deps.input_deps.getD i ∅ ∨ (EdgeType.Data i ∈ ts ∧ x = loc)) := by
  intro ts
  induction ts with
  | nil =>
    intro deps
    exact ⟨deps, rfl, rfl, by simp, by simp⟩
  | cons t ts ih =>
    intro deps
    cases t with
    | Data a =>
      obtain ⟨deps', hfold, hlen, hctrl, hinput⟩ :=
        ih { deps with input_deps := set_at deps.input_deps a loc }
      refine ⟨deps', ?_, ?_, ?_, ?_⟩
      · rw [List.foldlM_cons, add_dep_some mk_arg deps src (.Data a) loc hsrc]
        exact hfold
      · rw [List.foldl_cons]
        rw [hlen]
        simp only [depStepL]
        rw [set_at_length]
      · intro x
        rw [hctrl x]
        simp
      · intro i x
        rw [hinput i x]
        simp only [set_at_getD, List.mem_cons]
        by_cases hia : i = a
        · subst hia
          rw [if_pos rfl]
          simp only [Finset.mem_insert, EdgeType.Data.injEq]
          constructor
          · rintro ((h | h) | ⟨hm, hx⟩)
            · exact Or.inr ⟨Or.inl trivial, h⟩
            · exact Or.inl h
            · exact Or.inr ⟨Or.inr hm, hx⟩
          · rintro (h | ⟨(h | hm), hx⟩)
            · exact Or.inl (Or.inr h)
            · exact Or.inl (Or.inl hx)
            · exact Or.inr ⟨hm, hx⟩
        · rw [if_neg hia]
          simp only [EdgeType.Data.injEq]
          constructor
          · rintro (h | ⟨hm, hx⟩)
            · exact Or.inl h
            · exact Or.inr ⟨Or.inr hm, hx⟩
          · rintro (h | ⟨(h | hm), hx⟩)
            · exact Or.inl h
            · exact absurd h hia
            · exact Or.inr ⟨hm, hx⟩
    | Control =>
      obtain ⟨deps', hfold, hlen, hctrl, hinput⟩ :=
        ih { deps with ctrl_deps := insert loc deps.ctrl_deps }
      refine ⟨deps', ?_, ?_, ?_, ?_⟩
      · rw [List.foldlM_cons, add_dep_some mk_arg deps src .Control loc hsrc]
        exact hfold
      · rw [List.foldl_cons]
        exact hlen
      · intro x
        rw [hctrl x]
        simp only [Finset.mem_insert, List.mem_cons, true_or, true_and]
        constructor
        · rintro ((h | h) | ⟨hm, hx⟩)
          · exact Or.inr h
          · exact Or.inl h
          · exact Or.inr hx
        · rintro (h | h)
          · exact Or.inl (Or.inr h)
          · exact Or.inl (Or.inl h)
      · intro i x
        rw [hinput i x]
        simp

theorem get_deps_fold (g : Graph) (mk_arg : Nat → GLoc) :
    ∀ (l : List (GNode × Edge)), (∀ p ∈ l, p.1 ≠ SimpleLocation.Return) →
    ∀ (deps : CallDeps),
    ∃ deps', l.foldlM
        (fun deps p =>
          (p.2.into_types_iter).foldlM (fun deps t => add_dep mk_arg deps p.1 t) deps)
        deps = some deps' ∧
      deps'.input_deps.length =
        l.foldl (fun m p => max m (dataMax p.2.into_types_iter)) deps.input_deps.length ∧
      (∀ x, x ∈ deps'.ctrl_deps ↔ x ∈ deps.ctrl_deps ∨
        ∃ p, p ∈ l ∧ p.2.control = true ∧ source_loc mk_arg p.1 = some x) ∧
      (∀ i x, x ∈ deps'.input_deps.getD i ∅ ↔ x ∈ deps.input_deps.getD i ∅ ∨
        ∃ p, p ∈ l ∧ i ∈ p.2.data ∧ source_loc mk_arg p.1 = some x) := by
  intro l
  induction l with
  | nil =>
    intro _ deps
    exact ⟨deps, rfl, rfl, by simp, by simp⟩
  | cons p l ih =>
    intro hnr deps
    have hploc : ∃ loc, source_loc mk_arg p.1 = some loc := by
      cases hp1 : p.1 with
      | Return => exact absurd hp1 (hnr p (List.mem_cons_self p l))
      | Argument a => exact ⟨mk_arg a, rfl⟩
      | Call c => exact ⟨c.1, rfl⟩
    obtain ⟨loc, hloc⟩ := hploc
    obtain ⟨deps₁, hfold₁, hlen₁, hctrl₁, hinput₁⟩ :=
      inner_fold_spec mk_arg p.1 loc hloc p.2.into_types_iter deps
    obtain ⟨deps', hfold, hlen, hctrl, hinput⟩ :=
      ih (fun q hq => hnr q (List.mem_cons_of_mem p hq)) deps₁
    refine ⟨deps', ?_, ?_, ?_, ?_⟩
    · rw [List.foldlM_cons, hfold₁]
      exact hfold
    · rw [List.foldl_cons, hlen, hlen₁, dataMax_shift]
    · intro x
      rw [hctrl x, hctrl₁ x]
      constructor
      · rintro ((h | ⟨hC, rfl⟩) | ⟨q, hq, hc, hs⟩)
        · exact Or.inl h
        · exact Or.inr ⟨p, List.mem_cons_self p l,
            (control_mem_into_types p.2).mp hC, hloc⟩
        · exact Or.inr ⟨q, List.mem_cons_of_mem p hq, hc, hs⟩
      · rintro (h | ⟨q, hq, hc, hs⟩)
        · exact Or.inl (Or.inl h)
        · rcases List.mem_cons.mp hq with rfl | hq'
          · rw [hloc] at hs
            exact Or.inl (Or.inr ⟨(control_mem_into_types q.2).mpr hc,
              (Option.some.inj hs).symm⟩)
          · exact Or.inr ⟨q, hq', hc, hs⟩
    · intro i x
      rw [hinput i x, hinput₁ i x]
      constructor
      · rintro ((h | ⟨hD, rfl⟩) | ⟨q, hq, hd, hs⟩)
        · exact Or.inl h
        · exact Or.inr ⟨p, List.mem_cons_self p l,
            (data_mem_into_types p.2 i).mp hD, hloc⟩
        · exact Or.inr ⟨q, List.mem_cons_of_mem p hq, hd, hs⟩
      · rintro (h | ⟨q, hq, hd, hs⟩)
        · exact Or.inl (Or.inl h)
        · rcases List.mem_cons.mp hq with rfl | hq'
          · rw [hloc] at hs
            exact Or.inl (Or.inr ⟨(data_mem_into_types q.2 i).mpr hd,
              (Option.some.inj hs).symm⟩)
          · exact Or.inr ⟨q, hq', hd, hs⟩

theorem get_deps_spec (g : Graph) (mk_arg : Nat → GLoc) (n : GNode)
    (hnr : ∀ p ∈ g.edges_in n, p.1 ≠ SimpleLocation.Return) :
    ∃ deps, get_deps g mk_arg n = some deps ∧
      deps.input_deps.length =
        (g.edges_in n).foldl (fun m p => max m (dataMax p.2.into_types_iter)) 0 ∧
      (∀ x, x ∈ deps.ctrl_deps ↔
        ∃ p, p ∈ g.edges_in n ∧ p.2.control = true ∧ source_loc mk_arg p.1 = some x) ∧
      (∀ i x, x ∈ deps.input_deps.getD i ∅ ↔
        ∃ p, p ∈ g.edges_in n ∧ i ∈ p.2.data ∧ source_loc mk_arg p.1 = some x) := by
  obtain ⟨deps, hfold, hlen, hctrl, hinput⟩ :=
    get_deps_fold g mk_arg (g.edges_in n) hnr ⟨∅, []⟩
  refine ⟨deps, ?_, ?_, ?_, ?_⟩
  · rw [get_deps]
    exact hfold
  · exact hlen
  · intro x
    rw [hctrl x]
    simp
  · intro i x
    rw [hinput i x]
    simp [List.getD]

theorem dataMax_le (e : Edge) (N : Nat) (h : ∀ i ∈ e.data, i < N) :
    dataMax e.into_types_iter ≤ N := by
  have main : ∀ (ts : List EdgeType), (∀ a, EdgeType.Data a ∈ ts → a < N) →
      ∀ m, m ≤ N → ts.foldl depStepL m ≤ N := by
    intro ts
    induction ts with
    | nil => exact fun _ m hm => hm
    | cons t ts ih =>
      intro h m hm
      rw [List.foldl_cons]
      refine ih (fun a ha => h a (List.mem_cons_of_mem t ha)) _ ?_
      cases t with
      | Data a =>
        have := h a (List.mem_cons_self _ ts)
        simp only [depStepL]
        exact Nat.max_le.mpr ⟨hm, this⟩
      | Control => exact hm
  exact main _ (fun a ha => h a ((data_mem_into_types e a).mp ha)) 0 (Nat.zero_le N)

theorem foldl_max_le {α : Type} (C : α → Nat) (N : Nat) :
    ∀ (l : List α) (m : Nat), m ≤ N → (∀ p ∈ l, C p ≤ N) →
      l.foldl (fun m p => max m (C p)) m ≤ N := by
  intro l
  induction l with
  | nil => exact fun m hm _ => hm
  | cons x l ih =>
    intro m hm h
    rw [List.foldl_cons]
    exact ih _ (Nat.max_le.mpr ⟨hm, h x (List.mem_cons_self x l)⟩)
      (fun p hp => h p (List.mem_cons_of_mem x hp))

theorem foldl_max_perm {α : Type} (C : α → Nat) {l₁ l₂ : List α} (h : l₁.Perm l₂) :
    ∀ m : Nat, l₁.foldl (fun m p => max m (C p)) m = l₂.foldl (fun m p => max m (C p)) m := by
  induction h with
  | nil => exact fun _ => rfl
  | cons x _ ih =>
    intro m
    rw [List.foldl_cons, List.foldl_cons, ih]
  | swap x y l =>
    intro m
    simp only [List.foldl_cons]
    rw [sup_right_comm]
  | trans _ _ ih₁ ih₂ =>
    intro m
    rw [ih₁, ih₂]

theorem lookup_of_mem_nodup :
    ∀ (l : List (GLoc × CallDeps)), (l.map Prod.fst).Nodup →
    ∀ (a : GLoc) (b : CallDeps), (a, b) ∈ l → l.lookup a = some b := by
  intro l
  induction l with
  | nil =>
    intro _ a b h
    cases h
  | cons x xs ih =>
    intro hnd a b hmem
    rw [List.map_cons, List.nodup_cons] at hnd
    rw [List.lookup]
    rcases List.mem_cons.mp hmem with rfl | hmem'
    · have hbeq : (a == (a, b).1) = true := by simp
      rw [hbeq]
    · have hne : a ≠ x.1 := by
        rintro rfl
        exact hnd.1 (List.mem_map.mpr ⟨(x.1, b), hmem', rfl⟩)
      have hbeq : (a == x.1) = false := by simp [hne]
      rw [hbeq]
      exact ih hnd.2 a b hmem'

theorem lookup_eq_none_of_not_mem (l : List (GLoc × CallDeps)) (a : GLoc)
    (h : a ∉ l.map Prod.fst) : l.lookup a = none := by
  cases hl : l.lookup a with
  | none => rfl
  | some b =>
    exact absurd ((lookup_isSome_iff_mem l a).mp (by rw [hl]; rfl)) h

/-- The map entry a node contributes to `location_dependencies`: only a
`Call` node yields one, keyed by its location and carrying its
dependencies. -/
def call_entry (g : Graph) (mk_arg : Nat → GLoc) (n : GNode) :
    Option (GLoc × CallDeps) :=
  match n with
  | .Call c => (get_deps g mk_arg (.Call c)).map (fun d => (c.1, d))
  | _ => none

/-- The flattened input dependencies of the `Return` node: what one
visit of `Return` merges into `return_dependencies`. -/
def ret_set (g : Graph) (mk_arg : Nat → GLoc) : Finset GLoc :=
  ((get_deps g mk_arg .Return).getD ⟨∅, []⟩).input_deps.foldl (· ∪ ·) ∅

theorem edges_in_not_return {g : Graph}
    (hnr : ∀ e ∈ g.edges, e.1 ≠ SimpleLocation.Return) (n : GNode) :
    ∀ p ∈ g.edges_in n, p.1 ≠ SimpleLocation.Return :=
  fun p hp => hnr (p.1, n, p.2) (mem_edges_in.mp hp)

theorem tcof_fold_spec (g : Graph) (mk_arg : Nat → GLoc)
    (hnr : ∀ e ∈ g.edges, e.1 ≠ SimpleLocation.Return) :
    ∀ (ns : List GNode) (acc : CallOnlyFlow),
    (acc.location_dependencies.map Prod.fst ++ ns.filterMap callLoc).Nodup →
    ∃ f, ns.foldlM (tcof_step g mk_arg) acc = some f ∧
      f.location_dependencies =
        acc.location_dependencies ++ ns.filterMap (call_entry g mk_arg) ∧
      f.return_dependencies = acc.return_dependencies ∪
        (if SimpleLocation.Return ∈ ns then ret_set g mk_arg else ∅) := by
  intro ns
  induction ns with
  | nil =>
    intro acc _
    exact ⟨acc, rfl, by simp, by simp⟩
  | cons n ns ih =>
    intro acc hnd
    cases n with
    | Argument a =>
      obtain ⟨f, hfold, hloc, hret⟩ := ih acc (by
        rw [List.filterMap_cons_none rfl] at hnd
        exact hnd)
      refine ⟨f, ?_, ?_, ?_⟩
      · rw [List.foldlM_cons]
        exact hfold
      · rw [hloc, List.filterMap_cons_none rfl]
      · rw [hret]
        have hmm : (SimpleLocation.Return ∈ (SimpleLocation.Argument a : GNode) :: ns) ↔
            SimpleLocation.Return ∈ ns := by simp
        rw [if_congr hmm rfl rfl]
    | Return =>
      obtain ⟨depsR, hdepsR, _, _, _⟩ :=
        get_deps_spec g mk_arg .Return (edges_in_not_return hnr _)
      obtain ⟨f, hfold, hloc, hret⟩ := ih
        { acc with return_dependencies :=
            acc.return_dependencies ∪ depsR.input_deps.foldl (· ∪ ·) ∅ }
        (by
          rw [List.filterMap_cons_none rfl] at hnd
          exact hnd)
      refine ⟨f, ?_, ?_, ?_⟩
      · rw [List.foldlM_cons]
        have hstep : tcof_step g mk_arg acc .Return = some
            { acc with return_dependencies :=
                acc.return_dependencies ∪ depsR.input_deps.foldl (· ∪ ·) ∅ } := by
          simp [tcof_step, hdepsR]
        rw [hstep]
        exact hfold
      · rw [hloc, List.filterMap_cons_none rfl]
      · rw [hret]
        have hrs : ret_set g mk_arg = depsR.input_deps.foldl (· ∪ ·) ∅ := by
          rw [ret_set, hdepsR, Option.getD_some]
        rw [if_pos (List.mem_cons_self _ _)]
        by_cases hR : SimpleLocation.Return ∈ ns
        · rw [if_pos hR, hrs, Finset.union_assoc, Finset.union_self]
        · rw [if_neg hR, hrs, Finset.union_empty]
    | Call c =>
      obtain ⟨loc, did⟩ := c
      rw [List.filterMap_cons_some (rfl :
        callLoc (.Call (loc, did)) = some loc)] at hnd
      have hnotin : loc ∉ acc.location_dependencies.map Prod.fst := by
        rw [List.nodup_append] at hnd
        exact fun hmem => hnd.2.2 hmem (List.mem_cons_self _ _)
      obtain ⟨depsC, hdepsC, _, _, _⟩ :=
        get_deps_spec g mk_arg (.Call (loc, did)) (edges_in_not_return hnr _)
      have hlookup : acc.location_dependencies.lookup loc = none :=
        lookup_eq_none_of_not_mem _ _ hnotin
      have hstep : tcof_step g mk_arg acc (.Call (loc, did)) = some
          { acc with location_dependencies :=
              acc.location_dependencies ++ [(loc, depsC)] } := by
        simp [tcof_step, hdepsC, hlookup]
      have hnd' : ((acc.location_dependencies ++ [(loc, depsC)]).map Prod.fst ++
          ns.filterMap callLoc).Nodup := by
        rw [List.map_append, List.append_assoc]
        exact hnd
      obtain ⟨f, hfold, hloc2, hret⟩ := ih
        { acc with location_dependencies := acc.location_dependencies ++ [(loc, depsC)] }
        hnd'
      have hce : call_entry g mk_arg (.Call (loc, did)) = some (loc, depsC) := by
        simp [call_entry, hdepsC]
      refine ⟨f, ?_, ?_, ?_⟩
      · rw [List.foldlM_cons, hstep]
        exact hfold
      · rw [hloc2, List.filterMap_cons_some hce, List.append_assoc]
        rfl
      · rw [hret]
        have hmm : (SimpleLocation.Return ∈
            (SimpleLocation.Call (loc, did) : GNode) :: ns) ↔
            SimpleLocation.Return ∈ ns := by simp
        rw [if_congr hmm rfl rfl]

theorem tcof_fold_none (g : Graph) (mk_arg : Nat → GLoc)
    (hnr : ∀ e ∈ g.edges, e.1 ≠ SimpleLocation.Return) :
    ∀ (ns : List GNode) (acc : CallOnlyFlow),
    (acc.location_dependencies.map Prod.fst).Nodup →
    ¬ (acc.location_dependencies.map Prod.fst ++ ns.filterMap callLoc).Nodup →
    ns.foldlM (tcof_step g mk_arg) acc = none := by
  intro ns
  induction ns with
  | nil =>
    intro acc hk hnot
    exact absurd (by rw [List.filterMap_nil, List.append_nil]; exact hk) hnot
  | cons n ns ih =>
    intro acc hk hnot
    cases n with
    | Argument a =>
      rw [List.foldlM_cons]
      exact ih acc hk (fun h => hnot (by rw [List.filterMap_cons_none rfl]; exact h))
    | Return =>
      obtain ⟨depsR, hdepsR, _, _, _⟩ :=
        get_deps_spec g mk_arg .Return (edges_in_not_return hnr _)
      have hstep : tcof_step g mk_arg acc .Return = some
          { acc with return_dependencies :=
              acc.return_dependencies ∪ depsR.input_deps.foldl (· ∪ ·) ∅ } := by
        simp [tcof_step, hdepsR]
      rw [List.foldlM_cons, hstep]
      exact ih _ hk (fun h => hnot (by rw [List.filterMap_cons_none rfl]; exact h))
    | Call c =>
      obtain ⟨loc, did⟩ := c
      obtain ⟨depsC, hdepsC, _, _, _⟩ :=
        get_deps_spec g mk_arg (.Call (loc, did)) (edges_in_not_return hnr _)
      rw [List.foldlM_cons]
      by_cases hin : loc ∈ acc.location_dependencies.map Prod.fst
      · have hlk : (acc.location_dependencies.lookup loc).isSome = true :=
          (lookup_isSome_iff_mem _ _).mpr hin
        have hstep : tcof_step g mk_arg acc (.Call (loc, did)) = none := by
          simp [tcof_step, hdepsC, hlk]
        rw [hstep]
        rfl
      · have hlookup : acc.location_dependencies.lookup loc = none :=
          lookup_eq_none_of_not_mem _ _ hin
        have hstep : tcof_step g mk_arg acc (.Call (loc, did)) = some
            { acc with location_dependencies :=
                acc.location_dependencies ++ [(loc, depsC)] } := by
          simp [tcof_step, hdepsC, hlookup]
        rw [hstep]
        refine ih _ ?_ ?_
        · simp only [List.map_append, List.map_cons, List.map_nil]
          rw [List.nodup_append]
          refine ⟨hk, List.nodup_singleton _, ?_⟩
          intro x hx hx'
          rw [List.mem_singleton] at hx'
          subst hx'
          exact hin hx
        · intro h
          apply hnot
          rw [List.filterMap_cons_some (rfl :
            callLoc (.Call (loc, did)) = some loc)]
          rw [List.map_append, List.append_assoc] at h
          exact h

theorem call_entry_fst (g : Graph) (mk_arg : Nat → GLoc)
    (hnr : ∀ e ∈ g.edges, e.1 ≠ SimpleLocation.Return) :
    ∀ ns : List GNode,
      (ns.filterMap (call_entry g mk_arg)).map Prod.fst = ns.filterMap callLoc := by
  intro ns
  induction ns with
  | nil => rfl
  | cons n ns ih =>
    cases n with
    | Argument a =>
      rw [List.filterMap_cons_none rfl, List.filterMap_cons_none rfl]
      exact ih
    | Return =>
      rw [List.filterMap_cons_none rfl, List.filterMap_cons_none rfl]
      exact ih
    | Call c =>
      obtain ⟨loc, did⟩ := c
      obtain ⟨depsC, hdepsC, _, _, _⟩ :=
        get_deps_spec g mk_arg (.Call (loc, did)) (edges_in_not_return hnr _)
      have hce : call_entry g mk_arg (.Call (loc, did)) = some (loc, depsC) := by
        simp [call_entry, hdepsC]
      rw [List.filterMap_cons_some hce,
        List.filterMap_cons_some (rfl : callLoc (.Call (loc, did)) = some loc),
        List.map_cons, ih]

theorem mem_ret_set (g : Graph) (mk_arg : Nat → GLoc)
    (hnr : ∀ e ∈ g.edges, e.1 ≠ SimpleLocation.Return) (x : GLoc) :
    x ∈ ret_set g mk_arg ↔
      ∃ p, p ∈ g.edges_in SimpleLocation.Return ∧ (∃ i, i ∈ p.2.data) ∧
        source_loc mk_arg p.1 = some x := by
  obtain ⟨depsR, hdepsR, _, _, hinput⟩ :=
    get_deps_spec g mk_arg .Return (edges_in_not_return hnr _)
  rw [ret_set, hdepsR, Option.getD_some, mem_foldl_union]
  simp only [Finset.not_mem_empty, false_or]
  rw [mem_getD_of_mem_list]
  constructor
  · rintro ⟨b, hb⟩
    obtain ⟨p, hp, hd, hs⟩ := (hinput b x).mp hb
    exact ⟨p, hp, ⟨b, hd⟩, hs⟩
  · rintro ⟨p, hp, ⟨i, hi⟩, hs⟩
    exact ⟨i, (hinput i x).mpr ⟨p, hp, hi, hs⟩⟩

theorem tcof_some_nodup (g : Graph) (mk_arg : Nat → GLoc)
    (hnr : ∀ e ∈ g.edges, e.1 ≠ SimpleLocation.Return) (f : CallOnlyFlow)
    (hf : to_call_only_flow g mk_arg = some f) :
    (g.nodes.filterMap callLoc).Nodup := by
  by_contra hnot
  rw [to_call_only_flow,
    tcof_fold_none g mk_arg hnr g.nodes ⟨[], ∅⟩ (by simp) (by simpa using hnot)] at hf
  exact Option.noConfusion hf

theorem callDeps_eq (d1 d2 : CallDeps) (hc : d1.ctrl_deps = d2.ctrl_deps)
    (hi : d1.input_deps = d2.input_deps) : d1 = d2 := by
  cases d1
  cases d2
  cases hc
  cases hi
  rfl

theorem list_eq_of_getD (l1 l2 : List (Finset GLoc)) (hlen : l1.length = l2.length)
    (h : ∀ b, l1.getD b ∅ = l2.getD b ∅) : l1 = l2 := by
  apply List.ext_getElem hlen
  intro i h1 h2
  have hb := h i
  rw [List.getD_eq_getElem?_getD, List.getD_eq_getElem?_getD,
    List.getElem?_eq_getElem h1, List.getElem?_eq_getElem h2] at hb
  exact hb

/-- C6: `to_call_only_flow` flags a duplicate call-location key as a
programmer error.  When no edge has the `Return` node as its source
(which would instead trip the separate `unreachable!`), the extraction
succeeds iff the `Call` nodes' global locations are pairwise distinct:
a duplicate key makes the `assert!(...insert(...).is_none())` abort
(`none`) rather than silently overwriting the earlier entry, and on
success the key list is exactly the call locations in node order, each
inserted exactly once. -/
theorem C6_duplicate_key_asserts (g : Graph) (mk_arg : Nat → GLoc)
    (hnr : ∀ e ∈ g.edges, e.1 ≠ SimpleLocation.Return) :
    ((to_call_only_flow g mk_arg).isSome ↔ (g.nodes.filterMap callLoc).Nodup) ∧
    ∀ f, to_call_only_flow g mk_arg = some f →
      f.location_dependencies.map Prod.fst = g.nodes.filterMap callLoc := by
  constructor
  · constructor
    · intro hs
      obtain ⟨f, hf⟩ := Option.isSome_iff_exists.mp hs
      exact tcof_some_nodup g mk_arg hnr f hf
    · intro hnd
      obtain ⟨f, hfold, _, _⟩ :=
        tcof_fold_spec g mk_arg hnr g.nodes ⟨[], ∅⟩ (by simpa using hnd)
      rw [to_call_only_flow, hfold]
      rfl
  · intro f hf
    have hnd := tcof_some_nodup g mk_arg hnr f hf
    obtain ⟨f', hfold, hloc, _⟩ :=
      tcof_fold_spec g mk_arg hnr g.nodes ⟨[], ∅⟩ (by simpa using hnd)
    rw [to_call_only_flow, hfold] at hf
    cases hf
    rw [hloc]
    exact call_entry_fst g mk_arg hnr g.nodes

/-- A concrete global location for the extraction witnesses. -/
def locW : GLoc := GLoc.base 0 ⟨0, 0⟩

/-- A concrete argument-to-location map for the extraction witnesses. -/
def mkArgW : Nat → GLoc := fun a => GLoc.base 1 ⟨a, 0⟩

/-- A graph with two `Call` nodes at the same global location. -/
def gdup : Graph := ⟨[.Call (locW, 0), .Call (locW, 1)], []⟩

/-- Witness for C6: on a graph with two call nodes mapping to the same
global location, the extraction aborts. -/
theorem C6_duplicate_key_asserts_witness :
    to_call_only_flow gdup mkArgW = none := by
  have h := C6_duplicate_key_asserts gdup mkArgW (by simp [gdup])
  cases hf : to_call_only_flow gdup mkArgW with
  | none => rfl
  | some f =>
    have hnd := h.1.mp (by rw [hf]; rfl)
    exact absurd hnd (by decide)

/-- C5: shape of the extracted Call-Only Flow.  Every `Call` node
yields exactly one entry keyed by its global location (the keys are
exactly the call locations of the graph's nodes, so `Argument` nodes
yield no entries); the entry's `input_deps` at index `i` is exactly the
set of mapped sources of incoming edges carrying data index `i`
(0-indexed, so index `i` is the `i`-th formal parameter), its
`ctrl_deps` is exactly the mapped sources of incoming control edges,
and when every incoming data index is below the callee's argument
count `N` the `input_deps` vector has length at most `N`; the incoming
data dependencies of the `Return` node are merged into the single
return-dependency set. -/
theorem C5_call_only_flow_shape (g : Graph) (mk_arg : Nat → GLoc) (f : CallOnlyFlow)
    (hnr : ∀ e ∈ g.edges, e.1 ≠ SimpleLocation.Return)
    (hf : to_call_only_flow g mk_arg = some f) :
    f.location_dependencies.map Prod.fst = g.nodes.filterMap callLoc ∧
    (∀ loc did, SimpleLocation.Call (loc, did) ∈ g.nodes →
      ∃ deps, f.location_dependencies.lookup loc = some deps ∧
        (∀ x, x ∈ deps.ctrl_deps ↔ ∃ p, p ∈ g.edges_in (.Call (loc, did)) ∧
          p.2.control = true ∧ source_loc mk_arg p.1 = some x) ∧
        (∀ i x, x ∈ deps.input_deps.getD i ∅ ↔ ∃ p, p ∈ g.edges_in (.Call (loc, did)) ∧
          i ∈ p.2.data ∧ source_loc mk_arg p.1 = some x) ∧
        (∀ N, (∀ p ∈ g.edges_in (.Call (loc, did)), ∀ i ∈ p.2.data, i < N) →
          deps.input_deps.length ≤ N)) ∧
    (∀ x, x ∈ f.return_dependencies ↔ SimpleLocation.Return ∈ g.nodes ∧
      ∃ p, p ∈ g.edges_in SimpleLocation.Return ∧ (∃ i, i ∈ p.2.data) ∧
        source_loc mk_arg p.1 = some x) := by
  have hnd := tcof_some_nodup g mk_arg hnr f hf
  obtain ⟨f', hfold, hloc, hret⟩ :=
    tcof_fold_spec g mk_arg hnr g.nodes ⟨[], ∅⟩ (by simpa using hnd)
  rw [to_call_only_flow, hfold] at hf
  cases hf
  have hkeys : f.location_dependencies.map Prod.fst = g.nodes.filterMap callLoc := by
    rw [hloc]
    exact call_entry_fst g mk_arg hnr g.nodes
  refine ⟨hkeys, ?_, ?_⟩
  · intro loc did hmem
    obtain ⟨deps, hdeps, hlen, hctrl, hinput⟩ :=
      get_deps_spec g mk_arg (.Call (loc, did)) (edges_in_not_return hnr _)
    have hce : call_entry g mk_arg (.Call (loc, did)) = some (loc, deps) := by
      simp [call_entry, hdeps]
    have hment : (loc, deps) ∈ f.location_dependencies := by
      rw [hloc]
      exact List.mem_append.mpr (Or.inr (List.mem_filterMap.mpr ⟨_, hmem, hce⟩))
    refine ⟨deps, lookup_of_mem_nodup _ (by rw [hkeys]; exact hnd) loc deps hment,
      hctrl, hinput, ?_⟩
    intro N hN
    rw [hlen]
    exact foldl_max_le _ N _ 0 (Nat.zero_le N) (fun p hp => dataMax_le p.2 N (hN p hp))
  · intro x
    rw [hret]
    show x ∈ (∅ : Finset GLoc) ∪
      (if SimpleLocation.Return ∈ g.nodes then ret_set g mk_arg else ∅) ↔ _
    rw [Finset.empty_union]
    by_cases hR : SimpleLocation.Return ∈ g.nodes
    · rw [if_pos hR, mem_ret_set g mk_arg hnr x]
      exact ⟨fun h => ⟨hR, h⟩, fun h => h.2⟩
    · rw [if_neg hR]
      simp [hR]

/-- The extraction graph for the C5 witness: an argument feeding a call
(data index 1 plus control) and the call feeding the return (data
index 0). -/
def gW : Graph := ⟨[.Argument 0, .Call (locW, 7), .Return],
  [(.Argument 0, .Call (locW, 7), ⟨{1}, true⟩),
   (.Call (locW, 7), .Return, ⟨{0}, false⟩)]⟩

/-- The Call-Only Flow extracted from the C5 witness graph. -/
def fW : CallOnlyFlow :=
  ⟨[(locW, ⟨{mkArgW 0}, [∅, {mkArgW 0}]⟩)], {locW}⟩

/-- Witness for C5: the extraction on the concrete graph succeeds and
its key list is exactly the call locations. -/
theorem C5_call_only_flow_shape_witness :
    (∀ e ∈ gW.edges, e.1 ≠ SimpleLocation.Return) ∧
    to_call_only_flow gW mkArgW = some fW ∧
    fW.location_dependencies.map Prod.fst = gW.nodes.filterMap callLoc := by
  have h := C5_call_only_flow_shape gW mkArgW fW (by decide) (by decide)
  exact ⟨by decide, by decide, h.1⟩

/-- C4: order-determinism of the extraction.  Presenting the same
inlined graph with its node set and edge set in any other order (the
only source of nondeterminism in the hash-map based construction)
yields structurally identical Call-Only Flow results: both runs
succeed, with the same set of call-location keys, equal dependency
entries (control and per-argument input sets) at every key, and the
same return-dependency set. -/
theorem C4_output_deterministic (g g' : Graph) (mk_arg : Nat → GLoc)
    (hn : g.nodes.Perm g'.nodes) (he : g.edges.Perm g'.edges)
    (hnr : ∀ e ∈ g.edges, e.1 ≠ SimpleLocation.Return)
    (hnd : (g.nodes.filterMap callLoc).Nodup) :
    ∃ f f', to_call_only_flow g mk_arg = some f ∧
      to_call_only_flow g' mk_arg = some f' ∧
      (f.location_dependencies.map Prod.fst).Perm
        (f'.location_dependencies.map Prod.fst) ∧
      (∀ loc, f.location_dependencies.lookup loc =
        f'.location_dependencies.lookup loc) ∧
      f.return_dependencies = f'.return_dependencies := by
  have hnr' : ∀ e ∈ g'.edges, e.1 ≠ SimpleLocation.Return :=
    fun e hme => hnr e (he.mem_iff.mpr hme)
  have hnd' : (g'.nodes.filterMap callLoc).Nodup :=
    ((hn.filterMap callLoc).nodup_iff).mp hnd
  obtain ⟨f, hfold, hloc, hret⟩ :=
    tcof_fold_spec g mk_arg hnr g.nodes ⟨[], ∅⟩ (by simpa using hnd)
  obtain ⟨f', hfold', hloc', hret'⟩ :=
    tcof_fold_spec g' mk_arg hnr' g'.nodes ⟨[], ∅⟩ (by simpa using hnd')
  have hkeys : f.location_dependencies.map Prod.fst = g.nodes.filterMap callLoc := by
    rw [hloc]
    exact call_entry_fst g mk_arg hnr g.nodes
  have hkeys' : f'.location_dependencies.map Prod.fst = g'.nodes.filterMap callLoc := by
    rw [hloc']
    exact call_entry_fst g' mk_arg hnr' g'.nodes
  have hei : ∀ n : GNode, (g.edges_in n).Perm (g'.edges_in n) :=
    fun n => he.filterMap _
  have hgd : ∀ n : GNode, get_deps g mk_arg n = get_deps g' mk_arg n := by
    intro n
    obtain ⟨d1, hd1, hl1, hc1, hi1⟩ := get_deps_spec g mk_arg n (edges_in_not_return hnr n)
    obtain ⟨d2, hd2, hl2, hc2, hi2⟩ := get_deps_spec g' mk_arg n (edges_in_not_return hnr' n)
    have hc : d1.ctrl_deps = d2.ctrl_deps := by
      apply Finset.ext
      intro x
      rw [hc1 x, hc2 x]
      constructor
      · rintro ⟨p, hp, h⟩
        exact ⟨p, (hei n).mem_iff.mp hp, h⟩
      · rintro ⟨p, hp, h⟩
        exact ⟨p, (hei n).mem_iff.mpr hp, h⟩
    have hlen : d1.input_deps.length = d2.input_deps.length := by
      rw [hl1, hl2]
      exact foldl_max_perm (fun p => dataMax p.2.into_types_iter) (hei n) 0
    have hi : d1.input_deps = d2.input_deps := by
      apply list_eq_of_getD _ _ hlen
      intro b
      apply Finset.ext
      intro x
      rw [hi1 b x, hi2 b x]
      constructor
      · rintro ⟨p, hp, h⟩
        exact ⟨p, (hei n).mem_iff.mp hp, h⟩
      · rintro ⟨p, hp, h⟩
        exact ⟨p, (hei n).mem_iff.mpr hp, h⟩
    rw [hd1, hd2, callDeps_eq d1 d2 hc hi]
  have hce : ∀ n, call_entry g mk_arg n = call_entry g' mk_arg n := by
    intro n
    cases n with
    | Call c => simp [call_entry, hgd]
    | Return => rfl
    | Argument a => rfl
  refine ⟨f, f', ?_, ?_, ?_, ?_, ?_⟩
  · rw [to_call_only_flow, hfold]
  · rw [to_call_only_flow, hfold']
  · rw [hkeys, hkeys']
    exact hn.filterMap callLoc
  · intro loc
    by_cases hmem : loc ∈ g.nodes.filterMap callLoc
    · obtain ⟨n, hnmem, hcl⟩ := List.mem_filterMap.mp hmem
      obtain ⟨deps, hdeps⟩ : ∃ deps, get_deps g mk_arg n = some deps := by
        obtain ⟨d, hd, _, _, _⟩ := get_deps_spec g mk_arg n (edges_in_not_return hnr n)
        exact ⟨d, hd⟩
      have hceN : call_entry g mk_arg n = some (loc, deps) := by
        cases n with
        | Call c =>
          have hc1 : c.1 = loc := Option.some.inj hcl
          subst hc1
          simp [call_entry, hdeps]
        | Return => exact Option.noConfusion hcl
        | Argument a => exact Option.noConfusion hcl
      have hceN' : call_entry g' mk_arg n = some (loc, deps) := by
        rw [← hce n]
        exact hceN
      have hment : (loc, deps) ∈ f.location_dependencies := by
        rw [hloc]
        exact List.mem_append.mpr (Or.inr (List.mem_filterMap.mpr ⟨n, hnmem, hceN⟩))
      have hment' : (loc, deps) ∈ f'.location_dependencies := by
        rw [hloc']
        exact List.mem_append.mpr (Or.inr
          (List.mem_filterMap.mpr ⟨n, hn.mem_iff.mp hnmem, hceN'⟩))
      rw [lookup_of_mem_nodup _ (by rw [hkeys]; exact hnd) loc deps hment,
        lookup_of_mem_nodup _ (by rw [hkeys']; exact hnd') loc deps hment']
    · rw [lookup_eq_none_of_not_mem _ _ (by rw [hkeys]; exact hmem),
        lookup_eq_none_of_not_mem _ _ (by
          rw [hkeys']
          exact fun h => hmem ((hn.filterMap callLoc).mem_iff.mpr h))]
  · rw [hret, hret']
    have hRm : (SimpleLocation.Return ∈ g.nodes) ↔
        (SimpleLocation.Return ∈ g'.nodes) := hn.mem_iff
    have hrs : ret_set g mk_arg = ret_set g' mk_arg := by
      apply Finset.ext
      intro x
      rw [mem_ret_set g mk_arg hnr x, mem_ret_set g' mk_arg hnr' x]
      constructor
      · rintro ⟨p, hp, h⟩
        exact ⟨p, (hei _).mem_iff.mp hp, h⟩
      · rintro ⟨p, hp, h⟩
        exact ⟨p, (hei _).mem_iff.mpr hp, h⟩
    rw [hrs, if_congr hRm rfl rfl]

/-- The C5 witness graph with its nodes and edges listed in a different
order. -/
def gW4 : Graph := ⟨[.Return, .Call (locW, 7), .Argument 0],
  [(.Call (locW, 7), .Return, ⟨{0}, false⟩),
   (.Argument 0, .Call (locW, 7), ⟨{1}, true⟩)]⟩

/-!
`Inliner::remove_inconsequential_calls` (`inline.rs` lines 681-712) and
`no_significant_edge` (`inline.rs` lines 537-562).
-/

/-- `no_significant_edge` (`inline.rs` lines 537-562): a node has no
significant edge when some incoming edge carries data, no outgoing
control edge violates the removal policy, and some outgoing edge
carries data or control.  `policy` is
`InconsequentialCallRemovalPolicy::remove_ctrl_flow_source()`. -/
def no_significant_edge (g : Graph) (n : GNode) (policy : Bool) : Bool :=
  if !(g.edges_in n).any (fun p => !decide (p.2.data = ∅)) then false
  else if (g.edges_out n).any (fun p => p.2.control && !policy) then false
  else (g.edges_out n).any (fun p => !decide (p.2.data = ∅) || p.2.control)

/-- The node filter of `remove_inconsequential_calls` (`inline.rs`
lines 686-695): a `Call` node is removed when its location is at the
root, it is not semantically meaningful, it is not the
`from_generator_fn` lang item, it is not a local body selected for
inlining, and it has no significant edge. -/
def inconsequential_node (ctx : Ctx) (g : Graph) (n : GNode) : Bool :=
  match n with
  | .Call (loc, defid) =>
    loc.isAtRoot && !ctx.is_semantically_meaningful defid &&
    decide (some defid ≠ ctx.from_generator_fn) &&
    (match ctx.as_local defid with
     | some ldid => !ctx.should_inline ldid
     | none => true) &&
    no_significant_edge g n ctx.remove_ctrl_flow_source
  | _ => false

/-- Removal of one selected node (`inline.rs` lines 698-711): for each
incoming neighbour (collected up front) rewire every currently
outgoing edge of `n` directly from that neighbour, merging weights,
then delete the node. -/
def rewire_node (g : Graph) (n : GNode) : Graph :=
  ((g.neighbors_in n).foldl
    (fun g' fr =>
      (g'.edges_out n).foldl (fun g'' p => add_weighted_edge g'' fr p.1 p.2) g')
    g).remove_node n

/-- `Inliner::remove_inconsequential_calls`: collect the candidates on
the unmodified graph, then rewire and delete them in order. -/
def remove_inconsequential_calls (ctx : Ctx) (g : Graph) : Graph :=
  (g.nodes.filter (inconsequential_node ctx g)).foldl rewire_node g

/-- Edge endpoints all belong to the node set; every graph built by the
code keeps this invariant. -/
def Graph.closedEdges (g : Graph) : Prop :=
  ∀ e ∈ g.edges, e.1 ∈ g.nodes ∧ e.2.1 ∈ g.nodes

theorem add_node_edges (g : Graph) (n : GNode) : (g.add_node n).edges = g.edges := by
  rw [Graph.add_node]
  split <;> rfl

theorem add_node_eq_of_mem (g : Graph) (n : GNode) (h : n ∈ g.nodes) :
    g.add_node n = g := by
  rw [Graph.add_node, if_pos h]

theorem add_node_edge_weight (g : Graph) (n a b : GNode) :
    (g.add_node n).edge_weight a b = g.edge_weight a b := by
  rw [Graph.edge_weight, Graph.edge_weight, add_node_edges]

theorem mem_edges_out {g : Graph} {n : GNode} {p : GNode × Edge} :
    p ∈ g.edges_out n ↔ (n, p.1, p.2) ∈ g.edges := by
  rw [Graph.edges_out, List.mem_filterMap]
  constructor
  · rintro ⟨e, he, hf⟩
    revert hf
    split
    · next h =>
      intro hf
      obtain ⟨e1, e2, e3⟩ := e
      cases hf
      simp only at h
      rw [← h]
      exact he
    · intro hf
      exact Option.noConfusion hf
  · intro he
    exact ⟨(n, p.1, p.2), he, by simp⟩

theorem edge_weight_isSome_iff (g : Graph) (a b : GNode) :
    (g.edge_weight a b).isSome ↔ ∃ w, (a, b, w) ∈ g.edges := by
  constructor
  · intro h
    cases hf : g.edges.find? (fun e => decide (e.1 = a ∧ e.2.1 = b)) with
    | none =>
      rw [Graph.edge_weight, hf] at h
      exact Bool.noConfusion h
    | some e =>
      have hmem := List.mem_of_find?_eq_some hf
      have hp := List.find?_some hf
      simp only [decide_eq_true_eq] at hp
      obtain ⟨e1, e2, e3⟩ := e
      simp only at hp
      exact ⟨e3, hp.1 ▸ hp.2 ▸ hmem⟩
  · rintro ⟨w, hw⟩
    have hfind : (g.edges.find? (fun e => decide (e.1 = a ∧ e.2.1 = b))).isSome := by
      rw [List.find?_isSome]
      exact ⟨(a, b, w), hw, by simp⟩
    cases hf : g.edges.find? (fun e => decide (e.1 = a ∧ e.2.1 = b)) with
    | none =>
      rw [hf] at hfind
      exact Bool.noConfusion hfind
    | some e =>
      rw [Graph.edge_weight, hf]
      rfl

theorem find_key_unique :
    ∀ (l : List (GNode × GNode × Edge)), (l.map (fun e => (e.1, e.2.1))).Nodup →
    ∀ (a b : GNode) (w : Edge),
      ((l.find? (fun e => decide (e.1 = a ∧ e.2.1 = b))).map (fun e => e.2.2) = some w ↔
        (a, b, w) ∈ l) := by
  intro l
  induction l with
  | nil =>
    intro _ a b w
    simp
  | cons x xs ih =>
    intro hnd a b w
    rw [List.map_cons, List.nodup_cons] at hnd
    by_cases hx : x.1 = a ∧ x.2.1 = b
    · rw [List.find?_cons_of_pos _ (by simpa using hx)]
      simp only [Option.map_some', Option.some.injEq, List.mem_cons]
      constructor
      · intro h
        left
        obtain ⟨x1, x2, x3⟩ := x
        simp only at hx h
        rw [hx.1, hx.2, h]
      · rintro (h | h)
        · rw [← h]
        · exfalso
          apply hnd.1
          rw [hx.1, hx.2]
          exact List.mem_map.mpr ⟨(a, b, w), h, rfl⟩
    · rw [List.find?_cons_of_neg _ (by simpa using hx)]
      rw [ih hnd.2 a b w]
      simp only [List.mem_cons]
      constructor
      · exact Or.inr
      · rintro (h | h)
        · exact absurd ⟨by rw [← h], by rw [← h]⟩ hx
        · exact h

theorem edge_weight_some_iff_mem (g : Graph) (hwf : g.edgesWF) (a b : GNode) (w : Edge) :
    g.edge_weight a b = some w ↔ (a, b, w) ∈ g.edges :=
  find_key_unique g.edges hwf a b w

theorem nodup_in_fst (n : GNode) :
    ∀ (l : List (GNode × GNode × Edge)), (l.map (fun e => (e.1, e.2.1))).Nodup →
    ((l.filterMap (fun e => if e.2.1 = n then some (e.1, e.2.2) else none)).map
      (fun p => p.1)).Nodup := by
  intro l
  induction l with
  | nil =>
    intro _
    simp
  | cons x xs ih =>
    intro hnd
    rw [List.map_cons, List.nodup_cons] at hnd
    by_cases hx : x.2.1 = n
    · rw [List.filterMap_cons_some (by rw [if_pos hx])]
      rw [List.map_cons, List.nodup_cons]
      refine ⟨?_, ih hnd.2⟩
      intro hmem
      obtain ⟨q, hq, hq1⟩ := List.mem_map.mp hmem
      obtain ⟨e, he, hfe⟩ := List.mem_filterMap.mp hq
      revert hfe
      split
      · next he2 =>
        intro hfe
        cases hfe
        apply hnd.1
        refine List.mem_map.mpr ⟨e, he, ?_⟩
        simp only at hq1
        rw [hq1, he2, ← hx]
      · intro hfe
        exact Option.noConfusion hfe
    · rw [List.filterMap_cons_none (by rw [if_neg hx])]
      exact ih hnd.2

theorem nodup_out_fst (n : GNode) :
    ∀ (l : List (GNode × GNode × Edge)), (l.map (fun e => (e.1, e.2.1))).Nodup →
    ((l.filterMap (fun e => if e.1 = n then some (e.2.1, e.2.2) else none)).map
      (fun p => p.1)).Nodup := by
  intro l
  induction l with
  | nil =>
    intro _
    simp
  | cons x xs ih =>
    intro hnd
    rw [List.map_cons, List.nodup_cons] at hnd
    by_cases hx : x.1 = n
    · rw [List.filterMap_cons_some (by rw [if_pos hx])]
      rw [List.map_cons, List.nodup_cons]
      refine ⟨?_, ih hnd.2⟩
      intro hmem
      obtain ⟨q, hq, hq1⟩ := List.mem_map.mp hmem
      obtain ⟨e, he, hfe⟩ := List.mem_filterMap.mp hq
      revert hfe
      split
      · next he1 =>
        intro hfe
        cases hfe
        apply hnd.1
        refine List.mem_map.mpr ⟨e, he, ?_⟩
        simp only at hq1
        rw [hq1, he1, ← hx]
      · intro hfe
        exact Option.noConfusion hfe
    · rw [List.filterMap_cons_none (by rw [if_neg hx])]
      exact ih hnd.2

theorem neighbors_in_nodup (g : Graph) (hwf : g.edgesWF) (n : GNode) :
    (g.neighbors_in n).Nodup :=
  nodup_in_fst n g.edges hwf

theorem edges_out_fst_nodup (g : Graph) (hwf : g.edgesWF) (n : GNode) :
    ((g.edges_out n).map (fun p => p.1)).Nodup :=
  nodup_out_fst n g.edges hwf

theorem mem_neighbors_in_iff (g : Graph) (n a : GNode) :
    a ∈ g.neighbors_in n ↔ (g.edge_weight a n).isSome := by
  rw [Graph.neighbors_in]
  constructor
  · intro h
    obtain ⟨p, hp, hp1⟩ := List.mem_map.mp h
    have hmem := mem_edges_in.mp hp
    rw [← hp1]
    exact (edge_weight_isSome_iff g p.1 n).mpr ⟨p.2, hmem⟩
  · intro h
    obtain ⟨w, hw⟩ := (edge_weight_isSome_iff g a n).mp h
    exact List.mem_map.mpr ⟨(a, w), mem_edges_in.mpr hw, rfl⟩

theorem find_set_const (l : List (GNode × GNode × Edge)) (a b : GNode) (w : Edge)
    (c d : GNode) :
    ((l.map (fun e => if e.1 = a ∧ e.2.1 = b then (a, b, w) else e)).find?
        (fun e => decide (e.1 = c ∧ e.2.1 = d))).map (fun e => e.2.2) =
      if c = a ∧ d = b then
        ((l.find? (fun e => decide (e.1 = c ∧ e.2.1 = d))).map
          (fun e => e.2.2)).map (fun _ => w)
      else (l.find? (fun e => decide (e.1 = c ∧ e.2.1 = d))).map (fun e => e.2.2) := by
  induction l with
  | nil => split <;> rfl
  | cons x xs ih =>
    rw [List.map_cons]
    by_cases hx : x.1 = c ∧ x.2.1 = d
    · by_cases hu : x.1 = a ∧ x.2.1 = b
      · have hcd : c = a ∧ d = b := ⟨hx.1.symm.trans hu.1, hx.2.symm.trans hu.2⟩
        rw [if_pos hcd, if_pos hu]
        rw [List.find?_cons_of_pos _ (by simp [hcd.1, hcd.2]),
          List.find?_cons_of_pos _ (by simpa using hx)]
        rfl
      · have hne : ¬(c = a ∧ d = b) := fun hcd => hu ⟨hx.1.trans hcd.1, hx.2.trans hcd.2⟩
        rw [if_neg hne, if_neg hu]
        rw [List.find?_cons_of_pos _ (by simpa using hx),
          List.find?_cons_of_pos _ (by simpa using hx)]
    · by_cases hu : x.1 = a ∧ x.2.1 = b
      · rw [if_pos hu]
        by_cases hcd : c = a ∧ d = b
        · exact absurd ⟨hu.1.trans hcd.1.symm, hu.2.trans hcd.2.symm⟩ hx
        · rw [if_neg hcd]
          rw [List.find?_cons_of_neg _ (by
              simp only [decide_eq_true_eq, not_and]
              intro h1 h2
              exact hcd ⟨h1.symm, h2.symm⟩),
            List.find?_cons_of_neg _ (by simpa using hx)]
          have h := ih
          rw [if_neg hcd] at h
          exact h
      · rw [if_neg hu]
        rw [List.find?_cons_of_neg _ (by simpa using hx),
          List.find?_cons_of_neg _ (by simpa using hx)]
        exact ih

theorem find_append_one (l : List (GNode × GNode × Edge)) (a b : GNode) (w : Edge)
    (c d : GNode) :
    ((l ++ [(a, b, w)]).find? (fun e => decide (e.1 = c ∧ e.2.1 = d))).map
        (fun e => e.2.2) =
      match (l.find? (fun e => decide (e.1 = c ∧ e.2.1 = d))).map (fun e => e.2.2) with
      | some w0 => some w0
      | none => if c = a ∧ d = b then some w else none := by
  induction l with
  | nil =>
    show ((([(a, b, w)] : List (GNode × GNode × Edge))).find?
      (fun e => decide (e.1 = c ∧ e.2.1 = d))).map (fun e => e.2.2) =
      if c = a ∧ d = b then some w else none
    by_cases hcd : c = a ∧ d = b
    · rw [if_pos hcd, List.find?_cons_of_pos _ (by simp [hcd.1, hcd.2])]
      rfl
    · rw [if_neg hcd, List.find?_cons_of_neg _ (by
        simp only [decide_eq_true_eq, not_and]
        intro h1 h2
        exact hcd ⟨h1.symm, h2.symm⟩)]
      rfl
  | cons x xs ih =>
    rw [List.cons_append]
    by_cases hx : x.1 = c ∧ x.2.1 = d
    · rw [List.find?_cons_of_pos _ (by simpa using hx),
        List.find?_cons_of_pos _ (by simpa using hx)]
      rfl
    · rw [List.find?_cons_of_neg _ (by simpa using hx),
        List.find?_cons_of_neg _ (by simpa using hx)]
      exact ih

theorem edge_weight_add_edge (g : Graph) (a b : GNode) (w : Edge) (c d : GNode) :
    (g.add_edge a b w).edge_weight c d =
      if c = a ∧ d = b then some w else g.edge_weight c d := by
  have hedges : ((g.add_node a).add_node b).edges = g.edges := by
    rw [add_node_edges, add_node_edges]
  by_cases hc : ((g.add_node a).add_node b).contains_edge a b
  · have hshape : g.add_edge a b w =
        { ((g.add_node a).add_node b) with edges :=
            (((g.add_node a).add_node b).edges.map
              (fun e => if e.1 = a ∧ e.2.1 = b then (a, b, w) else e)) } := by
      show (if ((g.add_node a).add_node b).contains_edge a b then _ else _) = _
      rw [if_pos hc]
    rw [hshape]
    show ((((g.add_node a).add_node b).edges.map
        (fun e => if e.1 = a ∧ e.2.1 = b then (a, b, w) else e)).find?
        (fun e => decide (e.1 = c ∧ e.2.1 = d))).map (fun e => e.2.2) = _
    rw [hedges, find_set_const]
    by_cases hcd : c = a ∧ d = b
    · rw [if_pos hcd, if_pos hcd]
      have hsome : (g.edge_weight a b).isSome := by
        rw [Graph.contains_edge, add_node_edge_weight, add_node_edge_weight] at hc
        exact hc
      obtain ⟨w0, hw0⟩ := Option.isSome_iff_exists.mp hsome
      show (g.edge_weight c d).map (fun _ => w) = some w
      rw [hcd.1, hcd.2, hw0]
      rfl
    · rw [if_neg hcd, if_neg hcd]
      rfl
  · have hshape : g.add_edge a b w =
        { ((g.add_node a).add_node b) with edges :=
            (((g.add_node a).add_node b).edges ++ [(a, b, w)]) } := by
      show (if ((g.add_node a).add_node b).contains_edge a b then _ else _) = _
      rw [if_neg hc]
    rw [hshape]
    show ((((g.add_node a).add_node b).edges ++ [(a, b, w)]).find?
        (fun e => decide (e.1 = c ∧ e.2.1 = d))).map (fun e => e.2.2) = _
    rw [hedges, find_append_one]
    have hnone : g.edge_weight a b = none := by
      rw [Graph.contains_edge, add_node_edge_weight, add_node_edge_weight] at hc
      exact Option.not_isSome_iff_eq_none.mp (by simpa using hc)
    show (match g.edge_weight c d with
      | some w0 => some w0
      | none => if c = a ∧ d = b then some w else none) = _
    by_cases hcd : c = a ∧ d = b
    · have hval : g.edge_weight c d = none := by
        rw [hcd.1, hcd.2]
        exact hnone
      rw [hval]
    · cases hval : g.edge_weight c d with
      | some w0 =>
        show some w0 = if c = a ∧ d = b then some w else some w0
        rw [if_neg hcd]
      | none => rfl

theorem empty_merge (w : Edge) : Edge.empty.merge w = w := by
  obtain ⟨dt, ct⟩ := w
  rw [Edge.merge]
  simp [Edge.empty]

theorem add_weighted_edge_weight (g : Graph) (s t : GNode) (w : Edge) (c d : GNode) :
    (add_weighted_edge g s t w).edge_weight c d =
      if c = s ∧ d = t then some (((g.edge_weight s t).getD Edge.empty).merge w)
      else g.edge_weight c d := by
  cases hval : g.edge_weight s t with
  | some w0 =>
    have heq : add_weighted_edge g s t w =
        g.update_edge s t (fun prior => prior.merge w) := by
      rw [add_weighted_edge, hval]
    rw [heq, edge_weight_update]
    by_cases hcd : c = s ∧ d = t
    · rw [if_pos hcd, hcd.1, hcd.2, hval, if_pos ⟨rfl, rfl⟩]
      rfl
    · rw [if_neg hcd, if_neg hcd]
  | none =>
    have heq : add_weighted_edge g s t w = g.add_edge s t w := by
      rw [add_weighted_edge, hval]
    rw [heq, edge_weight_add_edge]
    by_cases hcd : c = s ∧ d = t
    · rw [if_pos hcd, if_pos hcd]
      show some w = some (Edge.empty.merge w)
      rw [empty_merge]
    · rw [if_neg hcd, if_neg hcd]

theorem filterMap_out_update (n s t : GNode) (f : Edge → Edge) (hs : s ≠ n) :
    ∀ l : List (GNode × GNode × Edge),
    ((l.map (fun e => if e.1 = s ∧ e.2.1 = t then (e.1, e.2.1, f e.2.2) else e)).filterMap
        (fun e => if e.1 = n then some (e.2.1, e.2.2) else none)) =
      l.filterMap (fun e => if e.1 = n then some (e.2.1, e.2.2) else none) := by
  intro l
  induction l with
  | nil => rfl
  | cons x xs ih =>
    rw [List.map_cons]
    by_cases hx : x.1 = s ∧ x.2.1 = t
    · rw [if_pos hx]
      have hxn : ¬ x.1 = n := by
        rw [hx.1]
        exact hs
      rw [List.filterMap_cons_none (by rw [if_neg hxn]),
        List.filterMap_cons_none (by rw [if_neg hxn])]
      exact ih
    · rw [if_neg hx]
      by_cases hxn : x.1 = n
      · rw [List.filterMap_cons_some (by rw [if_pos hxn]),
          List.filterMap_cons_some (by rw [if_pos hxn]), ih]
      · rw [List.filterMap_cons_none (by rw [if_neg hxn]),
          List.filterMap_cons_none (by rw [if_neg hxn])]
        exact ih

theorem filterMap_out_set (n s t : GNode) (w : Edge) (hs : s ≠ n) :
    ∀ l : List (GNode × GNode × Edge),
    ((l.map (fun e => if e.1 = s ∧ e.2.1 = t then (s, t, w) else e)).filterMap
        (fun e => if e.1 = n then some (e.2.1, e.2.2) else none)) =
      l.filterMap (fun e => if e.1 = n then some (e.2.1, e.2.2) else none) := by
  intro l
  induction l with
  | nil => rfl
  | cons x xs ih =>
    rw [List.map_cons]
    by_cases hx : x.1 = s ∧ x.2.1 = t
    · rw [if_pos hx]
      have hxn : ¬ x.1 = n := by
        rw [hx.1]
        exact hs
      rw [List.filterMap_cons_none (by
          show (if s = n then _ else none) = none
          rw [if_neg hs]),
        List.filterMap_cons_none (by rw [if_neg hxn])]
      exact ih
    · rw [if_neg hx]
      by_cases hxn : x.1 = n
      · rw [List.filterMap_cons_some (by rw [if_pos hxn]),
          List.filterMap_cons_some (by rw [if_pos hxn]), ih]
      · rw [List.filterMap_cons_none (by rw [if_neg hxn]),
          List.filterMap_cons_none (by rw [if_neg hxn])]
        exact ih

theorem filterMap_out_append (n s t : GNode) (w : Edge) (hs : s ≠ n)
    (l : List (GNode × GNode × Edge)) :
    ((l ++ [(s, t, w)]).filterMap
        (fun e => if e.1 = n then some (e.2.1, e.2.2) else none)) =
      l.filterMap (fun e => if e.1 = n then some (e.2.1, e.2.2) else none) := by
  rw [List.filterMap_append]
  have hone : List.filterMap (fun e => if e.1 = n then some (e.2.1, e.2.2) else none)
      [((s, t, w) : GNode × GNode × Edge)] = [] := by
    rw [List.filterMap_cons_none (by
      show (if s = n then _ else none) = none
      rw [if_neg hs])]
    rfl
  rw [hone, List.append_nil]

theorem add_weighted_edge_nodes (g : Graph) (s t : GNode) (w : Edge)
    (hs : s ∈ g.nodes) (ht : t ∈ g.nodes) :
    (add_weighted_edge g s t w).nodes = g.nodes := by
  have hX : (g.add_node s).add_node t = g := by
    rw [add_node_eq_of_mem g s hs, add_node_eq_of_mem g t ht]
  cases hval : g.edge_weight s t with
  | some w0 =>
    have heq : add_weighted_edge g s t w =
        g.update_edge s t (fun prior => prior.merge w) := by
      rw [add_weighted_edge, hval]
    rw [heq]
    rfl
  | none =>
    have heq : add_weighted_edge g s t w = g.add_edge s t w := by
      rw [add_weighted_edge, hval]
    rw [heq]
    show (if ((g.add_node s).add_node t).contains_edge s t then _ else _ : Graph).nodes = _
    split
    · show ((g.add_node s).add_node t).nodes = g.nodes
      rw [hX]
    · show ((g.add_node s).add_node t).nodes = g.nodes
      rw [hX]

theorem add_weighted_edge_edges_out (g : Graph) (s t : GNode) (w : Edge) (n : GNode)
    (hs : s ≠ n) :
    (add_weighted_edge g s t w).edges_out n = g.edges_out n := by
  cases hval : g.edge_weight s t with
  | some w0 =>
    have heq : add_weighted_edge g s t w =
        g.update_edge s t (fun prior => prior.merge w) := by
      rw [add_weighted_edge, hval]
    rw [heq]
    show ((g.edges.map (fun e => if e.1 = s ∧ e.2.1 = t then
        (e.1, e.2.1, e.2.2.merge w) else e)).filterMap
        (fun e => if e.1 = n then some (e.2.1, e.2.2) else none)) = _
    rw [filterMap_out_update n s t (fun prior => prior.merge w) hs g.edges]
    rfl
  | none =>
    have heq : add_weighted_edge g s t w = g.add_edge s t w := by
      rw [add_weighted_edge, hval]
    have hc : ¬ ((g.add_node s).add_node t).contains_edge s t = true := by
      rw [Graph.contains_edge, add_node_edge_weight, add_node_edge_weight, hval]
      simp
    have hshape : g.add_edge s t w =
        { ((g.add_node s).add_node t) with edges :=
            (((g.add_node s).add_node t).edges ++ [(s, t, w)]) } := by
      show (if ((g.add_node s).add_node t).contains_edge s t then _ else _) = _
      rw [if_neg hc]
    rw [heq, hshape]
    show ((((g.add_node s).add_node t).edges ++ [(s, t, w)]).filterMap
        (fun e => if e.1 = n then some (e.2.1, e.2.2) else none)) = _
    rw [add_node_edges, add_node_edges, filterMap_out_append n s t w hs g.edges]
    rfl

theorem add_weighted_edge_closed (g : Graph) (s t : GNode) (w : Edge)
    (hs : s ∈ g.nodes) (ht : t ∈ g.nodes) (hcl : g.closedEdges) :
    (add_weighted_edge g s t w).closedEdges := by
  have hnodes := add_weighted_edge_nodes g s t w hs ht
  intro e he
  rw [hnodes]
  cases hval : g.edge_weight s t with
  | some w0 =>
    have heq : add_weighted_edge g s t w =
        g.update_edge s t (fun prior => prior.merge w) := by
      rw [add_weighted_edge, hval]
    rw [heq] at he
    have he' : e ∈ g.edges.map (fun e => if e.1 = s ∧ e.2.1 = t then
        (e.1, e.2.1, e.2.2.merge w) else e) := he
    obtain ⟨e0, he0, hphi⟩ := List.mem_map.mp he'
    by_cases hx : e0.1 = s ∧ e0.2.1 = t
    · rw [if_pos hx] at hphi
      rw [← hphi]
      exact hcl e0 he0
    · rw [if_neg hx] at hphi
      rw [← hphi]
      exact hcl e0 he0
  | none =>
    have heq : add_weighted_edge g s t w = g.add_edge s t w := by
      rw [add_weighted_edge, hval]
    have hc : ¬ ((g.add_node s).add_node t).contains_edge s t = true := by
      rw [Graph.contains_edge, add_node_edge_weight, add_node_edge_weight, hval]
      simp
    have hshape : g.add_edge s t w =
        { ((g.add_node s).add_node t) with edges :=
            (((g.add_node s).add_node t).edges ++ [(s, t, w)]) } := by
      show (if ((g.add_node s).add_node t).contains_edge s t then _ else _) = _
      rw [if_neg hc]
    rw [heq, hshape] at he
    have he' : e ∈ ((g.add_node s).add_node t).edges ++ [(s, t, w)] := he
    rw [add_node_edges, add_node_edges] at he'
    rcases List.mem_append.mp he' with h | h
    · exact hcl e h
    · rw [List.mem_singleton] at h
      subst h
      exact ⟨hs, ht⟩

theorem remove_node_nodes (g : Graph) (n : GNode) :
    (g.remove_node n).nodes = g.nodes.erase n := rfl

theorem edge_weight_remove_node (g : Graph) (n x y : GNode) :
    (g.remove_node n).edge_weight x y =
      if x = n ∨ y = n then none else g.edge_weight x y := by
  unfold Graph.remove_node Graph.edge_weight
  simp only
  induction g.edges with
  | nil => split <;> rfl
  | cons e es ih =>
    rw [List.filter_cons]
    by_cases he : e.1 = n ∨ e.2.1 = n
    · rw [if_neg (by
        simp only [Bool.not_eq_true', decide_eq_false_iff_not]
        exact fun h => h he)]
      rw [ih]
      by_cases hxy : x = n ∨ y = n
      · rw [if_pos hxy, if_pos hxy]
      · rw [if_neg hxy, if_neg hxy]
        rw [List.find?_cons_of_neg _ (by
          simp only [decide_eq_true_eq, not_and]
          intro h1 h2
          rcases he with h | h
          · exact absurd (Or.inl (h1.symm.trans h)) hxy
          · exact absurd (Or.inr (h2.symm.trans h)) hxy)]
    · rw [if_pos (by simpa using he)]
      by_cases hp : e.1 = x ∧ e.2.1 = y
      · have hxy : ¬(x = n ∨ y = n) := by
          rintro (rfl | rfl)
          · exact he (Or.inl hp.1)
          · exact he (Or.inr hp.2)
        rw [if_neg hxy, List.find?_cons_of_pos _ (by simpa using hp),
          List.find?_cons_of_pos _ (by simpa using hp)]
      · rw [List.find?_cons_of_neg _ (by simpa using hp),
          List.find?_cons_of_neg _ (by simpa using hp)]
        exact ih

theorem remove_node_closed (g : Graph) (n : GNode) (hcl : g.closedEdges) :
    (g.remove_node n).closedEdges := by
  intro e he
  have hf : e ∈ g.edges ∧ (!decide (e.1 = n ∨ e.2.1 = n)) = true :=
    List.mem_filter.mp he
  have hends := hcl e hf.1
  have hne : ¬(e.1 = n ∨ e.2.1 = n) := by simpa using hf.2
  rw [remove_node_nodes]
  exact ⟨(List.mem_erase_of_ne (fun h => hne (Or.inl h))).mpr hends.1,
    (List.mem_erase_of_ne (fun h => hne (Or.inr h))).mpr hends.2⟩

theorem awe_fold_nodes (n : GNode) :
    ∀ (outs : List (GNode × Edge)) (g : Graph) (fr : GNode), fr ∈ g.nodes →
      (∀ p ∈ outs, p.1 ∈ g.nodes) → g.closedEdges →
      ((outs.foldl (fun h p => add_weighted_edge h fr p.1 p.2) g).nodes = g.nodes ∧
       (outs.foldl (fun h p => add_weighted_edge h fr p.1 p.2) g).closedEdges) := by
  intro outs
  induction outs with
  | nil =>
    intro g fr _ _ hcl
    exact ⟨rfl, hcl⟩
  | cons q rest ih =>
    intro g fr hfr houts hcl
    have hq : q.1 ∈ g.nodes := houts q (List.mem_cons_self q rest)
    have hn1 := add_weighted_edge_nodes g fr q.1 q.2 hfr hq
    have hc1 := add_weighted_edge_closed g fr q.1 q.2 hfr hq hcl
    obtain ⟨ihn, ihc⟩ := ih (add_weighted_edge g fr q.1 q.2) fr (by rw [hn1]; exact hfr)
      (fun p hp => by rw [hn1]; exact houts p (List.mem_cons_of_mem q hp)) hc1
    rw [List.foldl_cons]
    exact ⟨ihn.trans hn1, ihc⟩

theorem rewire_fold_nodes_aux (n : GNode) :
    ∀ (ins : List GNode) (g' : Graph), (∀ a ∈ ins, a ∈ g'.nodes) → g'.closedEdges →
      ((ins.foldl (fun h fr => (h.edges_out n).foldl
          (fun h2 p => add_weighted_edge h2 fr p.1 p.2) h) g').nodes = g'.nodes ∧
       (ins.foldl (fun h fr => (h.edges_out n).foldl
          (fun h2 p => add_weighted_edge h2 fr p.1 p.2) h) g').closedEdges) := by
  intro ins
  induction ins with
  | nil =>
    intro g' _ hcl
    exact ⟨rfl, hcl⟩
  | cons fr rest ih =>
    intro g' hmem hcl
    have houts : ∀ p ∈ g'.edges_out n, p.1 ∈ g'.nodes :=
      fun p hp => (hcl _ (mem_edges_out.mp hp)).2
    obtain ⟨hn1, hc1⟩ := awe_fold_nodes n (g'.edges_out n) g' fr
      (hmem fr (List.mem_cons_self fr rest)) houts hcl
    obtain ⟨ihn, ihc⟩ := ih ((g'.edges_out n).foldl
        (fun h2 p => add_weighted_edge h2 fr p.1 p.2) g')
      (fun a ha => by rw [hn1]; exact hmem a (List.mem_cons_of_mem fr ha)) hc1
    rw [List.foldl_cons]
    exact ⟨ihn.trans hn1, ihc⟩

theorem rewire_node_nodes (g : Graph) (n : GNode) (hcl : g.closedEdges) :
    (rewire_node g n).nodes = g.nodes.erase n ∧ (rewire_node g n).closedEdges := by
  have hmem : ∀ a ∈ g.neighbors_in n, a ∈ g.nodes := by
    intro a ha
    obtain ⟨w, hw⟩ := (edge_weight_isSome_iff g a n).mp ((mem_neighbors_in_iff g n a).mp ha)
    exact (hcl _ hw).1
  obtain ⟨hn, hc⟩ := rewire_fold_nodes_aux n (g.neighbors_in n) g hmem hcl
  constructor
  · rw [rewire_node, remove_node_nodes, hn]
  · rw [rewire_node]
    exact remove_node_closed _ n hc

theorem mem_foldl_erase :
    ∀ (c : List GNode) (L : List GNode), L.Nodup → ∀ x,
      (x ∈ c.foldl List.erase L ↔ x ∈ L ∧ x ∉ c) := by
  intro c
  induction c with
  | nil =>
    intro L _ x
    simp
  | cons a c ih =>
    intro L hnd x
    rw [List.foldl_cons, ih (L.erase a) (hnd.erase a) x,
      List.Nodup.mem_erase_iff hnd]
    simp only [List.mem_cons]
    constructor
    · rintro ⟨⟨hxa, hxL⟩, hxc⟩
      exact ⟨hxL, fun h => h.elim hxa hxc⟩
    · rintro ⟨hxL, h⟩
      exact ⟨⟨fun he => h (Or.inl he), hxL⟩, fun hc => h (Or.inr hc)⟩

theorem inner_rewire_spec (n fr : GNode) (hfr : fr ≠ n) :
    ∀ (outs : List (GNode × Edge)), (outs.map (fun p => p.1)).Nodup →
    ∀ (g : Graph),
    (∀ y w, (y, w) ∈ outs →
      (outs.foldl (fun h p => add_weighted_edge h fr p.1 p.2) g).edge_weight fr y =
        some (((g.edge_weight fr y).getD Edge.empty).merge w)) ∧
    (∀ x y, (x ≠ fr ∨ ∀ w, (y, w) ∉ outs) →
      (outs.foldl (fun h p => add_weighted_edge h fr p.1 p.2) g).edge_weight x y =
        g.edge_weight x y) ∧
    (outs.foldl (fun h p => add_weighted_edge h fr p.1 p.2) g).edges_out n =
      g.edges_out n := by
  intro outs
  induction outs with
  | nil =>
    intro _ g
    exact ⟨fun y w h => absurd h (List.not_mem_nil _), fun x y _ => rfl, rfl⟩
  | cons q rest ih =>
    intro hnd g
    rw [List.map_cons, List.nodup_cons] at hnd
    obtain ⟨ih1, ih2, ih3⟩ := ih hnd.2 (add_weighted_edge g fr q.1 q.2)
    refine ⟨?_, ?_, ?_⟩
    · intro y w hyw
      rw [List.foldl_cons]
      rcases List.mem_cons.mp hyw with heq | hmem
      · have hy : y = q.1 := congrArg Prod.fst heq
        have hw : w = q.2 := congrArg Prod.snd heq
        have hnotin : ∀ w', (y, w') ∉ rest := by
          intro w' hmem'
          apply hnd.1
          rw [← hy]
          exact List.mem_map.mpr ⟨(y, w'), hmem', rfl⟩
        rw [ih2 fr y (Or.inr hnotin), add_weighted_edge_weight,
          if_pos ⟨rfl, hy⟩, hy, hw]
      · have hy : y ≠ q.1 := by
          intro h
          apply hnd.1
          rw [← h]
          exact List.mem_map.mpr ⟨(y, w), hmem, rfl⟩
        rw [ih1 y w hmem, add_weighted_edge_weight, if_neg (fun hcc => hy hcc.2)]
    · intro x y hcond
      rw [List.foldl_cons]
      have hcond' : x ≠ fr ∨ ∀ w, (y, w) ∉ rest := by
        rcases hcond with h | h
        · exact Or.inl h
        · exact Or.inr (fun w hw => h w (List.mem_cons_of_mem q hw))
      rw [ih2 x y hcond', add_weighted_edge_weight, if_neg (by
        rintro ⟨hx, hy⟩
        rcases hcond with h | h
        · exact h hx
        · exact h q.2 (by rw [hy]; exact List.mem_cons_self _ _))]
    · rw [List.foldl_cons, ih3, add_weighted_edge_edges_out g fr q.1 q.2 n hfr]

theorem outer_rewire_spec (g : Graph) (n : GNode)
    (hodn : ((g.edges_out n).map (fun p => p.1)).Nodup) :
    ∀ (ins : List GNode), ins.Nodup → n ∉ ins →
    ∀ (g' : Graph), g'.edges_out n = g.edges_out n →
    (∀ a b, a ∈ ins → g'.edge_weight a b = g.edge_weight a b) →
    (∀ a b, a ∈ ins →
      (∀ w, (b, w) ∈ g.edges_out n →
        (ins.foldl (fun h fr => (h.edges_out n).foldl
          (fun h2 p => add_weighted_edge h2 fr p.1 p.2) h) g').edge_weight a b =
          some (((g.edge_weight a b).getD Edge.empty).merge w)) ∧
      ((∀ w, (b, w) ∉ g.edges_out n) →
        (ins.foldl (fun h fr => (h.edges_out n).foldl
          (fun h2 p => add_weighted_edge h2 fr p.1 p.2) h) g').edge_weight a b =
          g.edge_weight a b)) ∧
    (∀ a b, a ∉ ins →
      (ins.foldl (fun h fr => (h.edges_out n).foldl
        (fun h2 p => add_weighted_edge h2 fr p.1 p.2) h) g').edge_weight a b =
        g'.edge_weight a b) ∧
    (ins.foldl (fun h fr => (h.edges_out n).foldl
      (fun h2 p => add_weighted_edge h2 fr p.1 p.2) h) g').edges_out n =
      g.edges_out n := by
  intro ins
  induction ins with
  | nil =>
    intro _ _ g' hout _
    exact ⟨fun a b ha => absurd ha (List.not_mem_nil _), fun a b _ => rfl, hout⟩
  | cons fr rest ih =>
    intro hnd hnin g' hout huntouched
    rw [List.nodup_cons] at hnd
    have hfrn : fr ≠ n := by
      intro h
      exact hnin (by rw [← h]; exact List.mem_cons_self fr rest)
    obtain ⟨in1, in2, in3⟩ :=
      inner_rewire_spec n fr hfrn (g'.edges_out n) (by rw [hout]; exact hodn) g'
    have hout1 : ((g'.edges_out n).foldl
        (fun h2 p => add_weighted_edge h2 fr p.1 p.2) g').edges_out n =
        g.edges_out n := by
      rw [in3, hout]
    have huntouched1 : ∀ a b, a ∈ rest →
        ((g'.edges_out n).foldl (fun h2 p => add_weighted_edge h2 fr p.1 p.2)
          g').edge_weight a b = g.edge_weight a b := by
      intro a b ha
      have hafr : a ≠ fr := fun h => hnd.1 (h ▸ ha)
      rw [in2 a b (Or.inl hafr), huntouched a b (List.mem_cons_of_mem fr ha)]
    obtain ⟨C1, C2, C3⟩ := ih hnd.2 (fun h => hnin (List.mem_cons_of_mem fr h)) _
      hout1 huntouched1
    refine ⟨?_, ?_, ?_⟩
    · intro a b ha
      rcases List.mem_cons.mp ha with rfl | ha'
      · constructor
        · intro w hw
          rw [List.foldl_cons, C2 a b hnd.1]
          have hw' : (b, w) ∈ g'.edges_out n := by
            rw [hout]
            exact hw
          rw [in1 b w hw', huntouched a b (List.mem_cons_self a rest)]
        · intro hnw
          rw [List.foldl_cons, C2 a b hnd.1]
          have hnw' : ∀ w, (b, w) ∉ g'.edges_out n := by
            intro w
            rw [hout]
            exact hnw w
          rw [in2 a b (Or.inr hnw'), huntouched a b (List.mem_cons_self a rest)]
      · exact ⟨fun w hw => by rw [List.foldl_cons]; exact (C1 a b ha').1 w hw,
          fun hnw => by rw [List.foldl_cons]; exact (C1 a b ha').2 hnw⟩
    · intro a b ha
      have hafr : a ≠ fr := fun h => ha (by rw [h]; exact List.mem_cons_self fr rest)
      have har : a ∉ rest := fun h => ha (List.mem_cons_of_mem fr h)
      rw [List.foldl_cons, C2 a b har, in2 a b (Or.inl hafr)]
    · rw [List.foldl_cons, C3]

theorem rewire_node_spec (g : Graph) (n : GNode) (hwf : g.edgesWF)
    (hself : g.edge_weight n n = none) (hcl : g.closedEdges) :
    (∀ a b, a ≠ n → b ≠ n →
      (∀ w, (g.edge_weight a n).isSome = true → g.edge_weight n b = some w →
        (rewire_node g n).edge_weight a b =
          some (((g.edge_weight a b).getD Edge.empty).merge w)) ∧
      (((g.edge_weight a n).isSome = false ∨ g.edge_weight n b = none) →
        (rewire_node g n).edge_weight a b = g.edge_weight a b)) ∧
    (∀ m, (rewire_node g n).edge_weight n m = none ∧
      (rewire_node g n).edge_weight m n = none) := by
  have hnin : n ∉ g.neighbors_in n := by
    rw [mem_neighbors_in_iff, hself]
    simp
  obtain ⟨C1, C2, _⟩ := outer_rewire_spec g n (edges_out_fst_nodup g hwf n)
    (g.neighbors_in n) (neighbors_in_nodup g hwf n) hnin g rfl (fun _ _ _ => rfl)
  have hrw : ∀ a b, (rewire_node g n).edge_weight a b =
      if a = n ∨ b = n then none else
        ((g.neighbors_in n).foldl (fun h fr => (h.edges_out n).foldl
          (fun h2 p => add_weighted_edge h2 fr p.1 p.2) h) g).edge_weight a b := by
    intro a b
    rw [rewire_node, edge_weight_remove_node]
  constructor
  · intro a b han hbn
    have hcond : ¬(a = n ∨ b = n) := by
      rintro (h | h)
      · exact han h
      · exact hbn h
    constructor
    · intro w hsome hnb
      rw [hrw, if_neg hcond]
      have hain : a ∈ g.neighbors_in n := (mem_neighbors_in_iff g n a).mpr hsome
      have hbw : (b, w) ∈ g.edges_out n :=
        mem_edges_out.mpr ((edge_weight_some_iff_mem g hwf n b w).mp hnb)
      exact (C1 a b hain).1 w hbw
    · intro hcase
      rw [hrw, if_neg hcond]
      rcases hcase with h | h
      · have hnotin : a ∉ g.neighbors_in n := by
          rw [mem_neighbors_in_iff, h]
          simp
        exact C2 a b hnotin
      · by_cases hain : a ∈ g.neighbors_in n
        · refine (C1 a b hain).2 ?_
          intro w hw
          have hsm := (edge_weight_some_iff_mem g hwf n b w).mpr (mem_edges_out.mp hw)
          rw [h] at hsm
          exact Option.noConfusion hsm
        · exact C2 a b hain
  · intro m
    constructor
    · rw [hrw, if_pos (Or.inl rfl)]
    · rw [hrw, if_pos (Or.inr rfl)]

theorem remove_calls_fold_nodes :
    ∀ (c : List GNode) (g : Graph), g.closedEdges →
      ((c.foldl rewire_node g).nodes = c.foldl List.erase g.nodes ∧
       (c.foldl rewire_node g).closedEdges) := by
  intro c
  induction c with
  | nil =>
    intro g hcl
    exact ⟨rfl, hcl⟩
  | cons m c ih =>
    intro g hcl
    obtain ⟨hn, hc⟩ := rewire_node_nodes g m hcl
    obtain ⟨ihn, ihc⟩ := ih (rewire_node g m) hc
    rw [List.foldl_cons, List.foldl_cons]
    exact ⟨by rw [ihn, hn], ihc⟩

theorem as_local_match_iff (ctx : Ctx) (defid : Nat) :
    (match ctx.as_local defid with
      | some ldid => !ctx.should_inline ldid
      | none => true) = true ↔
      ∀ ldid, ctx.as_local defid = some ldid → ctx.should_inline ldid = false := by
  cases has : ctx.as_local defid with
  | none => simp
  | some ldid => simp [Bool.not_eq_true']

theorem no_significant_edge_iff (g : Graph) (n : GNode) (policy : Bool) :
    no_significant_edge g n policy = true ↔
      ((∃ p ∈ g.edges_in n, p.2.data ≠ ∅) ∧
       (∀ p ∈ g.edges_out n, p.2.control = true → policy = true) ∧
       (∃ p ∈ g.edges_out n, p.2.data ≠ ∅ ∨ p.2.control = true)) := by
  rw [no_significant_edge]
  by_cases h1 : (g.edges_in n).any (fun p => !decide (p.2.data = ∅))
  · rw [if_neg (by rw [h1]; simp)]
    by_cases h2 : (g.edges_out n).any (fun p => p.2.control && !policy)
    · rw [if_pos h2]
      constructor
      · exact fun h => Bool.noConfusion h
      · rintro ⟨hin, hctrl, hout⟩
        exfalso
        rw [List.any_eq_true] at h2
        obtain ⟨p, hp, hpp⟩ := h2
        rw [Bool.and_eq_true, Bool.not_eq_true'] at hpp
        have hpol := hctrl p hp hpp.1
        rw [hpp.2] at hpol
        exact Bool.noConfusion hpol
    · rw [if_neg h2, List.any_eq_true]
      constructor
      · rintro ⟨p, hp, hpp⟩
        refine ⟨?_, ?_, ⟨p, hp, ?_⟩⟩
        · rw [List.any_eq_true] at h1
          obtain ⟨q, hq, hqq⟩ := h1
          exact ⟨q, hq, by simpa using hqq⟩
        · intro p' hp' hc'
          by_contra hpol
          apply h2
          rw [List.any_eq_true]
          refine ⟨p', hp', ?_⟩
          rw [Bool.and_eq_true, hc']
          have hpf : policy = false := by
            cases policy
            · rfl
            · exact absurd rfl hpol
          rw [hpf]
          exact ⟨rfl, rfl⟩
        · simpa using hpp
      · rintro ⟨hin, hctrl, ⟨p, hp, hpd⟩⟩
        exact ⟨p, hp, by simpa using hpd⟩
  · have h1f : (g.edges_in n).any (fun p => !decide (p.2.data = ∅)) = false := by
      cases hh : (g.edges_in n).any (fun p => !decide (p.2.data = ∅))
      · rfl
      · exact absurd hh h1
    rw [if_pos (by rw [h1f]; rfl)]
    constructor
    · exact fun h => Bool.noConfusion h
    · rintro ⟨⟨p, hp, hpd⟩, _, _⟩
      exfalso
      apply h1
      rw [List.any_eq_true]
      exact ⟨p, hp, by simpa using hpd⟩

/-- C7: inconsequential-call removal.  A node is selected for removal
iff it is an at-root `Call` node (the root-location requirement is in
the code but absent from the specified condition list) that is not
semantically meaningful, is not the `from_generator_fn` construct, is
not a local body selected for inlining, and whose edges satisfy the
removal policy: some incoming edge carries data, no outgoing control
edge without the `remove_ctrl_flow_source` policy, and some outgoing
edge carries data or control.  Exactly the selected nodes are deleted;
removing a single selected node `n` rewires every (incoming neighbour
`a`) × (outgoing edge `n → b` of weight `w`) pair into a direct edge
`a → b` merging `w` into any prior weight, leaves every other weight
unchanged, and deletes every edge incident to `n`. -/
theorem C7_remove_inconsequential_calls (ctx : Ctx) (g : Graph)
    (hnd : g.nodes.Nodup) (hwf : g.edgesWF) (hcl : g.closedEdges) :
    (∀ loc defid, inconsequential_node ctx g (.Call (loc, defid)) = true ↔
      (loc.isAtRoot = true ∧
       ctx.is_semantically_meaningful defid = false ∧
       some defid ≠ ctx.from_generator_fn ∧
       (∀ ldid, ctx.as_local defid = some ldid → ctx.should_inline ldid = false) ∧
       (∃ p ∈ g.edges_in (.Call (loc, defid)), p.2.data ≠ ∅) ∧
       (∀ p ∈ g.edges_out (.Call (loc, defid)), p.2.control = true →
         ctx.remove_ctrl_flow_source = true) ∧
       (∃ p ∈ g.edges_out (.Call (loc, defid)), p.2.data ≠ ∅ ∨ p.2.control = true))) ∧
    (∀ a, inconsequential_node ctx g (.Argument a) = false) ∧
    (inconsequential_node ctx g .Return = false) ∧
    (∀ x, x ∈ (remove_inconsequential_calls ctx g).nodes ↔
      x ∈ g.nodes ∧ inconsequential_node ctx g x = false) ∧
    (∀ n, g.nodes.filter (inconsequential_node ctx g) = [n] →
      g.edge_weight n n = none →
      (∀ a b, a ≠ n → b ≠ n →
        (∀ w, (g.edge_weight a n).isSome = true → g.edge_weight n b = some w →
          (remove_inconsequential_calls ctx g).edge_weight a b =
            some (((g.edge_weight a b).getD Edge.empty).merge w)) ∧
        (((g.edge_weight a n).isSome = false ∨ g.edge_weight n b = none) →
          (remove_inconsequential_calls ctx g).edge_weight a b =
            g.edge_weight a b)) ∧
      (∀ m, (remove_inconsequential_calls ctx g).edge_weight n m = none ∧
        (remove_inconsequential_calls ctx g).edge_weight m n = none)) := by
  refine ⟨?_, fun a => rfl, rfl, ?_, ?_⟩
  · intro loc defid
    simp only [inconsequential_node, Bool.and_eq_true, Bool.not_eq_true',
      decide_eq_true_eq]
    rw [as_local_match_iff, no_significant_edge_iff]
    constructor
    · rintro ⟨⟨⟨⟨h1, h2⟩, h3⟩, h4⟩, h5, h6, h7⟩
      exact ⟨h1, h2, h3, h4, h5, h6, h7⟩
    · rintro ⟨h1, h2, h3, h4, h5, h6, h7⟩
      exact ⟨⟨⟨⟨h1, h2⟩, h3⟩, h4⟩, h5, h6, h7⟩
  · intro x
    have hfoldn := remove_calls_fold_nodes (g.nodes.filter (inconsequential_node ctx g)) g hcl
    rw [remove_inconsequential_calls, hfoldn.1, mem_foldl_erase _ _ hnd x,
      List.mem_filter]
    constructor
    · rintro ⟨hxL, hnot⟩
      refine ⟨hxL, ?_⟩
      cases hb : inconsequential_node ctx g x
      · rfl
      · exact absurd ⟨hxL, hb⟩ hnot
    · rintro ⟨hxL, hfalse⟩
      refine ⟨hxL, ?_⟩
      rintro ⟨_, htrue⟩
      rw [hfalse] at htrue
      exact Bool.noConfusion htrue
  · intro n hfilter hself
    rw [remove_inconsequential_calls, hfilter]
    exact rewire_node_spec g n hwf hself hcl

/-- The non-root call node of the C7 counterexample. -/
def nC7 : GNode := .Call (GLoc.nest 0 ⟨0, 0⟩ (GLoc.base 1 ⟨1, 1⟩), 5)

/-- The C7 counterexample graph: an argument feeds the non-root call
which feeds the return, both edges carrying data. -/
def gC7 : Graph := ⟨[.Argument 0, nC7, .Return],
  [(.Argument 0, nC7, ⟨{0}, false⟩), (nC7, .Return, ⟨{0}, false⟩)]⟩

/-- Counterexample to the spec's removal condition for C7: this call
node satisfies every condition the spec lists — not semantically
meaningful, not the always-keep generator construct, not an inlining
candidate, and its incoming/outgoing edges satisfy the removal
policy — yet it survives removal because its location is nested rather
than at the root, a condition the code checks and the spec omits. -/
theorem C7_root_condition_counterexample :
    (ctxNoReach.is_semantically_meaningful 5 = false ∧
     some 5 ≠ ctxNoReach.from_generator_fn ∧
     ctxNoReach.as_local 5 = none ∧
     no_significant_edge gC7 nC7 ctxNoReach.remove_ctrl_flow_source = true ∧
     (GLoc.nest 0 ⟨0, 0⟩ (GLoc.base 1 ⟨1, 1⟩)).isAtRoot = false) ∧
    inconsequential_node ctxNoReach gC7 nC7 = false ∧
    remove_inconsequential_calls ctxNoReach gC7 = gC7 ∧
    nC7 ∈ (remove_inconsequential_calls ctxNoReach gC7).nodes := by decide

/-- The C7 witness graph: the same shape as the counterexample but
with the call at an at-root location, so it is removed. -/
def gC7r : Graph := ⟨[.Argument 0, .Call (locW, 5), .Return],
  [(.Argument 0, .Call (locW, 5), ⟨{0}, false⟩),
   (.Call (locW, 5), .Return, ⟨{1}, false⟩)]⟩

/-- Witness for C7: the at-root inconsequential call is removed and
its neighbours rewired (the outgoing weight moves to the new direct
edge). -/
theorem C7_remove_inconsequential_calls_witness :
    remove_inconsequential_calls ctxNoReach gC7r =
      ⟨[.Argument 0, .Return], [(.Argument 0, .Return, ⟨{1}, false⟩)]⟩ ∧
    ((.Call (locW, 5) : GNode) ∉ (remove_inconsequential_calls ctxNoReach gC7r).nodes) := by
  have h := C7_remove_inconsequential_calls ctxNoReach gC7r
    (by decide) (by rw [Graph.edgesWF]; decide) (by rw [Graph.closedEdges]; decide)
  refine ⟨by decide, ?_⟩
  intro hmem
  have hiff := (h.2.2.2.1 (.Call (locW, 5))).mp hmem
  have htrue : inconsequential_node ctxNoReach gC7r (.Call (locW, 5)) = true := by decide
  rw [htrue] at hiff
  exact Bool.noConfusion hiff.2

/-!
Conservative may-write equations for non-inlined calls
(`Inliner::perform_subfunction_inlining`, `inline.rs` lines 789-807,
and `Inliner::writeable_arguments`, lines 672-679).
-/

/-- `Inliner::writeable_arguments`: the argument indices whose input
type is a mutable pointer (`enumerate().filter_map(...)` over the
signature's inputs; the signature is modelled as the per-index
`is_mutable_ptr` booleans `fn_sig_inputs`). -/
def writeable_arguments (fn_sig : List Bool) : List Nat :=
  (List.range fn_sig.length).filterMap
    (fun i => if fn_sig.getD i false then some i else none)

/-- The `writeables` vector of the abstraction block (`inline.rs` lines
793-797): the locals of the non-constant arguments at writeable
indices, chained with the return destination, as root global locals. -/
def call_writeables (ctx : Ctx) (function : Nat) (call : RCall) : List GlobalLocal :=
  (((writeable_arguments (ctx.fn_sig_inputs function)).filterMap
      (fun idx => (call.arguments.getD idx none).map (fun i => i.1))) ++
    call.return_to.toList).map GlobalLocal.at_root

/-- The equations extended onto `eqs` for a call that is not inlined
(`inline.rs` lines 798-806): for every writeable and every argument
local read by the call other than the writeable itself, equate the
written local extended with an unknown projection with the read
local. -/
def abstract_call_equations (ctx : Ctx) (function : Nat) (call : RCall) :
    List (Equality GlobalLocal) :=
  (call_writeables ctx function call).flatMap (fun write =>
    ((call.argument_locals.map GlobalLocal.at_root).filter
        (fun read => decide (read ≠ write))).map
      (fun read => Equality.new ((Term.new_base write).add_unknown) (Term.new_base read)))

theorem mem_writeable_arguments (fn_sig : List Bool) (i : Nat) :
    i ∈ writeable_arguments fn_sig ↔
      (i < fn_sig.length ∧ fn_sig.getD i false = true) := by
  rw [writeable_arguments, List.mem_filterMap]
  constructor
  · rintro ⟨j, hj, hf⟩
    rw [List.mem_range] at hj
    revert hf
    by_cases ht : fn_sig.getD j false = true
    · rw [if_pos ht]
      intro hf
      cases hf
      exact ⟨hj, ht⟩
    · rw [if_neg ht]
      exact fun hf => Option.noConfusion hf
  · rintro ⟨hi, ht⟩
    exact ⟨i, List.mem_range.mpr hi, by rw [if_pos ht]⟩

/-- C3: the conservative may-write equations added for a call site
whose callee is not inlined.  An equation is added for every pair of a
writeable location of the call (mutable-pointer argument locals
chained with the return destination) and an argument local read by the
call — except that, contrary to the claim's "every argument read", the
code skips the pair when the read local is the written local itself
(the `read != write` filter at `inline.rs` line 802). -/
theorem C3_conservative_equations (ctx : Ctx) (function : Nat) (call : RCall) :
    (∀ (fn_sig : List Bool) (i : Nat), i ∈ writeable_arguments fn_sig ↔
      (i < fn_sig.length ∧ fn_sig.getD i false = true)) ∧
    (∀ eq, eq ∈ abstract_call_equations ctx function call ↔
      ∃ write ∈ call_writeables ctx function call,
        ∃ read ∈ call.argument_locals.map GlobalLocal.at_root,
          read ≠ write ∧
          eq = Equality.new ((Term.new_base write).add_unknown) (Term.new_base read)) := by
  refine ⟨fun fn_sig i => mem_writeable_arguments fn_sig i, ?_⟩
  intro eq
  rw [abstract_call_equations, List.mem_flatMap]
  constructor
  · rintro ⟨write, hw, hmem⟩
    obtain ⟨read, hr, heq⟩ := List.mem_map.mp hmem
    have hrf := List.mem_filter.mp hr
    refine ⟨write, hw, read, hrf.1, ?_, heq.symm⟩
    simpa using hrf.2
  · rintro ⟨write, hw, read, hr, hne, heq⟩
    exact ⟨write, hw, List.mem_map.mpr ⟨read,
      List.mem_filter.mpr ⟨hr, by simpa using hne⟩, heq.symm⟩⟩

/-- An analysis context whose every function signature has one mutable
pointer input. -/
def ctxC3 : Ctx := { ctxNoReach with fn_sig_inputs := fun _ => [true] }

/-- A call passing local 5 for its single (writeable) argument. -/
def callC3 : RCall := ⟨7, [some (5, [])], [], none⟩

/-- Counterexample to C3's "every argument read": local 5 is both a
writeable location of the call and an argument local read by it, yet
no equation at all is added, because the code filters out the pair
with `read != write`. -/
theorem C3_self_read_counterexample :
    GlobalLocal.at_root 5 ∈ call_writeables ctxC3 7 callC3 ∧
    GlobalLocal.at_root 5 ∈ callC3.argument_locals.map GlobalLocal.at_root ∧
    abstract_call_equations ctxC3 7 callC3 = [] := by decide

/-- Witness for C4: the two presentation orders of the same graph give
structurally identical extractions. -/
theorem C4_output_deterministic_witness :
    ∃ f f', to_call_only_flow gW mkArgW = some f ∧
      to_call_only_flow gW4 mkArgW = some f' ∧
      (f.location_dependencies.map Prod.fst).Perm
        (f'.location_dependencies.map Prod.fst) ∧
      (∀ loc, f.location_dependencies.lookup loc =
        f'.location_dependencies.lookup loc) ∧
      f.return_dependencies = f'.return_dependencies :=
  C4_output_deterministic gW gW4 mkArgW (by decide) (by decide) (by decide) (by decide)

/-!
The recursion-breaking memoization (`RecursionBreakingCache::get`,
`utils.rs` lines 883-908) and the inlining recursion
(`Inliner::get_inlined_graph`/`inline_graph`/
`perform_subfunction_inlining`, `inline.rs` lines 604-619, 719-970,
975-1039).  The memoization state is the explicit association list
`List (Nat × Option InlinedGraph)` (`None` = the in-progress
placeholder); running out of the explicit fuel is the `fuelOut`
outcome, a panicking `unwrap`/`assert` is `panic`.
-/

/-- `InlinedGraph` (`inline.rs` lines 150-171): graph, equations and
the inlining counters. -/
structure InlinedGraph where
  graph : Graph
  equations : List (Equality GlobalLocal)
  num_inlined : Nat
  max_call_stack_depth : Nat
  deriving DecidableEq

/-- `InlineAction` (`inline.rs` lines 564-568); the async closure's
place argument is irrelevant to the recursion and dropped. -/
inductive InlineAction where
  | SimpleInline (lid : Nat)
  | InlineAsyncClosure (lid : Nat)
  | Drop
  deriving DecidableEq, Repr

/-- The outcome of a fueled computation: out of fuel, a modelled
panic, or a value. -/
inductive FRes (α : Type) where
  | fuelOut
  | panic
  | ok (val : α)
  deriving DecidableEq

/-- `map.insert(key, v)` on a key already present: replace its
entry. -/
def cache_set (c : List (Nat × Option InlinedGraph)) (k : Nat)
    (v : Option InlinedGraph) : List (Nat × Option InlinedGraph) :=
  c.map (fun p => if p.1 = k then (k, v) else p)

/-- The node a body's call site contributes to its inlined graph (the
globalized call location paired with the callee). -/
def nodeOf (bid : Nat) (c : MirLoc × RCall) : GNode :=
  .Call (GLoc.base bid c.1, c.2.function)

/-- The classification of one call site (`inline.rs` lines 742-808):
under recursive analysis a local callee selected by the oracle is
`SimpleInline`, a `from_generator_fn` call inlines the generator
closure found in the body (`ctx.async_closure`; a failed lookup is the
modelled `unwrap` panic, outer `none`), a `future_poll_fn` call under
`drop_poll` is dropped; anything else (inner `none`) falls through to
the conservative abstraction. -/
def classify (ctx : Ctx) (bid : Nat) (c : MirLoc × RCall) :
    Option (Option InlineAction) :=
  if ctx.use_recursive_analysis then
    let afterLocal :=
      if some c.2.function = ctx.from_generator_fn then
        match ctx.async_closure bid c.1 with
        | some (clid, _) => some (some (.InlineAsyncClosure clid))
        | none => none
      else if some c.2.function = ctx.future_poll_fn && ctx.drop_poll then
        some (some .Drop)
      else some none
    match ctx.as_local c.2.function with
    | some lid => if ctx.should_inline lid then some (some (.SimpleInline lid)) else afterLocal
    | none => afterLocal
  else some none

/-- The `targets` construction (`inline.rs` lines 736-809): classify
each call in order; an abstained call extends the equations with the
conservative may-write equations, a classified call becomes an action
target; `none` is a modelled panic during classification. -/
def classify_calls (ctx : Ctx) (bid : Nat) :
    Option (List (Equality GlobalLocal) × List ((MirLoc × RCall) × InlineAction)) :=
  (ctx.bodies bid).calls.foldlM
    (fun (acc : List (Equality GlobalLocal) × List ((MirLoc × RCall) × InlineAction)) c =>
      match classify ctx bid c with
      | none => none
      | some none =>
        some (acc.1 ++ abstract_call_equations ctx c.2.function c.2, acc.2)
      | some (some a) => some (acc.1, acc.2 ++ [(c, a)]))
    ([], [])

/-- The `Drop` action (`inline.rs` lines 814-852): assert the callee
is `future_poll_fn` and each incoming weight sets exactly one of
data-0, data-1, control; rewire the data-0 sources onto all outgoing
edges, record the return equation, delete the node.  `none` models the
`assert!`/`unwrap` panics. -/
def drop_effect (ctx : Ctx) (bid : Nat) (c : MirLoc × RCall)
    (gwr : InlinedGraph) : Option InlinedGraph :=
  if some c.2.function = ctx.future_poll_fn then
    let idx : GNode := nodeOf bid c
    if (gwr.graph.edges_in idx).all (fun p =>
        Bool.xor (Bool.xor (decide (0 ∈ p.2.data)) (decide (1 ∈ p.2.data)))
          p.2.control) then
      let incoming := (gwr.graph.edges_in idx).filterMap
        (fun p => if 0 ∈ p.2.data then some p.1 else none)
      let outgoing := gwr.graph.edges_out idx
      let g1 := incoming.foldl
        (fun h fr => outgoing.foldl (fun h2 p => add_weighted_edge h2 fr p.1 p.2) h)
        gwr.graph
      match c.2.return_to with
      | some rl =>
        match c.2.arguments.getD 0 none with
        | some arg => some { gwr with
            graph := g1.remove_node idx,
            equations := gwr.equations ++ [Equality.new
              (Term.new_base (GlobalLocal.at_root rl))
              (Term.new_base (GlobalLocal.at_root arg.1))] }
        | none => none
      | none => some { gwr with graph := g1.remove_node idx }
    else none
  else none

mutual

/-- `Inliner::get_inlined_graph` through `RecursionBreakingCache::get`
(`utils.rs` lines 890-907): a present key returns its stored entry —
`none` when the placeholder of an in-progress computation is hit — and
an absent key inserts the `none` placeholder, computes `inline_graph`,
then replaces the placeholder with the result.  `base` is the graph
`InlinedGraph::from_body` builds from the procedure's regal body and
`splice` is the graph surgery replacing one call node by a callee
graph (`inline.rs` lines 864-957); both consume the `regal`/
`ir::global_location` data absent from `src/` and neither makes
inlining requests, so they are parameters here. -/
def getInlined (ctx : Ctx) (base : Nat → InlinedGraph)
    (splice : InlinedGraph → GNode → InlinedGraph → InlinedGraph)
    (fuel : Nat) (cache : List (Nat × Option InlinedGraph)) (bid : Nat) :
    FRes (Option InlinedGraph × List (Nat × Option InlinedGraph)) :=
  match fuel with
  | 0 => .fuelOut
  | fuel + 1 =>
    match cache.lookup bid with
    | some entry => .ok (entry, cache)
    | none =>
      match inlineGraph ctx base splice fuel (cache ++ [(bid, none)]) bid with
      | .fuelOut => .fuelOut
      | .panic => .panic
      | .ok (ig, cache2) => .ok (some ig, cache_set cache2 bid (some ig))
termination_by (fuel, 0, 0)

/-- `Inliner::inline_graph` (`inline.rs` lines 975-1039): the base
graph of the body, the conservative equations of the abstained calls,
the action loop, then inconsequential-call removal when enabled (the
pruning pass that follows makes no inlining requests and is treated in
its own claims). -/
def inlineGraph (ctx : Ctx) (base : Nat → InlinedGraph)
    (splice : InlinedGraph → GNode → InlinedGraph → InlinedGraph)
    (fuel : Nat) (cache : List (Nat × Option InlinedGraph)) (bid : Nat) :
    FRes (InlinedGraph × List (Nat × Option InlinedGraph)) :=
  match classify_calls ctx bid with
  | none => .panic
  | some (eqsAdd, targets) =>
    match performActions ctx base splice fuel bid targets cache
        { base bid with equations := (base bid).equations ++ eqsAdd } with
    | .fuelOut => .fuelOut
    | .panic => .panic
    | .ok (gwr, cache2) =>
      .ok (if ctx.remove_inconsequential then
          { gwr with graph := remove_inconsequential_calls ctx gwr.graph }
        else gwr, cache2)
termination_by (fuel, 2, 0)

/-- The action loop of `perform_subfunction_inlining` (`inline.rs`
lines 810-957): `Drop` rewires the poll call; an inline action asks
for the callee's inlined graph — a missing body or the recursion
placeholder (`None`) skips the call site, leaving the opaque call
node — and otherwise splices the callee in, updating the counters. -/
def performActions (ctx : Ctx) (base : Nat → InlinedGraph)
    (splice : InlinedGraph → GNode → InlinedGraph → InlinedGraph)
    (fuel : Nat) (bid : Nat) (ts : List ((MirLoc × RCall) × InlineAction))
    (cache : List (Nat × Option InlinedGraph)) (gwr : InlinedGraph) :
    FRes (InlinedGraph × List (Nat × Option InlinedGraph)) :=
  match ts with
  | [] => .ok (gwr, cache)
  | (c, act) :: rest =>
    match act with
    | .Drop =>
      match drop_effect ctx bid c gwr with
      | none => .panic
      | some gwr1 => performActions ctx base splice fuel bid rest cache gwr1
    | .SimpleInline lid =>
      match ctx.body_of lid with
      | none => performActions ctx base splice fuel bid rest cache gwr
      | some bid2 =>
        match getInlined ctx base splice fuel cache bid2 with
        | .fuelOut => .fuelOut
        | .panic => .panic
        | .ok (none, cache1) => performActions ctx base splice fuel bid rest cache1 gwr
        | .ok (some cg, cache1) =>
          performActions ctx base splice fuel bid rest cache1
            { splice gwr (nodeOf bid c) cg with
              num_inlined := gwr.num_inlined + 1 + cg.num_inlined,
              max_call_stack_depth := max gwr.max_call_stack_depth
                (cg.max_call_stack_depth + 1) }
    | .InlineAsyncClosure lid =>
      match ctx.body_of lid with
      | none => performActions ctx base splice fuel bid rest cache gwr
      | some bid2 =>
        match getInlined ctx base splice fuel cache bid2 with
        | .fuelOut => .fuelOut
        | .panic => .panic
        | .ok (none, cache1) => performActions ctx base splice fuel bid rest cache1 gwr
        | .ok (some cg, cache1) =>
          performActions ctx base splice fuel bid rest cache1
            { splice gwr (nodeOf bid c) cg with
              num_inlined := gwr.num_inlined + 1 + cg.num_inlined,
              max_call_stack_depth := max gwr.max_call_stack_depth
                (cg.max_call_stack_depth + 1) }
termination_by (fuel, 1, ts.length)

end

theorem cache_lookup_isSome_iff (l : List (Nat × Option InlinedGraph)) (k : Nat) :
    (l.lookup k).isSome ↔ k ∈ l.map Prod.fst := by
  induction l with
  | nil => simp [List.lookup]
  | cons x xs ih =>
    rw [List.lookup]
    by_cases hax : k = x.1
    · simp [hax]
    · have hbeq : (k == x.1) = false := by
        simp only [beq_eq_false_iff_ne, ne_eq]
        exact hax
      rw [hbeq]
      simp only [List.map_cons, List.mem_cons]
      rw [ih]
      simp [hax]

theorem cache_set_fst (c : List (Nat × Option InlinedGraph)) (k : Nat)
    (v : Option InlinedGraph) :
    (cache_set c k v).map Prod.fst = c.map Prod.fst := by
  rw [cache_set, List.map_map]
  apply List.map_congr_left
  intro p _
  by_cases h : p.1 = k
  · simp only [Function.comp_apply]
    rw [if_pos h]
    exact h.symm
  · simp only [Function.comp_apply]
    rw [if_neg h]

theorem cache_set_length (c : List (Nat × Option InlinedGraph)) (k : Nat)
    (v : Option InlinedGraph) : (cache_set c k v).length = c.length := by
  rw [cache_set, List.length_map]

/-- The memoization invariant: distinct keys, all of them analyzed
procedures. -/
def cacheInv (n : Nat) (c : List (Nat × Option InlinedGraph)) : Prop :=
  (c.map Prod.fst).Nodup ∧ ∀ k ∈ c.map Prod.fst, k < n

theorem nat_list_length_le (n : Nat) (l : List Nat) (hnd : l.Nodup)
    (hb : ∀ x ∈ l, x < n) : l.length ≤ n := by
  have hsub : l.toFinset ⊆ Finset.range n :=
    fun x hx => Finset.mem_range.mpr (hb x (List.mem_toFinset.mp hx))
  have hcard := Finset.card_le_card hsub
  rw [List.toFinset_card_of_nodup hnd] at hcard
  simpa using hcard

theorem cacheInv_length_le (n : Nat) (c : List (Nat × Option InlinedGraph))
    (h : cacheInv n c) : c.length ≤ n := by
  have := nat_list_length_le n (c.map Prod.fst) h.1 h.2
  rw [List.length_map] at this
  exact this

theorem inline_fuel_spec (ctx : Ctx) (base : Nat → InlinedGraph)
    (splice : InlinedGraph → GNode → InlinedGraph → InlinedGraph)
    (hbody : ∀ d b, ctx.body_of d = some b → b < ctx.nprocs) :
    ∀ fuel : Nat,
    (∀ cache bid, cacheInv ctx.nprocs cache → bid < ctx.nprocs →
      ctx.nprocs + 1 ≤ fuel + cache.length →
      getInlined ctx base splice fuel cache bid ≠ .fuelOut ∧
      (∀ r c', getInlined ctx base splice fuel cache bid = .ok (r, c') →
        cacheInv ctx.nprocs c' ∧ cache.length ≤ c'.length)) ∧
    (∀ ts cache bid gwr, cacheInv ctx.nprocs cache →
      ctx.nprocs + 1 ≤ fuel + cache.length →
      performActions ctx base splice fuel bid ts cache gwr ≠ .fuelOut ∧
      (∀ r c', performActions ctx base splice fuel bid ts cache gwr = .ok (r, c') →
        cacheInv ctx.nprocs c' ∧ cache.length ≤ c'.length)) ∧
    (∀ cache bid, cacheInv ctx.nprocs cache →
      ctx.nprocs + 1 ≤ fuel + cache.length →
      inlineGraph ctx base splice fuel cache bid ≠ .fuelOut ∧
      (∀ r c', inlineGraph ctx base splice fuel cache bid = .ok (r, c') →
        cacheInv ctx.nprocs c' ∧ cache.length ≤ c'.length)) := by
  intro fuel
  induction fuel using Nat.strong_induction_on with
  | _ fuel IH =>
  have hPG : ∀ cache bid, cacheInv ctx.nprocs cache → bid < ctx.nprocs →
      ctx.nprocs + 1 ≤ fuel + cache.length →
      getInlined ctx base splice fuel cache bid ≠ .fuelOut ∧
      (∀ r c', getInlined ctx base splice fuel cache bid = .ok (r, c') →
        cacheInv ctx.nprocs c' ∧ cache.length ≤ c'.length) := by
    intro cache bid hinv hbid hfb
    cases fuel with
    | zero =>
      exfalso
      have := cacheInv_length_le ctx.nprocs cache hinv
      omega
    | succ f =>
      obtain ⟨_, _, hPIf⟩ := IH f (Nat.lt_succ_self f)
      cases hlk : cache.lookup bid with
      | some entry =>
        have hval : getInlined ctx base splice (f + 1) cache bid = .ok (entry, cache) := by
          rw [getInlined, hlk]
        refine ⟨by rw [hval]; exact fun h => FRes.noConfusion h, ?_⟩
        intro r c' h
        rw [hval] at h
        cases h
        exact ⟨hinv, Nat.le_refl _⟩
      | none =>
        have hnotin : bid ∉ cache.map Prod.fst := by
          intro hmem
          have := (cache_lookup_isSome_iff cache bid).mpr hmem
          rw [hlk] at this
          exact Bool.noConfusion this
        have hinv1 : cacheInv ctx.nprocs (cache ++ [(bid, none)]) := by
          constructor
          · rw [List.map_append, List.nodup_append]
            refine ⟨hinv.1, by simp, ?_⟩
            intro x hx hx'
            rw [List.map_cons, List.map_nil, List.mem_singleton] at hx'
            subst hx'
            exact hnotin hx
          · intro k hk
            rw [List.map_append, List.mem_append] at hk
            rcases hk with h | h
            · exact hinv.2 k h
            · rw [List.map_cons, List.map_nil, List.mem_singleton] at h
              subst h
              exact hbid
        have hb1 : ctx.nprocs + 1 ≤ f + (cache ++ [(bid, none)]).length := by
          rw [List.length_append]
          simp only [List.length_cons, List.length_nil]
          omega
        obtain ⟨hne, hok⟩ := hPIf (cache ++ [(bid, none)]) bid hinv1 hb1
        cases hig : inlineGraph ctx base splice f (cache ++ [(bid, none)]) bid with
        | fuelOut => exact absurd hig hne
        | panic =>
          have hval : getInlined ctx base splice (f + 1) cache bid = .panic := by
            rw [getInlined, hlk, hig]
          refine ⟨by rw [hval]; exact fun h => FRes.noConfusion h, ?_⟩
          intro r c' h
          rw [hval] at h
          exact FRes.noConfusion h
        | ok pair =>
          obtain ⟨ig, cache2⟩ := pair
          have hval : getInlined ctx base splice (f + 1) cache bid =
              .ok (some ig, cache_set cache2 bid (some ig)) := by
            rw [getInlined, hlk, hig]
          obtain ⟨hinv2, hlen2⟩ := hok ig cache2 hig
          refine ⟨by rw [hval]; exact fun h => FRes.noConfusion h, ?_⟩
          intro r c' h
          rw [hval] at h
          cases h
          constructor
          · constructor
            · rw [cache_set_fst]
              exact hinv2.1
            · intro k hk
              rw [cache_set_fst] at hk
              exact hinv2.2 k hk
          · rw [cache_set_length]
            have : (cache ++ [(bid, none)]).length ≤ cache2.length := hlen2
            rw [List.length_append] at this
            simp only [List.length_cons, List.length_nil] at this
            omega
  have hPA : ∀ ts cache bid gwr, cacheInv ctx.nprocs cache →
      ctx.nprocs + 1 ≤ fuel + cache.length →
      performActions ctx base splice fuel bid ts cache gwr ≠ .fuelOut ∧
      (∀ r c', performActions ctx base splice fuel bid ts cache gwr = .ok (r, c') →
        cacheInv ctx.nprocs c' ∧ cache.length ≤ c'.length) := by
    intro ts
    induction ts with
    | nil =>
      intro cache bid gwr hinv _
      have hval : performActions ctx base splice fuel bid [] cache gwr = .ok (gwr, cache) := by
        rw [performActions]
      refine ⟨by rw [hval]; exact fun h => FRes.noConfusion h, ?_⟩
      intro r c' h
      rw [hval] at h
      cases h
      exact ⟨hinv, Nat.le_refl _⟩
    | cons t rest ihts =>
      intro cache bid gwr hinv hfb
      obtain ⟨c, act⟩ := t
      cases act with
      | Drop =>
        cases hdrop : drop_effect ctx bid c gwr with
        | none =>
          have hval : performActions ctx base splice fuel bid ((c, .Drop) :: rest) cache gwr =
              .panic := by
            simp only [performActions, hdrop]
          refine ⟨by rw [hval]; exact fun h => FRes.noConfusion h, ?_⟩
          intro r c' h
          rw [hval] at h
          exact FRes.noConfusion h
        | some gwr1 =>
          have hval : performActions ctx base splice fuel bid ((c, .Drop) :: rest) cache gwr =
              performActions ctx base splice fuel bid rest cache gwr1 := by
            simp only [performActions, hdrop]
          rw [hval]
          exact ihts cache bid gwr1 hinv hfb
      | SimpleInline lid =>
        cases hbo : ctx.body_of lid with
        | none =>
          have hval : performActions ctx base splice fuel bid
              ((c, .SimpleInline lid) :: rest) cache gwr =
              performActions ctx base splice fuel bid rest cache gwr := by
            simp only [performActions, hbo]
          rw [hval]
          exact ihts cache bid gwr hinv hfb
        | some bid2 =>
          have hbid2 : bid2 < ctx.nprocs := hbody lid bid2 hbo
          obtain ⟨hgne, hgok⟩ := hPG cache bid2 hinv hbid2 hfb
          cases hg : getInlined ctx base splice fuel cache bid2 with
          | fuelOut => exact absurd hg hgne
          | panic =>
            have hval : performActions ctx base splice fuel bid
                ((c, .SimpleInline lid) :: rest) cache gwr = .panic := by
              simp only [performActions, hbo, hg]
            refine ⟨by rw [hval]; exact fun h => FRes.noConfusion h, ?_⟩
            intro r c' h
            rw [hval] at h
            exact FRes.noConfusion h
          | ok pair =>
            obtain ⟨rr, cache1⟩ := pair
            obtain ⟨hinv1, hlen1⟩ := hgok rr cache1 hg
            have hfb1 : ctx.nprocs + 1 ≤ fuel + cache1.length := by omega
            cases rr with
            | none =>
              have hval : performActions ctx base splice fuel bid
                  ((c, .SimpleInline lid) :: rest) cache gwr =
                  performActions ctx base splice fuel bid rest cache1 gwr := by
                simp only [performActions, hbo, hg]
              rw [hval]
              obtain ⟨hne', hok'⟩ := ihts cache1 bid gwr hinv1 hfb1
              refine ⟨hne', ?_⟩
              intro r c' h
              obtain ⟨hi, hl⟩ := hok' r c' h
              exact ⟨hi, Nat.le_trans hlen1 hl⟩
            | some cg =>
              have hval : performActions ctx base splice fuel bid
                  ((c, .SimpleInline lid) :: rest) cache gwr =
                  performActions ctx base splice fuel bid rest cache1
                    { splice gwr (nodeOf bid c) cg with
                      num_inlined := gwr.num_inlined + 1 + cg.num_inlined,
                      max_call_stack_depth := max gwr.max_call_stack_depth
                        (cg.max_call_stack_depth + 1) } := by
                simp only [performActions, hbo, hg]
              rw [hval]
              obtain ⟨hne', hok'⟩ := ihts cache1 bid _ hinv1 hfb1
              refine ⟨hne', ?_⟩
              intro r c' h
              obtain ⟨hi, hl⟩ := hok' r c' h
              exact ⟨hi, Nat.le_trans hlen1 hl⟩
      | InlineAsyncClosure lid =>
        cases hbo : ctx.body_of lid with
        | none =>
          have hval : performActions ctx base splice fuel bid
              ((c, .InlineAsyncClosure lid) :: rest) cache gwr =
              performActions ctx base splice fuel bid rest cache gwr := by
            simp only [performActions, hbo]
          rw [hval]
          exact ihts cache bid gwr hinv hfb
        | some bid2 =>
          have hbid2 : bid2 < ctx.nprocs := hbody lid bid2 hbo
          obtain ⟨hgne, hgok⟩ := hPG cache bid2 hinv hbid2 hfb
          cases hg : getInlined ctx base splice fuel cache bid2 with
          | fuelOut => exact absurd hg hgne
          | panic =>
            have hval : performActions ctx base splice fuel bid
                ((c, .InlineAsyncClosure lid) :: rest) cache gwr = .panic := by
              simp only [performActions, hbo, hg]
            refine ⟨by rw [hval]; exact fun h => FRes.noConfusion h, ?_⟩
            intro r c' h
            rw [hval] at h
            exact FRes.noConfusion h
          | ok pair =>
            obtain ⟨rr, cache1⟩ := pair
            obtain ⟨hinv1, hlen1⟩ := hgok rr cache1 hg
            have hfb1 : ctx.nprocs + 1 ≤ fuel + cache1.length := by omega
            cases rr with
            | none =>
              have hval : performActions ctx base splice fuel bid
                  ((c, .InlineAsyncClosure lid) :: rest) cache gwr =
                  performActions ctx base splice fuel bid rest cache1 gwr := by
                simp only [performActions, hbo, hg]
              rw [hval]
              obtain ⟨hne', hok'⟩ := ihts cache1 bid gwr hinv1 hfb1
              refine ⟨hne', ?_⟩
              intro r c' h
              obtain ⟨hi, hl⟩ := hok' r c' h
              exact ⟨hi, Nat.le_trans hlen1 hl⟩
            | some cg =>
              have hval : performActions ctx base splice fuel bid
                  ((c, .InlineAsyncClosure lid) :: rest) cache gwr =
                  performActions ctx base splice fuel bid rest cache1
                    { splice gwr (nodeOf bid c) cg with
                      num_inlined := gwr.num_inlined + 1 + cg.num_inlined,
                      max_call_stack_depth := max gwr.max_call_stack_depth
                        (cg.max_call_stack_depth + 1) } := by
                simp only [performActions, hbo, hg]
              rw [hval]
              obtain ⟨hne', hok'⟩ := ihts cache1 bid _ hinv1 hfb1
              refine ⟨hne', ?_⟩
              intro r c' h
              obtain ⟨hi, hl⟩ := hok' r c' h
              exact ⟨hi, Nat.le_trans hlen1 hl⟩
  have hPI : ∀ cache bid, cacheInv ctx.nprocs cache →
      ctx.nprocs + 1 ≤ fuel + cache.length →
      inlineGraph ctx base splice fuel cache bid ≠ .fuelOut ∧
      (∀ r c', inlineGraph ctx base splice fuel cache bid = .ok (r, c') →
        cacheInv ctx.nprocs c' ∧ cache.length ≤ c'.length) := by
    intro cache bid hinv hfb
    cases hcc : classify_calls ctx bid with
    | none =>
      have hval : inlineGraph ctx base splice fuel cache bid = .panic := by
        simp only [inlineGraph, hcc]
      refine ⟨by rw [hval]; exact fun h => FRes.noConfusion h, ?_⟩
      intro r c' h
      rw [hval] at h
      exact FRes.noConfusion h
    | some pair =>
      obtain ⟨eqsAdd, targets⟩ := pair
      obtain ⟨hane, haok⟩ := hPA targets cache bid
        { base bid with equations := (base bid).equations ++ eqsAdd } hinv hfb
      cases hpa : performActions ctx base splice fuel bid targets cache
          { base bid with equations := (base bid).equations ++ eqsAdd } with
      | fuelOut => exact absurd hpa hane
      | panic =>
        have hval : inlineGraph ctx base splice fuel cache bid = .panic := by
          simp only [inlineGraph, hcc, hpa]
        refine ⟨by rw [hval]; exact fun h => FRes.noConfusion h, ?_⟩
        intro r c' h
        rw [hval] at h
        exact FRes.noConfusion h
      | ok pair2 =>
        obtain ⟨gwr, cache2⟩ := pair2
        have hval : inlineGraph ctx base splice fuel cache bid =
            .ok (if ctx.remove_inconsequential then
                { gwr with graph := remove_inconsequential_calls ctx gwr.graph }
              else gwr, cache2) := by
          simp only [inlineGraph, hcc, hpa]
        refine ⟨by rw [hval]; exact fun h => FRes.noConfusion h, ?_⟩
        intro r c' h
        rw [hval] at h
        cases h
        exact haok gwr cache2 hpa
  exact ⟨hPG, hPA, hPI⟩

/-- C1: the recursion-breaking cache and termination.  (1) While a
procedure's inlined graph is being computed its memo entry holds the
`none` placeholder, and a nested request for the same procedure
returns that `none` immediately with the memo unchanged — nothing
recurses or blocks. (2) The inliner then skips inlining that call
site: an action step whose callee request comes back `none` proceeds
to the remaining targets with the graph under construction untouched,
keeping the opaque call node. (3) Consequently inlining terminates on
every procedure set, directly or mutually recursive ones included:
`nprocs + 1` fuel, less the entries already memoized, is never
exhausted, whatever the base graphs and the splice function. -/
theorem C1_recursion_breaking_and_termination (ctx : Ctx)
    (base : Nat → InlinedGraph)
    (splice : InlinedGraph → GNode → InlinedGraph → InlinedGraph)
    (hbody : ∀ d b, ctx.body_of d = some b → b < ctx.nprocs) :
    (∀ fuel cache bid, cache.lookup bid = some none →
      getInlined ctx base splice (fuel + 1) cache bid = .ok (none, cache)) ∧
    (∀ fuel bid c lid rest cache gwr bid2,
      ctx.body_of lid = some bid2 →
      getInlined ctx base splice fuel cache bid2 = .ok (none, cache) →
      performActions ctx base splice fuel bid ((c, .SimpleInline lid) :: rest) cache gwr =
        performActions ctx base splice fuel bid rest cache gwr) ∧
    (∀ fuel cache bid, cacheInv ctx.nprocs cache → bid < ctx.nprocs →
      ctx.nprocs + 1 ≤ fuel + cache.length →
      getInlined ctx base splice fuel cache bid ≠ .fuelOut) := by
  refine ⟨?_, ?_, ?_⟩
  · intro fuel cache bid h
    rw [getInlined, h]
  · intro fuel bid c lid rest cache gwr bid2 hb hg
    simp only [performActions, hb, hg]
  · intro fuel cache bid hinv hbid hbound
    exact ((inline_fuel_spec ctx base splice hbody fuel).1 cache bid hinv hbid hbound).1

/-- A trivial base graph for the C1 witness. -/
def baseC1 : Nat → InlinedGraph := fun _ => ⟨⟨[], []⟩, [], 0, 0⟩

/-- A splice that keeps the caller graph, for the C1 witness. -/
def spliceC1 : InlinedGraph → GNode → InlinedGraph → InlinedGraph := fun g _ _ => g

/-- Two mutually recursive procedures: body 0 calls function 10 (whose
body is 1) and body 1 calls function 11 (whose body is 0), both
selected for inlining. -/
def ctxC1 : Ctx := { ctxNoReach with
  nprocs := 2,
  bodies := fun bid => if bid = 0 then ⟨[(⟨0, 0⟩, ⟨10, [], [], none⟩)], [], [], []⟩
    else ⟨[(⟨0, 0⟩, ⟨11, [], [], none⟩)], [], [], []⟩,
  should_inline := fun _ => true,
  as_local := fun d => some d,
  body_of := fun d => if d = 10 then some 1 else if d = 11 then some 0 else none }

/-- Witness for C1: on the mutually recursive pair, inlining from an
empty memo with `nprocs + 1` fuel does not run out, and a request
under the in-progress placeholder returns `none` with the memo
unchanged. -/
theorem C1_recursion_breaking_and_termination_witness :
    getInlined ctxC1 baseC1 spliceC1 3 [] 0 ≠ .fuelOut ∧
    getInlined ctxC1 baseC1 spliceC1 1 [(0, none)] 0 = .ok (none, [(0, none)]) := by
  have h := C1_recursion_breaking_and_termination ctxC1 baseC1 spliceC1 (by
    intro d b hb
    have hb' : (if d = 10 then some 1 else if d = 11 then some 0 else none) = some b := hb
    by_cases h10 : d = 10
    · rw [if_pos h10] at hb'
      cases hb'
      decide
    · rw [if_neg h10] at hb'
      by_cases h11 : d = 11
      · rw [if_pos h11] at hb'
        cases hb'
        decide
      · rw [if_neg h11] at hb'
        exact Option.noConfusion hb')
  exact ⟨h.2.2 3 [] 0 ⟨List.nodup_nil, fun k hk => absurd hk (List.not_mem_nil k)⟩
    (by decide) (by decide), h.1 0 [(0, none)] 0 (by decide)⟩

end Paralegal
